import Mathlib

/-!
# A fixed-capacity arena allocator (`cMemoryManager`)

Shallow embedding of `memory-manager-3/MemoryManager.cpp` together with
`MemoryChunk.h` and the trashing options of `MemoryManager.h`.

Modelling conventions.

* A pointer is a natural number (an absolute address); `nullptr` is `0`.
  `m_memory` is the address returned by `::new unsigned char[bytes]`.
* `unsigned int` values are natural numbers; every `unsigned int` operation
  of the source is reduced modulo `2 ^ 32` explicitly.  Pointer arithmetic is
  exact.
* `sizeof(cMemoryChunk)` is implementation defined, so it is a parameter
  (`chunkSize`, written `H` in the statements).
* The buffer is seen through two views.  `chunkAt a` is the `cMemoryChunk`
  object whose storage starts at address `a`; `byteAt a` is the value of the
  raw byte at `a` (`none` when the byte belongs to the object representation
  of a header that was written there, whose value is implementation defined).
  `memset` acts on the byte view: the fills of the source cover the payload of
  one header of the chain, and such a payload meets no header of the chain
  (`payload_meets_no_header`).
* The two `while` loops of the source follow `m_next` pointers.  They are
  modelled with a step budget of `m_totalBytesCount + 1` iterations and return
  `none` when the budget is used up; the theorems show that this never happens
  in a state the program can reach.
* The outer loop of `dump` advances by `bytesPerRow`, an argument of the
  caller.  Its model takes the bound on the number of evaluations of the loop
  condition as an argument and returns `none` when the loop is still running
  at that bound.  The text is modelled by the list of the items appended to the
  stream; every byte that `dump` reads goes through a checked read
  (`readByte`), which records whether the address lies in the buffer.
-/

set_option linter.dupNamespace false
set_option linter.unusedVariables false

namespace MemoryManager

/-- The number of values of an `unsigned int`. -/
def U32 : Nat := 2 ^ 32

/-- Addition of two `unsigned int`. -/
def add32 (a b : Nat) : Nat := (a + b) % U32

/-- Subtraction of two `unsigned int`. -/
def sub32 (a b : Nat) : Nat := (a % U32 + (U32 - b % U32)) % U32

/-- The header record `struct cMemoryChunk` of `MemoryChunk.h`. -/
structure cMemoryChunk where
  m_isInUse : Bool
  m_bytes : Nat
  m_previous : Nat
  m_next : Nat
  deriving DecidableEq

/-- The constructor `cMemoryChunk(unsigned int bytes)`. -/
def cMemoryChunk.cMemoryChunk (bytes : Nat) : cMemoryChunk :=
  { m_bytes := bytes, m_isInUse := false, m_previous := 0, m_next := 0 }

/-- The masks of `enum class eTrashing` (second column of
`MemoryManagerTrashingOptions`). -/
def eTrashing.NONE : Nat := 0

/-- Mask `1 << 0`. -/
def eTrashing.ON_INITIALIZATION : Nat := 1 <<< 0

/-- Mask `1 << 1`. -/
def eTrashing.ON_ALLOCATION : Nat := 1 <<< 1

/-- Mask `1 << 2`. -/
def eTrashing.ON_DEALLOCATION : Nat := 1 <<< 2

/-- Mask `ON_INITIALIZATION | ON_ALLOCATION | ON_DEALLOCATION`. -/
def eTrashing.ON_ALL : Nat :=
  eTrashing.ON_INITIALIZATION ||| eTrashing.ON_ALLOCATION ||| eTrashing.ON_DEALLOCATION

/-- The poison bytes of `enum class eTrashingValue` (third column of
`MemoryManagerTrashingOptions`). -/
def eTrashingValue.NONE : Nat := 0xFF

/-- Poison byte written at construction. -/
def eTrashingValue.ON_INITIALIZATION : Nat := 0xCD

/-- Poison byte written at allocation. -/
def eTrashingValue.ON_ALLOCATION : Nat := 0xAA

/-- Poison byte written at deallocation. -/
def eTrashingValue.ON_DEALLOCATION : Nat := 0xDD

/-- Poison byte of the `ON_ALL` row. -/
def eTrashingValue.ON_ALL : Nat := 0xFF

/-- The state of a `cMemoryManager` object together with the memory it
manages. -/
structure cMemoryManager where
  m_freeBytesCount : Nat
  m_totalBytesCount : Nat
  m_memory : Nat
  m_trashing : Nat
  chunkAt : Nat → cMemoryChunk
  byteAt : Nat → Option Nat

namespace cMemoryManager

/-- Writing a whole `cMemoryChunk` object at address `a`
(`*reinterpret_cast<cMemoryChunk *>(a) = c`).  The `H` bytes of its storage
take an implementation defined value. -/
def store (H : Nat) (s : cMemoryManager) (a : Nat) (c : cMemoryChunk) : cMemoryManager :=
  { s with
    chunkAt := fun x => if x = a then c else s.chunkAt x
    byteAt := fun x => if a ≤ x ∧ x < a + H then none else s.byteAt x }

/-- The assignment `a->m_previous = v`. -/
def set_m_previous (H : Nat) (s : cMemoryManager) (a v : Nat) : cMemoryManager :=
  s.store H a { s.chunkAt a with m_previous := v }

/-- The assignment `a->m_next = v`. -/
def set_m_next (H : Nat) (s : cMemoryManager) (a v : Nat) : cMemoryManager :=
  s.store H a { s.chunkAt a with m_next := v }

/-- The assignment `a->m_bytes = v`. -/
def set_m_bytes (H : Nat) (s : cMemoryManager) (a v : Nat) : cMemoryManager :=
  s.store H a { s.chunkAt a with m_bytes := v }

/-- The assignment `a->m_isInUse = v`. -/
def set_m_isInUse (H : Nat) (s : cMemoryManager) (a : Nat) (v : Bool) : cMemoryManager :=
  s.store H a { s.chunkAt a with m_isInUse := v }

/-- The call `memset(dst, value, count)`. -/
def memset (s : cMemoryManager) (dst value count : Nat) : cMemoryManager :=
  { s with byteAt := fun x => if dst ≤ x ∧ x < dst + count then some value else s.byteAt x }

/-- The constructor `cMemoryManager(unsigned int bytes, eTrashing trashing)`
(lines 8-24).  `base` is the address returned by `::new unsigned char[bytes]`;
`heap0` and `raw0` are the indeterminate contents of memory at that time. -/
def cMemoryManager (H base : Nat) (heap0 : Nat → cMemoryChunk) (raw0 : Nat → Option Nat)
    (bytes trashing : Nat) : cMemoryManager :=
  let s0 : MemoryManager.cMemoryManager :=
    { m_memory := base
      m_freeBytesCount := sub32 bytes H
      m_totalBytesCount := bytes
      m_trashing := trashing
      chunkAt := heap0
      byteAt := raw0 }
  -- optional trashing
  let s1 :=
    if trashing &&& eTrashing.ON_INITIALIZATION ≠ 0 then
      s0.memset s0.m_memory eTrashingValue.ON_INITIALIZATION s0.m_totalBytesCount
    else s0
  -- first chunk
  s1.store H s1.m_memory (cMemoryChunk.cMemoryChunk s1.m_freeBytesCount)

/-- The search loop of `allocate` (lines 85-95): starting at `chunk`, follow
`m_next` until a chunk that is free and holds `bytes + chunkSize` bytes is
found (`some` of its address) or the end of the chain is reached (`some 0`).
`none`: the step budget is used up. -/
def allocate.findChunk (H : Nat) (s : MemoryManager.cMemoryManager) (bytes : Nat) :
    Nat → Nat → Option Nat
  | 0, _ => none
  | fuel + 1, chunk =>
    if chunk = 0 then some 0
    else if (s.chunkAt chunk).m_isInUse = false ∧ (s.chunkAt chunk).m_bytes ≥ add32 bytes H then
      some chunk
    else allocate.findChunk H s bytes fuel (s.chunkAt chunk).m_next

/-- The method `void *allocate(unsigned int bytes)` (lines 80-133).  Returns
the pointer and the state after the call. -/
def allocate (H : Nat) (s : MemoryManager.cMemoryManager) (bytes : Nat) :
    Option (Nat × MemoryManager.cMemoryManager) :=
  let chunkSize := H
  -- find the first free chunk that can store the requested number of bytes
  match allocate.findChunk H s bytes (s.m_totalBytesCount + 1) s.m_memory with
  | none => none
  | some chunk =>
    -- might not be able to allocate it
    if chunk = 0 then some (0, s)
    else
      let chunkAddress := chunk
      -- build a new chunk from the remaining space in the chunk
      let newChunkAddress := chunkAddress + chunkSize + bytes
      let newChunk := newChunkAddress
      let s := s.store H newChunk
        (cMemoryChunk.cMemoryChunk (sub32 (sub32 (s.chunkAt chunk).m_bytes bytes) chunkSize))
      let s := s.set_m_previous H newChunk chunk
      let s := s.set_m_next H newChunk (s.chunkAt chunk).m_next
      -- link it appropriately with the next chunk, if any
      let s :=
        if (s.chunkAt newChunk).m_next ≠ 0 then
          s.set_m_previous H (s.chunkAt newChunk).m_next newChunk
        else s
      -- update the previously free chunk
      let s := s.set_m_next H chunk newChunk
      let s := s.set_m_bytes H chunk bytes
      let s := s.set_m_isInUse H chunk true
      -- update manager-level data
      let s := { s with
        m_freeBytesCount := sub32 s.m_freeBytesCount (add32 (s.chunkAt chunk).m_bytes chunkSize) }
      -- trashing on allocation?
      let s :=
        if s.m_trashing &&& eTrashing.ON_ALLOCATION ≠ 0 then
          s.memset (chunkAddress + chunkSize) eTrashingValue.ON_ALLOCATION (s.chunkAt chunk).m_bytes
        else s
      -- the memory we give back to the user does not include the chunk itself
      some (chunkAddress + chunkSize, s)

/-- The method `isAddressInMemoryRange` (lines 150-171). -/
def isAddressInMemoryRange (H : Nat) (s : MemoryManager.cMemoryManager) (address : Nat) : Bool :=
  -- deallocating nullptr is allowed, we just do nothing
  if address = 0 then false
  -- is it in range of our controlled memory?
  else if address < s.m_memory ∨ address ≥ s.m_memory + s.m_totalBytesCount then false
  -- is it within the first chunk header?
  else if (address : Int) - (H : Int) < (s.m_memory : Int) then false
  else true

/-- The loop of `findChunkForUserMemory` (lines 179-204), started at `chunk`:
the value the method returns, or `none` when the step budget is used up. -/
def findChunkForUserMemory.loop (H : Nat) (s : MemoryManager.cMemoryManager) (address : Nat) :
    Nat → Nat → Option Nat
  | 0, _ => none
  | fuel + 1, chunk =>
    if chunk = 0 then some chunk
    else
      let chunkAddress := chunk
      -- is the given pointer at an invalid address (mid-chunk, mid-user memory)
      if address < chunkAddress then some 0
      -- is this chunk the one that holds the memory we are given?
      else if chunkAddress + H = address then
        -- we found the chunk, and it must be in use so we can deallocate it!
        if (s.chunkAt chunk).m_isInUse = false then some 0
        else some chunk
      else findChunkForUserMemory.loop H s address fuel (s.chunkAt chunk).m_next

/-- The method `findChunkForUserMemory` (lines 173-205). -/
def findChunkForUserMemory (H : Nat) (s : MemoryManager.cMemoryManager) (address : Nat) :
    Option Nat :=
  findChunkForUserMemory.loop H s address (s.m_totalBytesCount + 1) s.m_memory

/-- The local variables of `deallocateChunk` together with the state. -/
structure DeallocLocals where
  st : MemoryManager.cMemoryManager
  chunkToStartDeallocation : Nat
  previousChunk : Nat
  nextChunk : Nat
  newChunkFreeBytes : Nat

/-- Lines 219-233 of `deallocateChunk`: got a free chunk before it? -/
def deallocateChunk.mergePrevious (H : Nat) (v : DeallocLocals) : DeallocLocals :=
  if v.previousChunk ≠ 0 ∧ (v.st.chunkAt v.previousChunk).m_isInUse = false then
    let chunkToStartDeallocation := v.previousChunk
    let previousChunk := (v.st.chunkAt v.previousChunk).m_previous
    -- we are using the bytes from the previous chunk
    let newChunkFreeBytes :=
      add32 v.newChunkFreeBytes (v.st.chunkAt chunkToStartDeallocation).m_bytes
    -- also merging the header of the given chunk
    let newChunkFreeBytes := add32 newChunkFreeBytes H
    -- we have merged one chunk header
    { st := { v.st with m_freeBytesCount := add32 v.st.m_freeBytesCount H }
      chunkToStartDeallocation := chunkToStartDeallocation
      previousChunk := previousChunk
      nextChunk := v.nextChunk
      newChunkFreeBytes := newChunkFreeBytes }
  else v

/-- Lines 235-257 of `deallocateChunk`: got a free chunk after it? -/
def deallocateChunk.mergeNext (H : Nat) (v : DeallocLocals) : DeallocLocals :=
  if v.nextChunk ≠ 0 then
    let st := v.st.set_m_previous H v.nextChunk v.chunkToStartDeallocation
    if (st.chunkAt v.nextChunk).m_isInUse = false then
      -- we are recovering all of the bytes from the chunk, plus its header
      let newChunkFreeBytes :=
        add32 v.newChunkFreeBytes (add32 (st.chunkAt v.nextChunk).m_bytes H)
      -- update pointers
      let nextChunk := (st.chunkAt v.nextChunk).m_next
      let st :=
        if nextChunk ≠ 0 then st.set_m_previous H nextChunk v.chunkToStartDeallocation
        else st
      let st := st.set_m_next H v.chunkToStartDeallocation nextChunk
      -- we have merged one chunk header
      { st := { st with m_freeBytesCount := add32 st.m_freeBytesCount H }
        chunkToStartDeallocation := v.chunkToStartDeallocation
        previousChunk := v.previousChunk
        nextChunk := nextChunk
        newChunkFreeBytes := newChunkFreeBytes }
    else { v with st := st }
  else v

/-- The method `deallocateChunk` (lines 207-272). -/
def deallocateChunk (H : Nat) (s : MemoryManager.cMemoryManager) (chunk : Nat) :
    MemoryManager.cMemoryManager :=
  let v : DeallocLocals :=
    { -- update total free bytes count
      st := { s with m_freeBytesCount := add32 s.m_freeBytesCount (s.chunkAt chunk).m_bytes }
      chunkToStartDeallocation := chunk
      previousChunk := (s.chunkAt chunk).m_previous
      nextChunk := (s.chunkAt chunk).m_next
      newChunkFreeBytes := (s.chunkAt chunk).m_bytes }
  let v := deallocateChunk.mergePrevious H v
  let v := deallocateChunk.mergeNext H v
  -- build a new free chunk
  let freeChunkAddress := v.chunkToStartDeallocation
  let freeChunk := freeChunkAddress
  let s := v.st.store H freeChunk (cMemoryChunk.cMemoryChunk v.newChunkFreeBytes)
  -- update pointers
  let s := s.set_m_previous H freeChunk v.previousChunk
  let s := s.set_m_next H freeChunk v.nextChunk
  -- trashing on deallocation?
  if s.m_trashing &&& eTrashing.ON_DEALLOCATION ≠ 0 then
    s.memset (freeChunkAddress + H) eTrashingValue.ON_DEALLOCATION (s.chunkAt freeChunk).m_bytes
  else s

/-- The method `void deallocate(void *address)` (lines 135-148): the state
after the call. -/
def deallocate (H : Nat) (s : MemoryManager.cMemoryManager) (address : Nat) :
    Option MemoryManager.cMemoryManager :=
  let addressToDeallocate := address
  let isInRange := isAddressInMemoryRange H s addressToDeallocate
  if isInRange then
    match findChunkForUserMemory H s addressToDeallocate with
    | none => none
    | some chunk => if chunk ≠ 0 then some (deallocateChunk H s chunk) else some s
  else some s

end cMemoryManager

open cMemoryManager

/-- The header chain: the addresses reached from `a` by following `m_next`
(at most `fuel` of them). -/
def chainFrom (s : cMemoryManager) : Nat → Nat → List Nat
  | 0, _ => []
  | fuel + 1, a => if a = 0 then [] else a :: chainFrom s fuel (s.chunkAt a).m_next

/-- The header chain of the manager, from the header at `m_memory`. -/
def chain (s : cMemoryManager) : List Nat :=
  chainFrom s (s.m_totalBytesCount + 1) s.m_memory

/-- The headers of the chain with their addresses. -/
def headers (s : cMemoryManager) : List (Nat × cMemoryChunk) :=
  (chain s).map fun a => (a, s.chunkAt a)

/-- One region of the arena as the proofs see it: payload size and state. -/
structure Region where
  bytes : Nat
  used : Bool
  deriving DecidableEq

/-- Bytes covered by a list of regions, headers included. -/
def span (H : Nat) : List Region → Nat
  | [] => 0
  | r :: l => H + r.bytes + span H l

/-- The pointer that leads to the regions `l` laid out at `pos`: `pos` itself,
or `nxt` when there is no region. -/
def linkTo (l : List Region) (pos nxt : Nat) : Nat :=
  match l with
  | [] => nxt
  | _ :: _ => pos

/-- Address of the last header of the regions `l` laid out at `pos`, or `prev`
when there is no region. -/
def lastPos (H : Nat) : Nat → Nat → List Region → Nat
  | prev, _, [] => prev
  | _, pos, r :: l => lastPos H pos (pos + H + r.bytes) l

/-- The headers that the regions `l`, laid out contiguously from `pos`, must
have: `prev` is the pointer before the first, `nxt` the pointer after the
last. -/
def recs (H : Nat) : Nat → Nat → List Region → Nat → List (Nat × cMemoryChunk)
  | _, _, [], _ => []
  | prev, pos, r :: l, nxt =>
    (pos, { m_isInUse := r.used, m_bytes := r.bytes, m_previous := prev,
            m_next := linkTo l (pos + H + r.bytes) nxt })
      :: recs H pos (pos + H + r.bytes) l nxt

/-- The memory `heap` holds the headers of the regions `l` from `pos` on. -/
def Seg (H : Nat) (heap : Nat → cMemoryChunk) : Nat → Nat → List Region → Nat → Prop
  | _, _, [], _ => True
  | prev, pos, r :: l, nxt =>
    heap pos = { m_isInUse := r.used, m_bytes := r.bytes, m_previous := prev,
                 m_next := linkTo l (pos + H + r.bytes) nxt }
      ∧ Seg H heap pos (pos + H + r.bytes) l nxt

/-- Sum of the payload sizes of the free regions. -/
def freeSum : List Region → Nat
  | [] => 0
  | r :: l => (if r.used then 0 else r.bytes) + freeSum l

/-- A region that the search loop of `allocate` accepts. -/
def Fits (need : Nat) (r : Region) : Prop := r.used = false ∧ r.bytes ≥ need

instance (need : Nat) (r : Region) : Decidable (Fits need r) := by
  unfold Fits; infer_instance

/-- No two neighbouring regions are both free. -/
def NoAdjFree (l : List Region) : Prop :=
  List.Chain' (fun a b : Region => ¬ (a.used = false ∧ b.used = false)) l

/-- The last region is free. -/
def LastFree (l : List Region) : Prop := ∃ l0 r, l = l0 ++ [r] ∧ r.used = false

/-- The representation invariant: the memory of `s` holds the doubly linked
headers of the regions `l`, which tile the buffer. -/
structure Inv (H : Nat) (s : cMemoryManager) (l : List Region) : Prop where
  hH : 0 < H
  hbase : 0 < s.m_memory
  htot : s.m_totalBytesCount < U32
  seg : Seg H s.chunkAt 0 s.m_memory l 0
  span_eq : span H l = s.m_totalBytesCount
  free_eq : s.m_freeBytesCount = freeSum l
  lastFree : LastFree l
  noAdj : NoAdjFree l

/-- What a successful `allocate` does to the list of regions. -/
def splitRegions (H n : Nat) (pre : List Region) (r : Region) (post : List Region) :
    List Region :=
  pre ++ { bytes := n, used := true } :: { bytes := r.bytes - n - H, used := false } :: post

/-- The regions before a freed one that remain after the merge: all of them,
except a free last one. -/
def keepBefore (pre : List Region) : List Region :=
  match pre.getLast? with
  | some q => if q.used then pre else pre.dropLast
  | none => pre

/-- The bytes gained from the region before a freed one: payload and header of
a free last region. -/
def absorbedBefore (H : Nat) (pre : List Region) : Nat :=
  match pre.getLast? with
  | some q => if q.used then 0 else q.bytes + H
  | none => 0

/-- The regions after a freed one that remain after the merge: all of them,
except a free first one. -/
def keepAfter (post : List Region) : List Region :=
  match post with
  | q :: rest => if q.used then post else rest
  | [] => []

/-- The bytes gained from the region after a freed one. -/
def absorbedAfter (H : Nat) (post : List Region) : Nat :=
  match post with
  | q :: _ => if q.used then 0 else q.bytes + H
  | [] => 0

/-- What `deallocateChunk` does to the list of regions. -/
def mergeRegions (H : Nat) (pre : List Region) (r : Region) (post : List Region) :
    List Region :=
  keepBefore pre ++
    { bytes := absorbedBefore H pre + r.bytes + absorbedAfter H post, used := false }
      :: keepAfter post

/-- Number of headers absorbed on the side of the lower addresses. -/
def absorbedCountBefore (pre : List Region) : Nat :=
  match pre.getLast? with
  | some q => if q.used then 0 else 1
  | none => 0

/-- Number of headers absorbed on the side of the higher addresses. -/
def absorbedCountAfter (post : List Region) : Nat :=
  match post with
  | q :: _ => if q.used then 0 else 1
  | [] => 0

/-- Number of header sizes that the merge gives back to the free count. -/
def absorbedHeaders (pre post : List Region) : Nat :=
  absorbedCountBefore pre + absorbedCountAfter post

/-- The caller stores the byte `v` at address `a`. -/
def userWrite (s : cMemoryManager) (a v : Nat) : cMemoryManager :=
  { s with byteAt := fun x => if x = a then some v else s.byteAt x }

/-- Address `a` lies in the payload of a header of the chain that is in use. -/
def InLivePayload (H : Nat) (s : cMemoryManager) (a : Nat) : Prop :=
  ∃ c ∈ chain s, (s.chunkAt c).m_isInUse = true ∧ c + H ≤ a ∧ a < c + H + (s.chunkAt c).m_bytes

/-- The states a manager can be in: it is constructed with more bytes than one
header (`H = sizeof(cMemoryChunk)`, which is positive), then `allocate` (with
`n + H` representable), `deallocate` and stores of the caller into live
payloads follow in any order. -/
inductive Reachable (H : Nat) : cMemoryManager → Prop
  | construct (base : Nat) (heap0 : Nat → cMemoryChunk) (raw0 : Nat → Option Nat)
      (bytes trashing : Nat) (hH : 0 < H) (hbase : 0 < base) (hbytes : H < bytes)
      (hu : bytes < U32) :
      Reachable H (cMemoryManager.cMemoryManager H base heap0 raw0 bytes trashing)
  | allocate (s : cMemoryManager) (n p : Nat) (s2 : cMemoryManager) (hs : Reachable H s)
      (hn : n + H < U32) (h : allocate H s n = some (p, s2)) : Reachable H s2
  | deallocate (s : cMemoryManager) (p : Nat) (s2 : cMemoryManager) (hs : Reachable H s)
      (h : deallocate H s p = some s2) : Reachable H s2
  | write (s : cMemoryManager) (a v : Nat) (hs : Reachable H s) (ha : InLivePayload H s a) :
      Reachable H (userWrite s a v)

/-- Two consecutive headers: the second starts where the payload of the first
ends, and they point to each other. -/
def Linked (H : Nat) (x y : Nat × cMemoryChunk) : Prop :=
  y.1 = x.1 + H + x.2.m_bytes ∧ x.2.m_next = y.1 ∧ y.2.m_previous = x.1

/-- Arbitrary initial contents of the header view, for the examples. -/
def demoHeap : Nat → cMemoryChunk := fun _ => cMemoryChunk.cMemoryChunk 0

/-- Arbitrary initial contents of the byte view, for the examples. -/
def demoRaw : Nat → Option Nat := fun _ => none

/-- A manager of 64 bytes at address 4096, with 24-byte headers and every
trashing option. -/
def demo0 : cMemoryManager :=
  cMemoryManager.cMemoryManager 24 4096 demoHeap demoRaw 64 eTrashing.ON_ALL

/-- The state after `allocate(8)` on `demo0`. -/
def demo1 : cMemoryManager :=
  match allocate 24 demo0 8 with
  | some (_, s) => s
  | none => demo0

/-- The header chain covers the buffer: it starts at `m_memory`, consecutive
headers are adjacent in memory and point to each other, the outer pointers are
null, and headers plus payloads add up to `m_totalBytesCount`. -/
def Coverage (H : Nat) (s : cMemoryManager) : Prop :=
  (headers s).head?.map Prod.fst = some s.m_memory ∧
  List.Chain' (Linked H) (headers s) ∧
  (∀ x, (headers s).head? = some x → x.2.m_previous = 0) ∧
  (∀ x, (headers s).getLast? = some x → x.2.m_next = 0) ∧
  ((headers s).map (fun x => H + x.2.m_bytes)).sum = s.m_totalBytesCount

/-- Sum of `m_bytes` over the headers of the chain that are not in use. -/
def freeBytesOfChain (s : cMemoryManager) : Nat :=
  (((headers s).filter (fun x => !x.2.m_isInUse)).map (fun x => x.2.m_bytes)).sum

/-- No header of the chain is free together with the header its `m_next`
points to. -/
def NoAdjacentFree (s : cMemoryManager) : Prop :=
  ∀ x ∈ headers s, ¬ (x.2.m_isInUse = false ∧ x.2.m_next ≠ 0 ∧
    (s.chunkAt x.2.m_next).m_isInUse = false)

/-- The free counter is exact: it is the sum of the free payload sizes, it
fits the arena, a successful `allocate` takes `n + H` from it without
borrowing, and a `deallocate` that frees a chunk adds `m_bytes` and at most two
header sizes to it without carry. -/
def Accounting (H : Nat) (s : cMemoryManager) : Prop :=
  s.m_freeBytesCount = freeBytesOfChain s ∧
  s.m_freeBytesCount + H ≤ s.m_totalBytesCount ∧ s.m_totalBytesCount < U32 ∧
  (∀ n p s2, n + H < U32 → allocate H s n = some (p, s2) → p ≠ 0 →
    n + H ≤ s.m_freeBytesCount ∧ s2.m_freeBytesCount = s.m_freeBytesCount - (n + H)) ∧
  (∀ p s2, deallocate H s p = some s2 → s2 = s ∨
    ∃ k, k ≤ 2 ∧ s2.m_freeBytesCount
        = s.m_freeBytesCount + (s.chunkAt (p - H)).m_bytes + H * k ∧
      s.m_freeBytesCount + (s.chunkAt (p - H)).m_bytes + H * k < U32)

/-- The payload `[p, p + n)` handed out by `allocate`: it starts right after a
header of the chain that is in use and has size `n`, it lies inside the
buffer after the first header, and it shares no byte with a header of the chain
or with the payload of another header in use. -/
def UsableRegion (H : Nat) (s : cMemoryManager) (n p : Nat) : Prop :=
  H ≤ p ∧ (p - H) ∈ chain s ∧
  (s.chunkAt (p - H)).m_isInUse = true ∧ (s.chunkAt (p - H)).m_bytes = n ∧
  s.m_memory + H ≤ p ∧ p + n ≤ s.m_memory + s.m_totalBytesCount ∧
  (∀ x ∈ chain s, ∀ b, p ≤ b → b < p + n → ¬ (x ≤ b ∧ b < x + H)) ∧
  (∀ y ∈ chain s, y ≠ p - H → (s.chunkAt y).m_isInUse = true →
    ∀ b, p ≤ b → b < p + n → ¬ (y + H ≤ b ∧ b < y + H + (s.chunkAt y).m_bytes))

/-- Header `h` is what a first-fit search for `need` bytes selects: it is in the
chain, free and large enough, and every header of the chain at a lower address
is in use or too small. -/
def FirstFit (s : cMemoryManager) (need h : Nat) : Prop :=
  h ∈ chain s ∧ (s.chunkAt h).m_isInUse = false ∧ (s.chunkAt h).m_bytes ≥ need ∧
  ∀ y ∈ chain s, y < h → (s.chunkAt y).m_isInUse = true ∨ (s.chunkAt y).m_bytes < need

/-- The state after `deallocate(4120)` on `demo1`. -/
def demo2 : cMemoryManager :=
  match deallocate 24 demo1 4120 with
  | some s => s
  | none => demo1

/-- Pointer `p` is outstanding in state `s`: an earlier `allocate` returned it
(non-null) and it was not passed to `deallocate` since. -/
inductive Outstanding (H : Nat) : cMemoryManager → Nat → Prop
  | allocated (s : cMemoryManager) (n p : Nat) (s2 : cMemoryManager) (hs : Reachable H s)
      (hn : n + H < U32) (h : allocate H s n = some (p, s2)) (hp : p ≠ 0) : Outstanding H s2 p
  | allocate (s : cMemoryManager) (n q : Nat) (s2 : cMemoryManager) (p : Nat)
      (hs : Outstanding H s p) (hn : n + H < U32) (h : allocate H s n = some (q, s2)) :
      Outstanding H s2 p
  | deallocate (s : cMemoryManager) (q : Nat) (s2 : cMemoryManager) (p : Nat)
      (hs : Outstanding H s p) (hq : q ≠ p) (h : deallocate H s q = some s2) :
      Outstanding H s2 p
  | write (s : cMemoryManager) (a v p : Nat) (hs : Outstanding H s p)
      (ha : InLivePayload H s a) : Outstanding H (userWrite s a v) p

/-- Pointer `p` is the payload start of a region in use of the list `l`. -/
def LiveIn (H : Nat) (s : cMemoryManager) (l : List Region) (p : Nat) : Prop :=
  ∃ pre r post, l = pre ++ r :: post ∧ r.used = true ∧ p = s.m_memory + span H pre + H

/-- The headers before the freed one that remain: all of them, except a free
last one. -/
def dropFreeLast (B : List (Nat × cMemoryChunk)) : List (Nat × cMemoryChunk) :=
  match B.getLast? with
  | some x => if x.2.m_isInUse then B else B.dropLast
  | none => B

/-- The headers after the freed one that remain: all of them, except a free
first one. -/
def dropFreeHead (A : List (Nat × cMemoryChunk)) : List (Nat × cMemoryChunk) :=
  match A with
  | x :: t => if x.2.m_isInUse then A else t
  | [] => []

/-- The headers `A` with the `m_previous` of the first one set to `a`. -/
def setHeadPrevious (a : Nat) (A : List (Nat × cMemoryChunk)) : List (Nat × cMemoryChunk) :=
  match A with
  | x :: t => (x.1, { x.2 with m_previous := a }) :: t
  | [] => []

/-- Where the merged header starts: at the header before `c` when that one is
free, at `c` otherwise. -/
def mergeStart (B : List (Nat × cMemoryChunk)) (c : Nat) : Nat :=
  match B.getLast? with
  | some x => if x.2.m_isInUse then c else x.1
  | none => c

/-- Bytes that a free header before the freed one contributes: its payload and
one header. -/
def bytesBefore (H : Nat) (B : List (Nat × cMemoryChunk)) : Nat :=
  match B.getLast? with
  | some x => if x.2.m_isInUse then 0 else x.2.m_bytes + H
  | none => 0

/-- Bytes that a free header after the freed one contributes. -/
def bytesAfter (H : Nat) (A : List (Nat × cMemoryChunk)) : Nat :=
  match A with
  | x :: _ => if x.2.m_isInUse then 0 else x.2.m_bytes + H
  | [] => 0

/-- Number of neighbours absorbed among the headers before (`0` or `1`). -/
def countBefore (B : List (Nat × cMemoryChunk)) : Nat :=
  match B.getLast? with
  | some x => if x.2.m_isInUse then 0 else 1
  | none => 0

/-- Number of neighbours absorbed among the headers after (`0` or `1`). -/
def countAfter (A : List (Nat × cMemoryChunk)) : Nat :=
  match A with
  | x :: _ => if x.2.m_isInUse then 0 else 1
  | [] => 0

/-- Pointer to the last header of `B`, null when there is none. -/
def addrOfLast (B : List (Nat × cMemoryChunk)) : Nat :=
  match B.getLast? with
  | some x => x.1
  | none => 0

/-- Pointer to the first header of `A`, null when there is none. -/
def addrOfHead (A : List (Nat × cMemoryChunk)) : Nat :=
  match A with
  | x :: _ => x.1
  | [] => 0

/-- The chain of `s2` is the chain of `s` in which the header at `p - H`, a free
header right before it and a free header right after it are replaced by one
free header; the other headers are the same, up to the `m_previous` of the
header that follows the merged one; the free counter grows by the payload of
the freed header and one header size per absorbed neighbour. -/
def FreedAndCoalesced (H : Nat) (s : cMemoryManager) (p : Nat) (s2 : cMemoryManager) : Prop :=
  ∃ B h A, headers s = B ++ (p - H, h) :: A ∧ h.m_isInUse = true ∧
    headers s2 = dropFreeLast B ++
      (mergeStart B (p - H),
        { m_isInUse := false
          m_bytes := bytesBefore H B + h.m_bytes + bytesAfter H A
          m_previous := addrOfLast (dropFreeLast B)
          m_next := addrOfHead (dropFreeHead A) })
      :: setHeadPrevious (mergeStart B (p - H)) (dropFreeHead A) ∧
    s2.m_freeBytesCount = s.m_freeBytesCount + h.m_bytes + H * (countBefore B + countAfter A)

/-- The state after `allocate(16)` on `demo0`, an exact fit. -/
def demoExact : cMemoryManager :=
  match allocate 24 demo0 16 with
  | some (_, s) => s
  | none => demo0

/-- The chain of `s2` is the chain of `s` in which the free header `h` is
replaced by `h` in use with size `n` and a new free header at `h + H + n` that
holds the rest; the header after it points back to the new header, the other
headers are the same, and the free counter is smaller by `n + H`. -/
def SplitAt (H : Nat) (s : cMemoryManager) (n h : Nat) (s2 : cMemoryManager) : Prop :=
  ∃ B c A, headers s = B ++ (h, c) :: A ∧ c.m_isInUse = false ∧ n + H ≤ c.m_bytes ∧
    headers s2 = B ++
      (h, { m_isInUse := true, m_bytes := n, m_previous := c.m_previous, m_next := h + H + n })
      :: (h + H + n,
          { m_isInUse := false, m_bytes := c.m_bytes - n - H, m_previous := h,
            m_next := c.m_next })
      :: setHeadPrevious (h + H + n) A ∧
    s2.m_freeBytesCount + (n + H) = s.m_freeBytesCount

/-- A manager of 128 bytes at address 4096, with 24-byte headers and no
trashing. -/
def trio0 : cMemoryManager :=
  cMemoryManager.cMemoryManager 24 4096 demoHeap demoRaw 128 eTrashing.NONE

/-- The state after the first `allocate(4)` on `trio0`. -/
def trio1 : cMemoryManager :=
  match allocate 24 trio0 4 with
  | some (_, s) => s
  | none => trio0

/-- The state after the second `allocate(4)`. -/
def trio2 : cMemoryManager :=
  match allocate 24 trio1 4 with
  | some (_, s) => s
  | none => trio1

/-- The state after the third `allocate(4)`. -/
def trio3 : cMemoryManager :=
  match allocate 24 trio2 4 with
  | some (_, s) => s
  | none => trio2

/-- The state after `deallocate` of the second pointer. -/
def trio4 : cMemoryManager :=
  match deallocate 24 trio3 4148 with
  | some s => s
  | none => trio3

/-- The state after `deallocate` of the first pointer. -/
def trio5 : cMemoryManager :=
  match deallocate 24 trio4 4120 with
  | some s => s
  | none => trio4

/-- The state after `deallocate` of the third pointer. -/
def trio6 : cMemoryManager :=
  match deallocate 24 trio5 4176 with
  | some s => s
  | none => trio5

/-- The three-allocation scenario on a state `s0` with base address `base` and
`total` bytes: three `allocate(4)` return `a`, `b`, `c`; `deallocate(b)` frees
the second header without a merge; `deallocate(a)` merges the first two
regions; `deallocate(c)` merges them with the third region and with the free
region behind it into one free header that covers the arena. -/
def TrioScenario (H : Nat) (s0 : cMemoryManager) (base total : Nat) : Prop :=
  ∃ s1 s2 s3 d1 d2 d3,
    allocate H s0 4 = some (base + H, s1) ∧
    allocate H s1 4 = some (base + (H + 4) + H, s2) ∧
    allocate H s2 4 = some (base + 2 * (H + 4) + H, s3) ∧
    headers s3 =
      [(base, { m_isInUse := true, m_bytes := 4, m_previous := 0, m_next := base + (H + 4) }),
       (base + (H + 4), { m_isInUse := true, m_bytes := 4, m_previous := base,
                          m_next := base + 2 * (H + 4) }),
       (base + 2 * (H + 4), { m_isInUse := true, m_bytes := 4, m_previous := base + (H + 4),
                              m_next := base + 3 * (H + 4) }),
       (base + 3 * (H + 4), { m_isInUse := false, m_bytes := total - 4 * H - 12,
                              m_previous := base + 2 * (H + 4), m_next := 0 })] ∧
    deallocate H s3 (base + (H + 4) + H) = some d1 ∧
    headers d1 =
      [(base, { m_isInUse := true, m_bytes := 4, m_previous := 0, m_next := base + (H + 4) }),
       (base + (H + 4), { m_isInUse := false, m_bytes := 4, m_previous := base,
                          m_next := base + 2 * (H + 4) }),
       (base + 2 * (H + 4), { m_isInUse := true, m_bytes := 4, m_previous := base + (H + 4),
                              m_next := base + 3 * (H + 4) }),
       (base + 3 * (H + 4), { m_isInUse := false, m_bytes := total - 4 * H - 12,
                              m_previous := base + 2 * (H + 4), m_next := 0 })] ∧
    d1.m_freeBytesCount = s3.m_freeBytesCount + 4 ∧
    deallocate H d1 (base + H) = some d2 ∧
    headers d2 =
      [(base, { m_isInUse := false, m_bytes := 8 + H, m_previous := 0,
                m_next := base + 2 * (H + 4) }),
       (base + 2 * (H + 4), { m_isInUse := true, m_bytes := 4, m_previous := base,
                              m_next := base + 3 * (H + 4) }),
       (base + 3 * (H + 4), { m_isInUse := false, m_bytes := total - 4 * H - 12,
                              m_previous := base + 2 * (H + 4), m_next := 0 })] ∧
    d2.m_freeBytesCount = d1.m_freeBytesCount + (4 + H) ∧
    deallocate H d2 (base + 2 * (H + 4) + H) = some d3 ∧
    headers d3 =
      [(base, { m_isInUse := false, m_bytes := total - H, m_previous := 0, m_next := 0 })] ∧
    d3.m_freeBytesCount = d2.m_freeBytesCount + (4 + 2 * H) ∧
    H + (total - H) = (3 * H + 12) + (H + (total - 4 * H - 12))

/-- The bytes of every header of the chain are header bytes in the byte view:
no fill and no store of the caller reached them. -/
def HeaderBytes (H : Nat) (s : cMemoryManager) : Prop :=
  ∀ x ∈ chain s, ∀ b, x ≤ b → b < x + H → s.byteAt b = none

/-- The header at which `deallocateChunk` builds the merged free header
(`chunkToStartDeallocation` at line 260): the header before `c` when there is
one and it is free, `c` otherwise. -/
def mergedStart (s : cMemoryManager) (c : Nat) : Nat :=
  if (s.chunkAt c).m_previous ≠ 0 ∧ (s.chunkAt (s.chunkAt c).m_previous).m_isInUse = false then
    (s.chunkAt c).m_previous
  else c

/-- The size of the merged free region (`newChunkFreeBytes` at line 261): the
payload of `c`, plus payload and header of a free header before `c`, plus
payload and header of a free header after `c`. -/
def mergedSize (H : Nat) (s : cMemoryManager) (c : Nat) : Nat :=
  (s.chunkAt c).m_bytes +
    (if (s.chunkAt c).m_previous ≠ 0 ∧ (s.chunkAt (s.chunkAt c).m_previous).m_isInUse = false then
      (s.chunkAt (s.chunkAt c).m_previous).m_bytes + H else 0) +
    (if (s.chunkAt c).m_next ≠ 0 ∧ (s.chunkAt (s.chunkAt c).m_next).m_isInUse = false then
      (s.chunkAt (s.chunkAt c).m_next).m_bytes + H else 0)

/-- The outcome of reading one byte through checked indexing: the byte, when
the address lies in `[m_memory, m_memory + m_totalBytesCount)`, or else the
address that was out of range. -/
inductive ByteRead where
  | inRange (value : Option Nat)
  | outOfRange (address : Nat)
  deriving DecidableEq

/-- Reading `*address` from the buffer of the manager, with checked indexing. -/
def readByte (s : cMemoryManager) (address : Nat) : ByteRead :=
  if s.m_memory ≤ address ∧ address < s.m_memory + s.m_totalBytesCount then
    ByteRead.inRange (s.byteAt address)
  else ByteRead.outOfRange address

/-- What `dump` appends to its stream, item by item.  The rendering of an item
as characters (pointer format, two hexadecimal digits, `isprint`) is left to the
stream: `address` is the left column with its `":  "`, `hexByte` one byte of the
central column with `":"` (general case) or `"  "` (`last`), `asciiByte` one
character of the right column, `freeBytes` and `totalBytes` the two summary
lines. -/
inductive DumpToken where
  | address (a : Nat)
  | hexByte (r : ByteRead) (last : Bool)
  | asciiByte (r : ByteRead)
  | newline
  | freeBytes (n : Nat)
  | totalBytes (n : Nat)
  deriving DecidableEq

/-- The loop of lines 63-67: the string representation of the bytes in the row,
read at `memoryIterator + representationIndex`. -/
def cMemoryManager.dump.representation (s : MemoryManager.cMemoryManager)
    (bytesPerRow memoryIterator : Nat) : List DumpToken :=
  (List.range bytesPerRow).map fun representationIndex =>
    DumpToken.asciiByte (readByte s (memoryIterator + representationIndex))

/-- The loop of lines 46-69 over one row.  `characterIterator` is the value of
that pointer when the row starts; it is incremented once per `charIndex`. -/
def cMemoryManager.dump.row (s : MemoryManager.cMemoryManager)
    (bytesPerRow memoryIterator characterIterator : Nat) : List DumpToken :=
  (List.range bytesPerRow).foldr
    (fun charIndex rest =>
      -- bytes in central column: general case
      if charIndex < sub32 bytesPerRow 1 then
        DumpToken.hexByte (readByte s (characterIterator + charIndex)) false :: rest
      -- bytes in central column: last item
      else
        DumpToken.hexByte (readByte s (characterIterator + charIndex)) true ::
          (cMemoryManager.dump.representation s bytesPerRow memoryIterator ++ rest))
    []

/-- The loop of lines 40-72 over the memory.  The first argument bounds the
number of times the loop condition is evaluated; `none`: the bound is used up
before the condition fails. -/
def cMemoryManager.dump.rows (s : MemoryManager.cMemoryManager) (bytesPerRow : Nat) :
    Nat → Nat → Nat → Option (List DumpToken)
  | 0, _, _ => none
  | fuel + 1, memoryIterator, characterIterator =>
    if (memoryIterator - s.m_memory) % U32 < s.m_totalBytesCount then
      match cMemoryManager.dump.rows s bytesPerRow fuel (memoryIterator + bytesPerRow)
          (characterIterator + bytesPerRow) with
      | none => none
      | some rest =>
        some (DumpToken.address memoryIterator ::
          (cMemoryManager.dump.row s bytesPerRow memoryIterator characterIterator ++
            DumpToken.newline :: rest))
    else some []

/-- The method `std::string dump(unsigned int bytesPerRow) const` (lines 32-78),
run with at most `fuel` evaluations of the condition of its outer loop: the items
of the text it returns, or `none` when the loop is still running after `fuel`
evaluations. -/
def cMemoryManager.dump (fuel : Nat) (s : MemoryManager.cMemoryManager) (bytesPerRow : Nat) :
    Option (List DumpToken) :=
  match cMemoryManager.dump.rows s bytesPerRow fuel s.m_memory s.m_memory with
  | none => none
  | some rows =>
    some (rows ++ [DumpToken.freeBytes s.m_freeBytesCount,
      DumpToken.totalBytes s.m_totalBytesCount])

/-- The item holds a read that was out of range. -/
def DumpToken.readsOutside : DumpToken → Bool
  | DumpToken.hexByte (ByteRead.outOfRange _) _ => true
  | DumpToken.asciiByte (ByteRead.outOfRange _) => true
  | _ => false

/-- Number of rows of a dump: the number of line ends before the summary. -/
def rowCount (out : List DumpToken) : Nat := out.count DumpToken.newline

theorem append_cons_cases {α : Type} (l1 l2 m1 m2 : List α) (a b : α)
    (h : l1 ++ a :: l2 = m1 ++ b :: m2) :
    (∃ t, l1 = m1 ++ b :: t ∧ m2 = t ++ a :: l2) ∨ (l1 = m1 ∧ a = b ∧ l2 = m2) ∨
      (∃ t, m1 = l1 ++ a :: t ∧ l2 = t ++ b :: m2) := by
  rw [List.append_eq_append_iff] at h
  rcases h with ⟨t, h1, h2⟩ | ⟨t, h1, h2⟩
  · cases t with
    | nil =>
      simp only [List.nil_append, List.cons.injEq] at h2
      simp only [List.append_nil] at h1
      exact Or.inr (Or.inl ⟨h1.symm, h2.1, h2.2⟩)
    | cons c t =>
      simp only [List.cons_append, List.cons.injEq] at h2
      right; right
      exact ⟨t, by rw [h1, h2.1], h2.2⟩
  · cases t with
    | nil =>
      simp only [List.nil_append, List.cons.injEq] at h2
      simp only [List.append_nil] at h1
      exact Or.inr (Or.inl ⟨h1, h2.1.symm, h2.2.symm⟩)
    | cons c t =>
      simp only [List.cons_append, List.cons.injEq] at h2
      left
      exact ⟨t, by rw [h1, h2.1], h2.2⟩

theorem chain'_and {α : Type} {R S : α → α → Prop} :
    ∀ {l : List α}, List.Chain' R l → List.Chain' S l →
      List.Chain' (fun a b => R a b ∧ S a b) l
  | [], _, _ => List.chain'_nil
  | [_], _, _ => List.chain'_singleton _
  | a :: b :: l, h1, h2 => by
    rw [List.chain'_cons] at h1 h2 ⊢
    exact ⟨⟨h1.1, h2.1⟩, chain'_and h1.2 h2.2⟩

theorem chain'_succ {α : Type} {R : α → α → Prop} :
    ∀ {l : List α}, List.Chain' R l → ∀ x ∈ l, l.getLast? = some x ∨ ∃ y ∈ l, R x y
  | [], _, x, hx => by simp at hx
  | [a], _, x, hx => by
    simp only [List.mem_singleton] at hx
    subst hx
    left; rfl
  | a :: b :: l, h, x, hx => by
    rw [List.chain'_cons] at h
    rcases List.mem_cons.1 hx with rfl | hx
    · right; exact ⟨b, by simp, h.1⟩
    · rcases chain'_succ h.2 x hx with h3 | ⟨y, hy, hxy⟩
      · left; rw [List.getLast?_cons_cons]; exact h3
      · right; exact ⟨y, List.mem_cons_of_mem _ hy, hxy⟩

theorem pairwise_mem {α : Type} {R : α → α → Prop} (l : List α) (h : List.Pairwise R l) :
    ∀ x ∈ l, ∀ y ∈ l, x = y ∨ R x y ∨ R y x := by
  induction l with
  | nil => intro x hx; simp at hx
  | cons a l ih =>
    rw [List.pairwise_cons] at h
    intro x hx y hy
    rcases List.mem_cons.1 hx with hxa | hxl
    · rcases List.mem_cons.1 hy with hya | hyl
      · left; rw [hxa, hya]
      · right; left; rw [hxa]; exact h.1 y hyl
    · rcases List.mem_cons.1 hy with hya | hyl
      · right; right; rw [hya]; exact h.1 x hxl
      · exact ih h.2 x hxl y hyl

/-! ## Layout lemmas -/

theorem span_append (H : Nat) (l1 l2 : List Region) :
    span H (l1 ++ l2) = span H l1 + span H l2 := by
  induction l1 with
  | nil => simp [span]
  | cons r l ih => simp [span, ih]; omega

theorem freeSum_append (l1 l2 : List Region) :
    freeSum (l1 ++ l2) = freeSum l1 + freeSum l2 := by
  induction l1 with
  | nil => simp [freeSum]
  | cons r l ih => simp [freeSum, ih]; omega

theorem length_le_span {H : Nat} (hH : 0 < H) (l : List Region) : l.length ≤ span H l := by
  induction l with
  | nil => simp [span]
  | cons r l ih => simp [span]; omega

theorem lastPos_append_cons (H : Nat) (l1 : List Region) (r : Region) (l2 : List Region)
    (prev pos : Nat) :
    lastPos H prev pos (l1 ++ r :: l2) = lastPos H (pos + span H l1) (pos + span H l1 + H + r.bytes) l2 := by
  induction l1 generalizing prev pos with
  | nil => simp [lastPos, span]
  | cons q l ih =>
    rw [List.cons_append]
    simp only [lastPos, span]
    rw [ih]
    congr 1 <;> omega

theorem Seg_append (H : Nat) (heap : Nat → cMemoryChunk) (l1 l2 : List Region)
    (prev pos nxt : Nat) :
    Seg H heap prev pos (l1 ++ l2) nxt ↔
      Seg H heap prev pos l1 (linkTo l2 (pos + span H l1) nxt) ∧
      Seg H heap (lastPos H prev pos l1) (pos + span H l1) l2 nxt := by
  induction l1 generalizing prev pos with
  | nil => simp [Seg, span, lastPos]
  | cons r l ih =>
    rw [List.cons_append]
    simp only [Seg, span, lastPos]
    rw [ih]
    have e : pos + H + r.bytes + span H l = pos + (H + r.bytes + span H l) := by omega
    rw [e]
    cases l with
    | nil =>
      simp only [List.nil_append, linkTo, span, Seg, lastPos]
      cases l2 <;> simp [linkTo, and_assoc, Nat.add_assoc]
    | cons q l => simp [linkTo, and_assoc]

theorem Seg_congr {H : Nat} (hH : 0 < H) (heap heap2 : Nat → cMemoryChunk) (l : List Region)
    (prev pos nxt : Nat)
    (hagree : ∀ x, pos ≤ x → x < pos + span H l → heap2 x = heap x)
    (h : Seg H heap prev pos l nxt) : Seg H heap2 prev pos l nxt := by
  induction l generalizing prev pos with
  | nil => trivial
  | cons r l ih =>
    obtain ⟨h1, h2⟩ := h
    refine ⟨?_, ih _ _ ?_ h2⟩
    · rw [hagree pos (le_refl _) (by simp only [span]; omega)]; exact h1
    · intro x hx1 hx2
      exact hagree x (by omega) (by simp only [span]; omega)

/-! ## The effect of `allocate` on memory -/

section proj
variable (H : Nat) (s : cMemoryManager) (a v x d k : Nat) (c : cMemoryChunk) (b : Bool)

@[simp] theorem store_chunkAt :
    (store H s a c).chunkAt x = if x = a then c else s.chunkAt x := rfl
@[simp] theorem store_free : (store H s a c).m_freeBytesCount = s.m_freeBytesCount := rfl
@[simp] theorem store_total : (store H s a c).m_totalBytesCount = s.m_totalBytesCount := rfl
@[simp] theorem store_memory : (store H s a c).m_memory = s.m_memory := rfl
@[simp] theorem store_trashing : (store H s a c).m_trashing = s.m_trashing := rfl
@[simp] theorem memset_chunkAt : (memset s d v k).chunkAt = s.chunkAt := rfl
@[simp] theorem memset_free : (memset s d v k).m_freeBytesCount = s.m_freeBytesCount := rfl
@[simp] theorem memset_total : (memset s d v k).m_totalBytesCount = s.m_totalBytesCount := rfl
@[simp] theorem memset_memory : (memset s d v k).m_memory = s.m_memory := rfl
@[simp] theorem memset_trashing : (memset s d v k).m_trashing = s.m_trashing := rfl
end proj

theorem allocate_of_find (H : Nat) (s : cMemoryManager) (n c : Nat)
    (hfind : allocate.findChunk H s n (s.m_totalBytesCount + 1) s.m_memory = some c)
    (hc : c ≠ 0) (hH : 0 < H)
    (hn1 : (s.chunkAt c).m_next ≠ c) (hn2 : (s.chunkAt c).m_next ≠ c + H + n) :
    ∃ s2, allocate H s n = some (c + H, s2) ∧
      (∀ x, s2.chunkAt x =
        if x = c then
          { m_isInUse := true, m_bytes := n, m_previous := (s.chunkAt c).m_previous,
            m_next := c + H + n }
        else if x = c + H + n then
          { m_isInUse := false, m_bytes := sub32 (sub32 (s.chunkAt c).m_bytes n) H,
            m_previous := c, m_next := (s.chunkAt c).m_next }
        else if x = (s.chunkAt c).m_next ∧ x ≠ 0 then
          { s.chunkAt x with m_previous := c + H + n }
        else s.chunkAt x) ∧
      s2.m_freeBytesCount = sub32 s.m_freeBytesCount (add32 n H) ∧
      s2.m_totalBytesCount = s.m_totalBytesCount ∧
      s2.m_memory = s.m_memory ∧ s2.m_trashing = s.m_trashing := by
  have hne : c ≠ c + H + n := by omega
  unfold allocate
  rw [hfind]
  simp only [hc, if_false]
  refine ⟨_, rfl, ?_, ?_, ?_, ?_, ?_⟩
  · intro x
    simp only [apply_ite cMemoryManager.chunkAt, memset_chunkAt, ite_self,
      set_m_previous, set_m_next, set_m_bytes, set_m_isInUse, store_chunkAt,
      cMemoryChunk.cMemoryChunk, if_true, if_neg hne, if_neg hn1, if_neg hn2, if_neg hne.symm,
      if_neg (Ne.symm hn1), if_neg (Ne.symm hn2)]
    by_cases h0 : (s.chunkAt c).m_next = 0
    · simp only [h0, ne_eq, not_true_eq_false, if_false, store_chunkAt, if_true, if_neg hne,
        if_neg hne.symm]
      by_cases h1 : x = c
      · subst h1; simp
      · by_cases h2 : x = c + H + n
        · subst h2; simp [h1]
        · simp [h1, h2]
    · simp only [h0, ne_eq, not_false_eq_true, if_true, store_chunkAt, if_neg hne,
        if_neg hne.symm, if_neg hn1, if_neg hn2, if_neg (Ne.symm hn1), if_neg (Ne.symm hn2)]
      by_cases h1 : x = c
      · subst h1; simp
      · by_cases h2 : x = c + H + n
        · subst h2; simp [h1, Ne.symm hn2]
        · by_cases h3 : x = (s.chunkAt c).m_next
          · subst h3; simp [h0, h1, h2]
          · simp [h1, h2, h3]
  all_goals
    simp only [apply_ite cMemoryManager.m_freeBytesCount, apply_ite cMemoryManager.m_totalBytesCount,
      apply_ite cMemoryManager.m_memory, apply_ite cMemoryManager.m_trashing,
      memset_free, memset_total, memset_memory, memset_trashing, ite_self,
      set_m_previous, set_m_next, set_m_bytes, set_m_isInUse, store_chunkAt, store_free,
      store_total, store_memory, store_trashing, if_true]

theorem findChunk_none (H : Nat) (s : cMemoryManager) (n : Nat) (l : List Region) :
    ∀ (prev pos fuel : Nat), Seg H s.chunkAt prev pos l 0 → 0 < pos → l.length < fuel →
      (∀ q ∈ l, ¬ Fits (add32 n H) q) →
      allocate.findChunk H s n fuel (linkTo l pos 0) = some 0 := by
  induction l with
  | nil =>
    intro prev pos fuel _ _ hf _
    cases fuel with
    | zero => simp at hf
    | succ f => simp [linkTo, allocate.findChunk]
  | cons r l ih =>
    intro prev pos fuel hseg hpos hf hno
    cases fuel with
    | zero => simp at hf
    | succ f =>
      obtain ⟨h1, h2⟩ := hseg
      have hr : ¬ Fits (add32 n H) r := hno r (by simp)
      have hpos2 : pos ≠ 0 := by omega
      simp only [linkTo, allocate.findChunk, if_neg hpos2, h1]
      rw [if_neg (by simpa [Fits] using hr)]
      exact ih pos (pos + H + r.bytes) f h2 (by omega) (by simpa using hf)
        (fun q hq => hno q (by simp [hq]))

theorem findChunk_first (H : Nat) (s : cMemoryManager) (n : Nat) (pre : List Region)
    (r : Region) (post : List Region) :
    ∀ (prev pos fuel nxt : Nat), Seg H s.chunkAt prev pos (pre ++ r :: post) nxt → 0 < pos →
      pre.length < fuel → (∀ q ∈ pre, ¬ Fits (add32 n H) q) → Fits (add32 n H) r →
      allocate.findChunk H s n fuel pos = some (pos + span H pre) := by
  induction pre with
  | nil =>
    intro prev pos fuel nxt hseg hpos hf _ hr
    cases fuel with
    | zero => simp at hf
    | succ f =>
      obtain ⟨h1, h2⟩ := hseg
      have hpos2 : pos ≠ 0 := by omega
      simp only [allocate.findChunk, if_neg hpos2, h1, span]
      rw [if_pos (by simpa [Fits] using hr)]
      rfl
  | cons q pre ih =>
    intro prev pos fuel nxt hseg hpos hf hno hr
    cases fuel with
    | zero => simp at hf
    | succ f =>
      rw [List.cons_append] at hseg
      obtain ⟨h1, h2⟩ := hseg
      have hq : ¬ Fits (add32 n H) q := hno q (by simp)
      have hpos2 : pos ≠ 0 := by omega
      simp only [allocate.findChunk, if_neg hpos2, h1]
      rw [if_neg (by simpa [Fits] using hq)]
      have hl : linkTo (pre ++ r :: post) (pos + H + q.bytes) nxt = pos + H + q.bytes := by
        cases pre <;> rfl
      rw [hl, ih pos (pos + H + q.bytes) f nxt h2 (by omega) (by simpa using hf)
        (fun q hq => hno q (by simp [hq])) hr]
      simp only [span]
      congr 1; omega

/-- Either no region fits, or the list splits at the first region that does. -/
theorem first_fit_cases (need : Nat) (l : List Region) :
    (∀ q ∈ l, ¬ Fits need q) ∨
    ∃ pre r post, l = pre ++ r :: post ∧ (∀ q ∈ pre, ¬ Fits need q) ∧ Fits need r := by
  induction l with
  | nil => left; simp
  | cons q l ih =>
    by_cases hq : Fits need q
    · right; exact ⟨[], q, l, rfl, by simp, hq⟩
    · rcases ih with h | ⟨pre, r, post, hl, hpre, hr⟩
      · left
        intro x hx
        rcases List.mem_cons.1 hx with rfl | hx
        · exact hq
        · exact h x hx
      · right
        refine ⟨q :: pre, r, post, by simp [hl], ?_, hr⟩
        intro x hx
        rcases List.mem_cons.1 hx with rfl | hx
        · exact hq
        · exact hpre x hx

theorem add32_eq {a b : Nat} (h : a + b < U32) : add32 a b = a + b := by
  unfold add32; exact Nat.mod_eq_of_lt h

theorem sub32_eq {a b : Nat} (h : b ≤ a) (ha : a < U32) : sub32 a b = a - b := by
  unfold sub32
  have hb : b < U32 := by omega
  rw [Nat.mod_eq_of_lt ha, Nat.mod_eq_of_lt hb]
  have : a + (U32 - b) = (a - b) + U32 := by omega
  rw [this, Nat.add_mod_right]
  exact Nat.mod_eq_of_lt (by omega)

theorem freeSum_le_span (H : Nat) (l : List Region) : freeSum l ≤ span H l := by
  induction l with
  | nil => simp [freeSum, span]
  | cons r l ih => simp only [freeSum, span]; split <;> omega

theorem span_mem_le (H : Nat) (l : List Region) (r : Region) (h : r ∈ l) :
    H + r.bytes ≤ span H l := by
  induction l with
  | nil => simp at h
  | cons q l ih =>
    simp only [span]
    rcases List.mem_cons.1 h with rfl | h
    · omega
    · have := ih h; omega

theorem LastFree.ne_nil {l : List Region} (h : LastFree l) : l ≠ [] := by
  obtain ⟨l0, r, rfl, _⟩ := h; simp

theorem LastFree_split (H n : Nat) (pre : List Region) (r : Region) (post : List Region)
    (h : LastFree (pre ++ r :: post)) : LastFree (splitRegions H n pre r post) := by
  obtain ⟨l0, q, hl, hq⟩ := h
  unfold splitRegions
  rcases List.eq_nil_or_concat post with rfl | ⟨post0, q2, hp⟩
  · exact ⟨pre ++ [{ bytes := n, used := true }], { bytes := r.bytes - n - H, used := false },
      by simp, rfl⟩
  · rw [List.concat_eq_append] at hp
    subst hp
    have e : pre ++ r :: (post0 ++ [q2]) = (pre ++ r :: post0) ++ [q2] := by simp
    rw [e] at hl
    have := List.append_inj_right' hl rfl
    simp only [List.cons.injEq, and_true] at this
    subst this
    exact ⟨pre ++ { bytes := n, used := true } :: { bytes := r.bytes - n - H, used := false } :: post0,
      q2, by simp, hq⟩

theorem NoAdjFree_split (H n : Nat) (pre : List Region) (r : Region) (post : List Region)
    (hr : r.used = false) (h : NoAdjFree (pre ++ r :: post)) :
    NoAdjFree (splitRegions H n pre r post) := by
  unfold NoAdjFree at *
  unfold splitRegions
  rw [List.chain'_split] at h ⊢
  obtain ⟨h1, h2⟩ := h
  constructor
  · rcases List.eq_nil_or_concat pre with rfl | ⟨pre0, q, hp⟩
    · simp
    · rw [List.concat_eq_append] at hp
      subst hp
      simp only [List.append_assoc, List.singleton_append] at h1 ⊢
      rw [List.chain'_split] at h1 ⊢
      refine ⟨h1.1, ?_⟩
      simp
  · rw [List.chain'_cons]
    refine ⟨by simp, ?_⟩
    cases post with
    | nil => simp
    | cons q post =>
      rw [List.chain'_cons] at h2 ⊢
      refine ⟨?_, h2.2⟩
      intro hh
      exact h2.1 ⟨hr, hh.2⟩

theorem span_split (H n : Nat) (pre : List Region) (r : Region) (post : List Region)
    (h : n + H ≤ r.bytes) : span H (splitRegions H n pre r post) = span H (pre ++ r :: post) := by
  simp only [splitRegions, span_append, span]; omega

theorem freeSum_split (H n : Nat) (pre : List Region) (r : Region) (post : List Region)
    (hr : r.used = false) (h : n + H ≤ r.bytes) :
    freeSum (splitRegions H n pre r post) = freeSum (pre ++ r :: post) - (n + H) := by
  simp only [splitRegions, freeSum_append, freeSum, hr]; simp; omega

theorem allocate_fail {H : Nat} {s : cMemoryManager} {l : List Region} (hinv : Inv H s l)
    (n : Nat) (hno : ∀ q ∈ l, ¬ Fits (add32 n H) q) : allocate H s n = some (0, s) := by
  have hl : linkTo l s.m_memory 0 = s.m_memory := by
    have := hinv.lastFree.ne_nil
    cases l with
    | nil => exact absurd rfl this
    | cons _ _ => rfl
  have hlen : l.length < s.m_totalBytesCount + 1 := by
    have := length_le_span hinv.hH l
    have := hinv.span_eq
    omega
  have := findChunk_none H s n l 0 s.m_memory _ hinv.seg hinv.hbase hlen hno
  rw [hl] at this
  unfold allocate
  rw [this]
  simp

theorem allocate_success {H : Nat} {s : cMemoryManager} {n : Nat} {pre : List Region}
    {r : Region} {post : List Region} (hinv : Inv H s (pre ++ r :: post)) (hn : n + H < U32)
    (hpre : ∀ q ∈ pre, ¬ Fits (add32 n H) q) (hr : Fits (add32 n H) r) :
    ∃ s2, allocate H s n = some (s.m_memory + span H pre + H, s2) ∧
      Inv H s2 (splitRegions H n pre r post) ∧
      s2.m_freeBytesCount + (n + H) = s.m_freeBytesCount ∧
      s2.m_totalBytesCount = s.m_totalBytesCount ∧
      s2.m_memory = s.m_memory ∧ s2.m_trashing = s.m_trashing := by
  have hH := hinv.hH
  have hbase := hinv.hbase
  have hspan := hinv.span_eq
  have htot := hinv.htot
  rw [add32_eq hn] at hr
  obtain ⟨hru, hrb⟩ := hr
  have hrle : H + r.bytes ≤ span H (pre ++ r :: post) := span_mem_le H _ r (by simp)
  have hsp : span H (pre ++ r :: post) = span H pre + (H + r.bytes + span H post) := by
    simp [span_append, span]
  have hseg := hinv.seg
  rw [Seg_append] at hseg
  obtain ⟨hs1, hs2⟩ := hseg
  simp only [linkTo] at hs1
  obtain ⟨ha, hs3⟩ := hs2
  have hlen : pre.length < s.m_totalBytesCount + 1 := by
    have := length_le_span hH pre
    omega
  have hfind := findChunk_first H s n pre r post 0 s.m_memory _ 0 hinv.seg hbase hlen hpre
    (by rw [add32_eq hn]; exact ⟨hru, hrb⟩)
  have hnext : (s.chunkAt (s.m_memory + span H pre)).m_next
      = linkTo post (s.m_memory + span H pre + H + r.bytes) 0 := by rw [ha]
  have hn1 : (s.chunkAt (s.m_memory + span H pre)).m_next ≠ s.m_memory + span H pre := by
    rw [hnext]; cases post <;> simp [linkTo] <;> omega
  have hn2 : (s.chunkAt (s.m_memory + span H pre)).m_next ≠ s.m_memory + span H pre + H + n := by
    rw [hnext]; cases post <;> simp [linkTo] <;> omega
  obtain ⟨s2, hs2, hheap, hfree, htotal, hmem, htr⟩ :=
    allocate_of_find H s n _ hfind (by omega) hH hn1 hn2
  have hfs : freeSum (pre ++ r :: post) = freeSum pre + (r.bytes + freeSum post) := by
    simp [freeSum_append, freeSum, hru]
  have hfle := freeSum_le_span H (pre ++ r :: post)
  have hfree2 : s2.m_freeBytesCount = s.m_freeBytesCount - (n + H) := by
    rw [hfree, add32_eq hn, sub32_eq]
    · rw [hinv.free_eq, hfs]; omega
    · rw [hinv.free_eq]; omega
  refine ⟨s2, hs2, ?_, ?_, htotal, hmem, htr⟩
  · refine ⟨hH, by rw [hmem]; exact hbase, by rw [htotal]; exact htot, ?_, ?_, ?_, ?_, ?_⟩
    · -- the headers
      rw [hmem]
      unfold splitRegions
      rw [Seg_append]
      refine ⟨?_, ?_, ?_, ?_⟩
      · refine Seg_congr hH _ _ _ _ _ _ ?_ hs1
        intro x hx1 hx2
        rw [hheap x, if_neg (by omega), if_neg (by omega), hnext]
        rw [if_neg]
        cases post with
        | nil => simp [linkTo]
        | cons q post => simp [linkTo]; omega
      · rw [hheap, if_pos rfl, ha]; simp [linkTo]
      · have hb : (s.chunkAt (s.m_memory + span H pre)).m_bytes = r.bytes := by rw [ha]
        have e1 : sub32 r.bytes n = r.bytes - n := sub32_eq (by omega) (by omega)
        have e2 : sub32 (r.bytes - n) H = r.bytes - n - H := sub32_eq (by omega) (by omega)
        rw [hheap, if_neg (by omega), if_pos rfl, hnext, hb, e1, e2]
        simp only [cMemoryChunk.mk.injEq, true_and]
        cases post with
        | nil => simp [linkTo]
        | cons q post => simp [linkTo]; omega
      · have e : s.m_memory + span H pre + H + n + H + (r.bytes - n - H)
            = s.m_memory + span H pre + H + r.bytes := by omega
        simp only [e]
        cases post with
        | nil => trivial
        | cons q post =>
          obtain ⟨hq1, hq2⟩ := hs3
          refine ⟨?_, ?_⟩
          · have hl : linkTo (q :: post) (s.m_memory + span H pre + H + r.bytes) 0
                = s.m_memory + span H pre + H + r.bytes := rfl
            rw [hheap, if_neg (by omega), if_neg (by omega), hnext, hl,
              if_pos ⟨rfl, by omega⟩, hq1]
          · have hl : linkTo (q :: post) (s.m_memory + span H pre + H + r.bytes) 0
                = s.m_memory + span H pre + H + r.bytes := rfl
            refine Seg_congr hH _ _ _ _ _ _ ?_ hq2
            intro x hx1 hx2
            rw [hheap x, if_neg (by omega), if_neg (by omega), hnext, hl,
              if_neg (by omega)]
    · rw [span_split H n pre r post hrb, htotal]; exact hspan
    · rw [freeSum_split H n pre r post hru hrb, hfree2, hinv.free_eq]
    · exact LastFree_split H n pre r post hinv.lastFree
    · exact NoAdjFree_split H n pre r post hru hinv.noAdj
  · rw [hfree2, hinv.free_eq, hfs]; omega

/-! ## The effect of `deallocateChunk` on memory -/

theorem ite_proj (b : Prop) [Decidable b] (u w : cMemoryManager) :
    ((if b then u else w).m_freeBytesCount = if b then u.m_freeBytesCount else w.m_freeBytesCount)
    ∧ ((if b then u else w).m_totalBytesCount
        = if b then u.m_totalBytesCount else w.m_totalBytesCount)
    ∧ ((if b then u else w).m_memory = if b then u.m_memory else w.m_memory)
    ∧ ((if b then u else w).m_trashing = if b then u.m_trashing else w.m_trashing)
    ∧ ((if b then u else w).chunkAt = if b then u.chunkAt else w.chunkAt) := by
  split <;> simp

theorem deallocateChunk_eq (H : Nat) (s : cMemoryManager) (c : Nat)
    (P N start prevF nextF : Nat)
    (hP : (s.chunkAt c).m_previous = P) (hN : (s.chunkAt c).m_next = N)
    (hstart : start = if P ≠ 0 ∧ (s.chunkAt P).m_isInUse = false then P else c)
    (hprevF : prevF = if P ≠ 0 ∧ (s.chunkAt P).m_isInUse = false then (s.chunkAt P).m_previous
      else P)
    (hnextF : nextF = if N ≠ 0 ∧ (s.chunkAt N).m_isInUse = false then (s.chunkAt N).m_next
      else N)
    (h1 : start ≠ N) (h2 : start ≠ nextF)
    (h3 : (N ≠ 0 ∧ (s.chunkAt N).m_isInUse = false) → N ≠ nextF ∨ nextF = 0) :
    (∀ x, (deallocateChunk H s c).chunkAt x =
        if x = start then
          { m_isInUse := false,
            m_bytes :=
              (fun b => if N ≠ 0 ∧ (s.chunkAt N).m_isInUse = false then
                  add32 b (add32 (s.chunkAt N).m_bytes H) else b)
                (if P ≠ 0 ∧ (s.chunkAt P).m_isInUse = false then
                  add32 (add32 (s.chunkAt c).m_bytes (s.chunkAt P).m_bytes) H
                 else (s.chunkAt c).m_bytes),
            m_previous := prevF, m_next := nextF }
        else if x ≠ 0 ∧ (x = N ∨ x = nextF) then { s.chunkAt x with m_previous := start }
        else s.chunkAt x) ∧
      (deallocateChunk H s c).m_freeBytesCount =
        (fun f => if N ≠ 0 ∧ (s.chunkAt N).m_isInUse = false then add32 f H else f)
          ((fun f => if P ≠ 0 ∧ (s.chunkAt P).m_isInUse = false then add32 f H else f)
            (add32 s.m_freeBytesCount (s.chunkAt c).m_bytes)) ∧
      (deallocateChunk H s c).m_totalBytesCount = s.m_totalBytesCount ∧
      (deallocateChunk H s c).m_memory = s.m_memory ∧
      (deallocateChunk H s c).m_trashing = s.m_trashing := by
  refine ⟨?_, ?_, ?_, ?_, ?_⟩
  · intro x
    by_cases hN0 : N = 0
    · have hCN : ¬ (N ≠ 0 ∧ (s.chunkAt N).m_isInUse = false) := fun h => h.1 hN0
      rw [if_neg hCN] at hnextF
      by_cases hCP : P ≠ 0 ∧ (s.chunkAt P).m_isInUse = false
      · rw [if_pos hCP] at hstart hprevF
        simp only [deallocateChunk, deallocateChunk.mergePrevious, deallocateChunk.mergeNext,
          hP, hN, if_pos hCP, if_neg hCN, hN0, ne_eq, not_true_eq_false, if_false, if_true,
          (ite_proj _ _ _).2.2.2.2, memset_chunkAt, ite_self,
          set_m_previous, set_m_next, store_chunkAt, cMemoryChunk.cMemoryChunk]
        rw [hstart, hprevF, hnextF, hN0]
        by_cases hx : x = P
        · simp [hx]
        · simp [hx]
      · rw [if_neg hCP] at hstart hprevF
        simp only [deallocateChunk, deallocateChunk.mergePrevious, deallocateChunk.mergeNext,
          hP, hN, if_neg hCP, if_neg hCN, hN0, ne_eq, not_true_eq_false, if_false, if_true,
          (ite_proj _ _ _).2.2.2.2, memset_chunkAt, ite_self,
          set_m_previous, set_m_next, store_chunkAt, cMemoryChunk.cMemoryChunk]
        rw [hstart, hprevF, hnextF, hN0]
        by_cases hx : x = c
        · simp [hx]
        · simp [hx]
    · by_cases hNu : (s.chunkAt N).m_isInUse = true
      · have hCN : ¬ (N ≠ 0 ∧ (s.chunkAt N).m_isInUse = false) := by
          rw [hNu]; simp
        rw [if_neg hCN] at hnextF
        by_cases hCP : P ≠ 0 ∧ (s.chunkAt P).m_isInUse = false
        · rw [if_pos hCP] at hstart hprevF
          simp only [deallocateChunk, deallocateChunk.mergePrevious, deallocateChunk.mergeNext,
            hP, hN, if_pos hCP, if_neg hCN, hN0, hNu, ne_eq, not_true_eq_false, not_false_eq_true,
            if_false, if_true, Bool.true_eq_false, Bool.false_eq_true,
            (ite_proj _ _ _).2.2.2.2, memset_chunkAt, ite_self,
            set_m_previous, set_m_next, store_chunkAt, cMemoryChunk.cMemoryChunk]
          rw [hstart, hprevF, hnextF]
          rw [hstart] at h1
          by_cases hx : x = P
          · simp [hx]
          · by_cases hx2 : x = N
            · simp [hx2, Ne.symm h1, hN0, hNu]
            · simp [hx, hx2]

        · rw [if_neg hCP] at hstart hprevF
          simp only [deallocateChunk, deallocateChunk.mergePrevious, deallocateChunk.mergeNext,
            hP, hN, if_neg hCP, if_neg hCN, hN0, hNu, ne_eq, not_true_eq_false, not_false_eq_true,
            if_false, if_true, Bool.true_eq_false, Bool.false_eq_true,
            (ite_proj _ _ _).2.2.2.2, memset_chunkAt, ite_self,
            set_m_previous, set_m_next, store_chunkAt, cMemoryChunk.cMemoryChunk]
          rw [hstart, hprevF, hnextF]
          rw [hstart] at h1
          by_cases hx : x = c
          · simp [hx]
          · by_cases hx2 : x = N
            · simp [hx2, Ne.symm h1, hN0, hNu]
            · simp [hx, hx2]
      · have hNu : (s.chunkAt N).m_isInUse = false := by
          cases h : (s.chunkAt N).m_isInUse
          · rfl
          · exact absurd h hNu
        have hCN : N ≠ 0 ∧ (s.chunkAt N).m_isInUse = false := ⟨hN0, hNu⟩
        rw [if_pos hCN] at hnextF
        by_cases hCP : P ≠ 0 ∧ (s.chunkAt P).m_isInUse = false
        · rw [if_pos hCP] at hstart hprevF
          rw [hstart] at h1 h2
          rw [hnextF] at h2 h3
          by_cases hNN : (s.chunkAt N).m_next = 0
          · simp only [deallocateChunk, deallocateChunk.mergePrevious, deallocateChunk.mergeNext,
              hP, hN, if_pos hCP, if_pos hCN, hN0, hNu, hNN, ne_eq, not_true_eq_false,
              not_false_eq_true, if_false, if_true, Bool.true_eq_false, Bool.false_eq_true,
              (ite_proj _ _ _).2.2.2.2, memset_chunkAt, ite_self,
              set_m_previous, set_m_next, store_chunkAt, cMemoryChunk.cMemoryChunk]
            rw [hstart, hprevF, hnextF, hNN]
            by_cases hx : x = P
            · simp [hx]
            · by_cases hx2 : x = N
              · simp [hx2, Ne.symm h1, hN0, hNu, hNN]
              · simp [hx, hx2]
          · have h3b : N ≠ (s.chunkAt N).m_next := (h3 hCN).resolve_right hNN
            simp only [deallocateChunk, deallocateChunk.mergePrevious, deallocateChunk.mergeNext,
              hP, hN, if_pos hCP, if_pos hCN, hN0, hNu, hNN, ne_eq, not_true_eq_false,
              not_false_eq_true, if_false, if_true, Bool.true_eq_false, Bool.false_eq_true,
              (ite_proj _ _ _).2.2.2.2, memset_chunkAt, ite_self, if_neg h3b, if_neg (Ne.symm h3b),
              set_m_previous, set_m_next, store_chunkAt, cMemoryChunk.cMemoryChunk]
            rw [hstart, hprevF, hnextF]
            by_cases hx : x = P
            · simp [hx]
            · by_cases hx2 : x = N
              · simp [hx2, Ne.symm h1, hN0, h3b, hNu, hNN]
              · by_cases hx3 : x = (s.chunkAt N).m_next
                · simp [hx3, Ne.symm h2, Ne.symm h3b, hNN]
                · simp [hx, hx2, hx3]

        · rw [if_neg hCP] at hstart hprevF
          rw [hstart] at h1 h2
          rw [hnextF] at h2 h3
          by_cases hNN : (s.chunkAt N).m_next = 0
          · simp only [deallocateChunk, deallocateChunk.mergePrevious, deallocateChunk.mergeNext,
              hP, hN, if_neg hCP, if_pos hCN, hN0, hNu, hNN, ne_eq, not_true_eq_false,
              not_false_eq_true, if_false, if_true, Bool.true_eq_false, Bool.false_eq_true,
              (ite_proj _ _ _).2.2.2.2, memset_chunkAt, ite_self,
              set_m_previous, set_m_next, store_chunkAt, cMemoryChunk.cMemoryChunk]
            rw [hstart, hprevF, hnextF, hNN]
            by_cases hx : x = c
            · simp [hx]
            · by_cases hx2 : x = N
              · simp [hx2, Ne.symm h1, hN0, hNu, hNN]
              · simp [hx, hx2]
          · have h3b : N ≠ (s.chunkAt N).m_next := (h3 hCN).resolve_right hNN
            simp only [deallocateChunk, deallocateChunk.mergePrevious, deallocateChunk.mergeNext,
              hP, hN, if_neg hCP, if_pos hCN, hN0, hNu, hNN, ne_eq, not_true_eq_false,
              not_false_eq_true, if_false, if_true, Bool.true_eq_false, Bool.false_eq_true,
              (ite_proj _ _ _).2.2.2.2, memset_chunkAt, ite_self, if_neg h3b, if_neg (Ne.symm h3b),
              set_m_previous, set_m_next, store_chunkAt, cMemoryChunk.cMemoryChunk]
            rw [hstart, hprevF, hnextF]
            by_cases hx : x = c
            · simp [hx]
            · by_cases hx2 : x = N
              · simp [hx2, Ne.symm h1, hN0, h3b, hNu, hNN]
              · by_cases hx3 : x = (s.chunkAt N).m_next
                · simp [hx3, Ne.symm h2, Ne.symm h3b, hNN]
                · simp [hx, hx2, hx3]
  all_goals
    by_cases hCP : P ≠ 0 ∧ (s.chunkAt P).m_isInUse = false <;>
    by_cases hN0 : N = 0 <;>
    by_cases hNu : (s.chunkAt N).m_isInUse = true <;>
    by_cases hNN : (s.chunkAt N).m_next = 0 <;>
    simp [deallocateChunk, deallocateChunk.mergePrevious, deallocateChunk.mergeNext,
      hP, hN, hCP, hN0, hNu, hNN, (ite_proj _ _ _).1, (ite_proj _ _ _).2.1,
      (ite_proj _ _ _).2.2.1, (ite_proj _ _ _).2.2.2.1, set_m_previous, set_m_next]

/-! ## The effect of a merge on the list of regions -/

@[simp] theorem keepBefore_nil : keepBefore [] = [] := rfl

@[simp] theorem absorbedBefore_nil (H : Nat) : absorbedBefore H [] = 0 := rfl

@[simp] theorem keepBefore_concat (pre : List Region) (q : Region) :
    keepBefore (pre ++ [q]) = if q.used then pre ++ [q] else pre := by
  simp [keepBefore]

@[simp] theorem absorbedBefore_concat (H : Nat) (pre : List Region) (q : Region) :
    absorbedBefore H (pre ++ [q]) = if q.used then 0 else q.bytes + H := by
  simp [absorbedBefore]

theorem span_keepBefore (H : Nat) (pre : List Region) :
    span H pre = span H (keepBefore pre) + absorbedBefore H pre := by
  rcases List.eq_nil_or_concat pre with rfl | ⟨pre0, q, hp⟩
  · simp
  · rw [List.concat_eq_append] at hp; subst hp
    cases hq : q.used <;> simp [hq, span_append, span]
    omega

theorem span_keepAfter (H : Nat) (post : List Region) :
    span H post = absorbedAfter H post + span H (keepAfter post) := by
  cases post with
  | nil => simp [keepAfter, absorbedAfter]
  | cons q post =>
    cases hq : q.used <;> simp [hq, keepAfter, absorbedAfter, span]
    omega

theorem span_merge (H : Nat) (pre : List Region) (r : Region) (post : List Region) :
    span H (mergeRegions H pre r post) = span H (pre ++ r :: post) := by
  have h1 := span_keepBefore H pre
  have h2 := span_keepAfter H post
  simp only [mergeRegions, span_append, span]
  omega

theorem freeSum_keepBefore (H : Nat) (pre : List Region) :
    freeSum pre + H * absorbedCountBefore pre
      = freeSum (keepBefore pre) + absorbedBefore H pre := by
  rcases List.eq_nil_or_concat pre with rfl | ⟨pre0, q, hp⟩
  · simp [absorbedCountBefore, freeSum]
  · rw [List.concat_eq_append] at hp; subst hp
    cases hq : q.used <;> simp [hq, freeSum_append, freeSum, absorbedCountBefore]
    omega

theorem freeSum_keepAfter (H : Nat) (post : List Region) :
    freeSum post + H * absorbedCountAfter post
      = freeSum (keepAfter post) + absorbedAfter H post := by
  cases post with
  | nil => simp [keepAfter, absorbedAfter, absorbedCountAfter]
  | cons q post =>
    cases hq : q.used <;> simp [hq, keepAfter, absorbedAfter, freeSum, absorbedCountAfter]
    omega

theorem freeSum_merge (H : Nat) (pre : List Region) (r : Region) (post : List Region)
    (hr : r.used = true) :
    freeSum (mergeRegions H pre r post)
      = freeSum (pre ++ r :: post) + r.bytes + H * absorbedHeaders pre post := by
  have h1 := freeSum_keepBefore H pre
  have h2 := freeSum_keepAfter H post
  simp only [mergeRegions, freeSum_append, freeSum, hr, absorbedHeaders, Nat.mul_add]
  simp only [Bool.false_eq_true, if_false, if_true]
  omega

theorem LastFree_merge (H : Nat) (pre : List Region) (r : Region) (post : List Region)
    (h : LastFree (pre ++ r :: post)) : LastFree (mergeRegions H pre r post) := by
  obtain ⟨l0, q, hl, hq⟩ := h
  unfold mergeRegions
  rcases List.eq_nil_or_concat (keepAfter post) with hk | ⟨k0, q2, hk⟩
  · rw [hk]
    exact ⟨keepBefore pre,
      { bytes := absorbedBefore H pre + r.bytes + absorbedAfter H post, used := false },
      rfl, rfl⟩
  · rw [List.concat_eq_append] at hk
    rw [hk]
    refine ⟨keepBefore pre ++
      { bytes := absorbedBefore H pre + r.bytes + absorbedAfter H post, used := false } :: k0,
      q2, by simp, ?_⟩
    -- the last region of `keepAfter post` is the last region of the list
    have hpost : ∃ p0, post = p0 ++ [q2] := by
      cases post with
      | nil => simp [keepAfter] at hk
      | cons p post =>
        simp only [keepAfter] at hk
        split at hk
        · exact ⟨k0, hk⟩
        · exact ⟨p :: k0, by simp [hk]⟩
    obtain ⟨p0, rfl⟩ := hpost
    have e : pre ++ r :: (p0 ++ [q2]) = (pre ++ r :: p0) ++ [q2] := by simp
    rw [e] at hl
    have := List.append_inj_right' hl rfl
    simp only [List.cons.injEq, and_true] at this
    subst this
    exact hq

theorem NoAdjFree_merge (H : Nat) (pre : List Region) (r : Region) (post : List Region)
    (h : NoAdjFree (pre ++ r :: post)) : NoAdjFree (mergeRegions H pre r post) := by
  unfold NoAdjFree at *
  unfold mergeRegions
  rw [List.chain'_split] at h ⊢
  obtain ⟨h1, h2⟩ := h
  constructor
  · rcases List.eq_nil_or_concat pre with rfl | ⟨pre0, q, hp⟩
    · simp
    · rw [List.concat_eq_append] at hp; subst hp
      rw [keepBefore_concat]
      have h3 : List.Chain' (fun a b : Region => ¬ (a.used = false ∧ b.used = false)) (pre0 ++ [q]) :=
        (List.chain'_append.1 h1).1
      cases hq : q.used
      · -- the free region `q` is absorbed; the region before it is in use
        simp only [Bool.false_eq_true, if_false]
        rcases List.eq_nil_or_concat pre0 with rfl | ⟨pre1, q1, hp1⟩
        · simp
        · rw [List.concat_eq_append] at hp1; subst hp1
          simp only [List.append_assoc, List.singleton_append] at h3 ⊢
          rw [List.chain'_split] at h3 ⊢
          refine ⟨h3.1, ?_⟩
          have h5 := h3.2
          rw [List.chain'_cons] at h5 ⊢
          refine ⟨?_, List.chain'_singleton _⟩
          intro hh
          exact h5.1 ⟨hh.1, hq⟩
      · simp only [if_true]
        simp only [List.append_assoc, List.singleton_append] at h3 ⊢
        rw [List.chain'_split]
        refine ⟨h3, ?_⟩
        simp [hq]
  · cases post with
    | nil => simp [keepAfter]
    | cons q post =>
      rw [List.chain'_cons] at h2
      simp only [keepAfter]
      cases hq : q.used
      · simp only [Bool.false_eq_true, if_false]
        cases post with
        | nil => simp
        | cons q1 post =>
          have h4 := h2.2
          rw [List.chain'_cons] at h4 ⊢
          refine ⟨?_, h4.2⟩
          intro hh
          exact h4.1 ⟨hq, hh.2⟩
      · simp only [if_true]
        rw [List.chain'_cons]
        exact ⟨by simp [hq], h2.2⟩

theorem lastPos_concat (H : Nat) (pre : List Region) (q : Region) (prev pos : Nat) :
    lastPos H prev pos (pre ++ [q]) = pos + span H pre := by
  rw [lastPos_append_cons]; rfl

theorem Seg_reprev {H : Nat} (hH : 0 < H) (heap heap2 : Nat → cMemoryChunk) (l : List Region)
    (prev prev2 pos nxt : Nat)
    (hhead : l ≠ [] → heap2 pos = { heap pos with m_previous := prev2 })
    (hagree : ∀ x, pos < x → x < pos + span H l → heap2 x = heap x)
    (h : Seg H heap prev pos l nxt) : Seg H heap2 prev2 pos l nxt := by
  cases l with
  | nil => trivial
  | cons r l =>
    obtain ⟨h1, h2⟩ := h
    refine ⟨?_, Seg_congr hH _ _ _ _ _ _ ?_ h2⟩
    · rw [hhead (by simp), h1]
    · intro x hx1 hx2
      exact hagree x (by omega) (by simp only [span]; omega)

theorem pre_facts {H : Nat} (heap : Nat → cMemoryChunk) (base : Nat) (pre : List Region)
    (hbase : 0 < base) (hs : Seg H heap 0 base pre (base + span H pre)) :
    (if lastPos H 0 base pre ≠ 0 ∧ (heap (lastPos H 0 base pre)).m_isInUse = false
      then lastPos H 0 base pre else base + span H pre) = base + span H (keepBefore pre) ∧
    (if lastPos H 0 base pre ≠ 0 ∧ (heap (lastPos H 0 base pre)).m_isInUse = false
      then (heap (lastPos H 0 base pre)).m_previous else lastPos H 0 base pre)
      = lastPos H 0 base (keepBefore pre) ∧
    Seg H heap 0 base (keepBefore pre) (base + span H (keepBefore pre)) ∧
    (if lastPos H 0 base pre ≠ 0 ∧ (heap (lastPos H 0 base pre)).m_isInUse = false
      then (heap (lastPos H 0 base pre)).m_bytes + H else 0) = absorbedBefore H pre ∧
    (if lastPos H 0 base pre ≠ 0 ∧ (heap (lastPos H 0 base pre)).m_isInUse = false
      then 1 else 0) = absorbedCountBefore pre := by
  rcases List.eq_nil_or_concat pre with rfl | ⟨pre0, q, hp⟩
  · simp [lastPos, span, Seg, absorbedCountBefore]
  · rw [List.concat_eq_append] at hp; subst hp
    rw [Seg_append] at hs
    obtain ⟨hs1, hq, _⟩ := hs
    simp only [linkTo] at hs1 hq
    have hl : lastPos H 0 base (pre0 ++ [q]) = base + span H pre0 := lastPos_concat H pre0 q 0 base
    have hne : base + span H pre0 ≠ 0 := by omega
    rw [hl]
    cases hqu : q.used
    · have hc : base + span H pre0 ≠ 0 ∧ (heap (base + span H pre0)).m_isInUse = false := by
        rw [hq]; exact ⟨hne, hqu⟩
      simp only [if_pos hc, keepBefore_concat, absorbedBefore_concat, hqu, Bool.false_eq_true,
        if_false]
      refine ⟨trivial, ?_, hs1, ?_, ?_⟩
      · rw [hq]
      · rw [hq]
      · simp [absorbedCountBefore, hqu]
    · have hc : ¬ (base + span H pre0 ≠ 0 ∧ (heap (base + span H pre0)).m_isInUse = false) := by
        rw [hq]; simp [hqu]
      simp only [if_neg hc, keepBefore_concat, absorbedBefore_concat, hqu, if_true]
      refine ⟨trivial, hl.symm, ?_, trivial, ?_⟩
      · rw [Seg_append]
        refine ⟨hs1, ?_, trivial⟩
        rw [hq]; simp [linkTo, span_append, span]
      · simp [absorbedCountBefore, hqu]

theorem post_facts {H : Nat} (heap : Nat → cMemoryChunk) (a E0 : Nat) (post : List Region)
    (hE0 : 0 < E0) (hs : Seg H heap a E0 post 0) :
    (linkTo post E0 0 = 0 ∨ linkTo post E0 0 = E0) ∧
    (if linkTo post E0 0 ≠ 0 ∧ (heap (linkTo post E0 0)).m_isInUse = false
      then (heap (linkTo post E0 0)).m_next else linkTo post E0 0)
      = linkTo (keepAfter post) (E0 + absorbedAfter H post) 0 ∧
    (∃ pv, Seg H heap pv (E0 + absorbedAfter H post) (keepAfter post) 0) ∧
    (if linkTo post E0 0 ≠ 0 ∧ (heap (linkTo post E0 0)).m_isInUse = false
      then (heap (linkTo post E0 0)).m_bytes + H else 0) = absorbedAfter H post ∧
    (if linkTo post E0 0 ≠ 0 ∧ (heap (linkTo post E0 0)).m_isInUse = false
      then 1 else 0) = absorbedCountAfter post := by
  cases post with
  | nil => simp [linkTo, keepAfter, absorbedAfter, absorbedCountAfter, Seg]
  | cons q post =>
    obtain ⟨hq, hs2⟩ := hs
    have hne : E0 ≠ 0 := by omega
    simp only [linkTo, keepAfter, absorbedAfter, absorbedCountAfter] at hq ⊢
    cases hqu : q.used
    · have hc : E0 ≠ 0 ∧ (heap E0).m_isInUse = false := by rw [hq]; exact ⟨hne, hqu⟩
      simp only [if_pos hc, Bool.false_eq_true, if_false]
      refine ⟨Or.inr trivial, ?_, ⟨E0, ?_⟩, ?_, trivial⟩
      · rw [hq]
        have e : E0 + (q.bytes + H) = E0 + H + q.bytes := by omega
        rw [e]
      · have e : E0 + (q.bytes + H) = E0 + H + q.bytes := by omega
        rw [e]; exact hs2
      · rw [hq]
    · have hc : ¬ (E0 ≠ 0 ∧ (heap E0).m_isInUse = false) := by rw [hq]; simp [hqu]
      simp only [if_neg hc, if_true, Nat.add_zero]
      refine ⟨Or.inr trivial, trivial, ⟨a, ?_⟩, trivial, trivial⟩
      exact ⟨hq, hs2⟩

theorem merge_bytes (CP CN : Prop) [Decidable CP] [Decidable CN] (b pb nb H aB aA : Nat)
    (h1 : (if CP then pb + H else 0) = aB) (h2 : (if CN then nb + H else 0) = aA)
    (hlt : aB + b + aA < U32) :
    (fun b => if CN then add32 b (add32 nb H) else b)
      (if CP then add32 (add32 b pb) H else b) = aB + b + aA := by
  by_cases hp : CP <;> by_cases hn : CN <;> simp only [hp, hn, if_true, if_false] at h1 h2 ⊢
  · have e1 : add32 b pb = b + pb := add32_eq (by omega)
    have e2 : add32 (b + pb) H = b + pb + H := add32_eq (by omega)
    have e3 : add32 nb H = nb + H := add32_eq (by omega)
    have e4 : add32 (b + pb + H) (nb + H) = b + pb + H + (nb + H) := add32_eq (by omega)
    rw [e1, e2, e3, e4]; omega
  · have e1 : add32 b pb = b + pb := add32_eq (by omega)
    have e2 : add32 (b + pb) H = b + pb + H := add32_eq (by omega)
    rw [e1, e2]; omega
  · have e3 : add32 nb H = nb + H := add32_eq (by omega)
    have e4 : add32 b (nb + H) = b + (nb + H) := add32_eq (by omega)
    rw [e3, e4]; omega
  · omega

theorem merge_free (CP CN : Prop) [Decidable CP] [Decidable CN] (f b H cB cA : Nat)
    (h1 : (if CP then 1 else 0) = cB) (h2 : (if CN then 1 else 0) = cA)
    (hlt : f + b + H * (cB + cA) < U32) :
    (fun f => if CN then add32 f H else f)
      ((fun f => if CP then add32 f H else f) (add32 f b)) = f + b + H * (cB + cA) := by
  by_cases hp : CP <;> by_cases hn : CN <;> simp only [hp, hn, if_true, if_false] at h1 h2 ⊢ <;>
    subst h1 h2 <;> simp only [Nat.mul_add, Nat.mul_one, Nat.mul_zero, Nat.add_zero,
      Nat.zero_add] at hlt ⊢
  · have e1 : add32 f b = f + b := add32_eq (by omega)
    have e2 : add32 (f + b) H = f + b + H := add32_eq (by omega)
    have e3 : add32 (f + b + H) H = f + b + H + H := add32_eq (by omega)
    rw [e1, e2, e3]; omega
  · have e1 : add32 f b = f + b := add32_eq (by omega)
    have e2 : add32 (f + b) H = f + b + H := add32_eq (by omega)
    rw [e1, e2]
  · have e1 : add32 f b = f + b := add32_eq (by omega)
    have e2 : add32 (f + b) H = f + b + H := add32_eq (by omega)
    rw [e1, e2]
  · have e1 : add32 f b = f + b := add32_eq (by omega)
    rw [e1]

theorem deallocateChunk_spec {H : Nat} {s : cMemoryManager} {pre : List Region} {r : Region}
    {post : List Region} (hinv : Inv H s (pre ++ r :: post)) (hr : r.used = true) :
    Inv H (deallocateChunk H s (s.m_memory + span H pre)) (mergeRegions H pre r post) ∧
    (deallocateChunk H s (s.m_memory + span H pre)).m_freeBytesCount
      = s.m_freeBytesCount + r.bytes + H * absorbedHeaders pre post ∧
    (deallocateChunk H s (s.m_memory + span H pre)).m_totalBytesCount = s.m_totalBytesCount ∧
    (deallocateChunk H s (s.m_memory + span H pre)).m_memory = s.m_memory ∧
    (deallocateChunk H s (s.m_memory + span H pre)).m_trashing = s.m_trashing := by
  have hH := hinv.hH
  have hbase := hinv.hbase
  have hspan := hinv.span_eq
  have htot := hinv.htot
  have hsp : span H (pre ++ r :: post) = span H pre + (H + r.bytes + span H post) := by
    simp [span_append, span]
  have hseg := hinv.seg
  rw [Seg_append] at hseg
  obtain ⟨hs1, ha, hs3⟩ := hseg
  simp only [linkTo] at hs1
  obtain ⟨pf1, pf2, pf3, pf4, pf5⟩ := pre_facts s.chunkAt s.m_memory pre hbase hs1
  obtain ⟨qf1, qf2, ⟨pv, qf3⟩, qf4, qf5⟩ :=
    post_facts s.chunkAt (s.m_memory + span H pre) (s.m_memory + span H pre + H + r.bytes) post
      (by omega) hs3
  have hkb := span_keepBefore H pre
  have hka := span_keepAfter H post
  have hP : (s.chunkAt (s.m_memory + span H pre)).m_previous = lastPos H 0 s.m_memory pre := by
    rw [ha]
  have hN : (s.chunkAt (s.m_memory + span H pre)).m_next
      = linkTo post (s.m_memory + span H pre + H + r.bytes) 0 := by rw [ha]
  have hB : (s.chunkAt (s.m_memory + span H pre)).m_bytes = r.bytes := by rw [ha]
  have hnF : linkTo (keepAfter post) (s.m_memory + span H pre + H + r.bytes + absorbedAfter H post) 0 = 0
      ∨ linkTo (keepAfter post) (s.m_memory + span H pre + H + r.bytes + absorbedAfter H post) 0
        = s.m_memory + span H pre + H + r.bytes + absorbedAfter H post := by
    cases keepAfter post <;> simp [linkTo]
  have hfm := freeSum_merge H pre r post hr
  have hfle := freeSum_le_span H (mergeRegions H pre r post)
  have hsm := span_merge H pre r post
  obtain ⟨hheap, hfree, htotal, hmem, htr⟩ :=
    deallocateChunk_eq H s (s.m_memory + span H pre) _ _ _ _ _ hP hN pf1.symm pf2.symm qf2.symm
      (by rcases qf1 with h | h <;> rw [h] <;> omega)
      (by rcases hnF with h | h <;> rw [h] <;> omega)
      (by
        intro hc
        rcases hnF with h | h
        · exact Or.inr h
        · left
          rw [if_pos hc] at qf4
          rcases qf1 with h0 | h0
          · exact absurd h0 hc.1
          · rw [h, h0]; omega)
  rw [hB] at hheap hfree
  rw [merge_bytes _ _ r.bytes _ _ H _ _ pf4 qf4 (by omega)] at hheap
  rw [merge_free _ _ s.m_freeBytesCount r.bytes H _ _ pf5 qf5 (by
    rw [hinv.free_eq]; unfold absorbedHeaders at hfm; omega)] at hfree
  refine ⟨⟨hH, by rw [hmem]; exact hbase, by rw [htotal]; exact htot, ?_, ?_, ?_, ?_, ?_⟩,
    hfree, htotal, hmem, htr⟩
  · rw [hmem]
    unfold mergeRegions
    rw [Seg_append]
    refine ⟨?_, ?_, ?_⟩
    · refine Seg_congr hH _ _ _ _ _ _ ?_ pf3
      intro x hx1 hx2
      rw [hheap x, if_neg (by omega), if_neg]
      rcases qf1 with h | h <;> rcases hnF with h2 | h2 <;> rw [h, h2] <;> omega
    · rw [hheap, if_pos rfl]
      simp only [linkTo, cMemoryChunk.mk.injEq, true_and]
      have e : s.m_memory + span H (keepBefore pre) + H
            + (absorbedBefore H pre + r.bytes + absorbedAfter H post)
          = s.m_memory + span H pre + H + r.bytes + absorbedAfter H post := by omega
      rw [e]
    · have e : s.m_memory + span H (keepBefore pre) + H
            + (absorbedBefore H pre + r.bytes + absorbedAfter H post)
          = s.m_memory + span H pre + H + r.bytes + absorbedAfter H post := by omega
      rw [e]
      refine Seg_reprev hH _ _ _ pv _ _ _ ?_ ?_ qf3
      · intro hne
        have hl : linkTo (keepAfter post)
            (s.m_memory + span H pre + H + r.bytes + absorbedAfter H post) 0
            = s.m_memory + span H pre + H + r.bytes + absorbedAfter H post := by
          cases hk : keepAfter post with
          | nil => exact absurd hk hne
          | cons _ _ => rfl
        rw [hheap, if_neg (by omega), if_pos ⟨by omega, Or.inr hl.symm⟩]
      · intro x hx1 hx2
        rw [hheap x, if_neg (by omega), if_neg]
        rcases qf1 with h | h <;> rcases hnF with h2 | h2 <;> rw [h, h2] <;> omega
  · rw [hsm, htotal]; exact hspan
  · rw [hfree, hfm, hinv.free_eq]; rfl
  · exact LastFree_merge H pre r post hinv.lastFree
  · exact NoAdjFree_merge H pre r post hinv.noAdj

/-! ## The range check and the chain walk of `deallocate` -/

theorem isAddressInMemoryRange_iff (H : Nat) (s : cMemoryManager) (p : Nat)
    (hbase : 0 < s.m_memory) :
    isAddressInMemoryRange H s p = true ↔
      s.m_memory + H ≤ p ∧ p < s.m_memory + s.m_totalBytesCount := by
  unfold isAddressInMemoryRange
  by_cases h0 : p = 0
  · simp [h0]; omega
  · by_cases h1 : p < s.m_memory ∨ p ≥ s.m_memory + s.m_totalBytesCount
    · simp only [if_neg h0, if_pos h1]
      simp; omega
    · by_cases h2 : (p : Int) - (H : Int) < (s.m_memory : Int)
      · simp only [if_neg h0, if_neg h1, if_pos h2]
        simp; omega
      · simp only [if_neg h0, if_neg h1, if_neg h2]
        simp; omega

theorem loop_found (H : Nat) (s : cMemoryManager) (p : Nat) (hH : 0 < H) (pre : List Region)
    (r : Region) (post : List Region) :
    ∀ (prev pos fuel nxt : Nat), Seg H s.chunkAt prev pos (pre ++ r :: post) nxt → 0 < pos →
      pre.length < fuel → p = pos + span H pre + H →
      findChunkForUserMemory.loop H s p fuel pos
        = some (if r.used then pos + span H pre else 0) := by
  induction pre with
  | nil =>
    intro prev pos fuel nxt hseg hpos hf hp
    cases fuel with
    | zero => simp at hf
    | succ f =>
      obtain ⟨h1, h2⟩ := hseg
      simp only [span, Nat.add_zero] at hp ⊢
      have hpos2 : pos ≠ 0 := by omega
      simp only [findChunkForUserMemory.loop, if_neg hpos2, h1, if_neg (show ¬ p < pos by omega),
        if_pos hp.symm]
      cases r.used <;> simp
  | cons q pre ih =>
    intro prev pos fuel nxt hseg hpos hf hp
    cases fuel with
    | zero => simp at hf
    | succ f =>
      rw [List.cons_append] at hseg
      obtain ⟨h1, h2⟩ := hseg
      simp only [span] at hp ⊢
      have hpos2 : pos ≠ 0 := by omega
      have hl : linkTo (pre ++ r :: post) (pos + H + q.bytes) nxt = pos + H + q.bytes := by
        cases pre <;> rfl
      simp only [findChunkForUserMemory.loop, if_neg hpos2, h1, if_neg (show ¬ p < pos by omega),
        if_neg (show ¬ pos + H = p by omega), hl]
      rw [ih pos (pos + H + q.bytes) f nxt h2 (by omega) (by simpa using hf) (by omega)]
      have e : pos + H + q.bytes + span H pre = pos + (H + q.bytes + span H pre) := by omega
      rw [e]

theorem loop_notfound (H : Nat) (s : cMemoryManager) (p : Nat) (l : List Region) :
    ∀ (prev pos fuel : Nat), Seg H s.chunkAt prev pos l 0 → 0 < pos → l.length < fuel →
      (∀ pre r post, l = pre ++ r :: post → p ≠ pos + span H pre + H) →
      findChunkForUserMemory.loop H s p fuel (linkTo l pos 0) = some 0 := by
  induction l with
  | nil =>
    intro prev pos fuel _ _ hf _
    cases fuel with
    | zero => simp at hf
    | succ f => simp [linkTo, findChunkForUserMemory.loop]
  | cons q l ih =>
    intro prev pos fuel hseg hpos hf hno
    cases fuel with
    | zero => simp at hf
    | succ f =>
      obtain ⟨h1, h2⟩ := hseg
      have hpos2 : pos ≠ 0 := by omega
      have hne : ¬ pos + H = p := by
        have := hno [] q l rfl
        simp only [span, Nat.add_zero] at this
        exact fun h => this h.symm
      simp only [linkTo, findChunkForUserMemory.loop, if_neg hpos2, h1, if_neg hne]
      by_cases hlt : p < pos
      · simp [hlt]
      · rw [if_neg hlt]
        refine ih pos (pos + H + q.bytes) f h2 (by omega) (by simpa using hf) ?_
        intro pre r post hl
        have := hno (q :: pre) r post (by simp [hl])
        simp only [span] at this
        omega

/-! ## `deallocate`, construction, and the invariant of reachable states -/

theorem LastFree.post_ne_nil {pre : List Region} {r : Region} {post : List Region}
    (h : LastFree (pre ++ r :: post)) (hr : r.used = true) : post ≠ [] := by
  intro hp
  subst hp
  obtain ⟨l0, q, hl, hq⟩ := h
  have := List.append_inj_right' hl rfl
  simp only [List.cons.injEq, and_true] at this
  subst this
  rw [hr] at hq
  exact Bool.noConfusion hq

theorem span_pos_of_ne_nil {H : Nat} (hH : 0 < H) {l : List Region} (h : l ≠ []) :
    0 < span H l := by
  cases l with
  | nil => exact absurd rfl h
  | cons q l => simp only [span]; omega

theorem deallocate_live {H : Nat} {s : cMemoryManager} {pre : List Region} {r : Region}
    {post : List Region} (hinv : Inv H s (pre ++ r :: post)) (hr : r.used = true) :
    isAddressInMemoryRange H s (s.m_memory + span H pre + H) = true ∧
    findChunkForUserMemory H s (s.m_memory + span H pre + H) = some (s.m_memory + span H pre) ∧
    deallocate H s (s.m_memory + span H pre + H)
      = some (deallocateChunk H s (s.m_memory + span H pre)) := by
  have hH := hinv.hH
  have hbase := hinv.hbase
  have hspan := hinv.span_eq
  have hsp : span H (pre ++ r :: post) = span H pre + (H + r.bytes + span H post) := by
    simp [span_append, span]
  have hpost := span_pos_of_ne_nil hH (hinv.lastFree.post_ne_nil hr)
  have hrange : isAddressInMemoryRange H s (s.m_memory + span H pre + H) = true := by
    rw [isAddressInMemoryRange_iff H s _ hbase]; omega
  have hlen : pre.length < s.m_totalBytesCount + 1 := by
    have := length_le_span hH pre
    omega
  have hfind : findChunkForUserMemory H s (s.m_memory + span H pre + H)
      = some (s.m_memory + span H pre) := by
    unfold findChunkForUserMemory
    rw [loop_found H s _ hH pre r post 0 s.m_memory _ 0 hinv.seg hbase hlen rfl, hr]
    rfl
  refine ⟨hrange, hfind, ?_⟩
  unfold deallocate
  simp only [hrange, if_true, hfind]
  rw [if_pos (by omega)]

theorem deallocate_noop {H : Nat} {s : cMemoryManager} {l : List Region} (hinv : Inv H s l)
    (p : Nat)
    (h : ∀ pre r post, l = pre ++ r :: post → r.used = true → p ≠ s.m_memory + span H pre + H) :
    deallocate H s p = some s := by
  have hH := hinv.hH
  have hbase := hinv.hbase
  unfold deallocate
  cases hrange : isAddressInMemoryRange H s p
  · simp [hrange]
  · simp only [hrange, if_true]
    have hfind : findChunkForUserMemory H s p = some 0 := by
      unfold findChunkForUserMemory
      by_cases hex : ∃ pre r post, l = pre ++ r :: post ∧ p = s.m_memory + span H pre + H
      · obtain ⟨pre, r, post, hl, hp⟩ := hex
        subst hl
        have hlen : pre.length < s.m_totalBytesCount + 1 := by
          have := length_le_span hH pre
          have := hinv.span_eq
          have hsp : span H (pre ++ r :: post) = span H pre + (H + r.bytes + span H post) := by
            simp [span_append, span]
          omega
        rw [loop_found H s _ hH pre r post 0 s.m_memory _ 0 hinv.seg hbase hlen hp]
        have hru : r.used = false := by
          cases hu : r.used
          · rfl
          · exact absurd hp (h pre r post rfl hu)
        rw [hru]; rfl
      · have hl : linkTo l s.m_memory 0 = s.m_memory := by
          have := hinv.lastFree.ne_nil
          cases l with
          | nil => exact absurd rfl this
          | cons _ _ => rfl
        have hlen : l.length < s.m_totalBytesCount + 1 := by
          have := length_le_span hH l
          have := hinv.span_eq
          omega
        have := loop_notfound H s p l 0 s.m_memory _ hinv.seg hbase hlen
          (fun pre r post hl hp => hex ⟨pre, r, post, hl, hp⟩)
        rw [hl] at this
        exact this
    rw [hfind]
    simp

theorem Inv_construct (H base : Nat) (heap0 : Nat → cMemoryChunk) (raw0 : Nat → Option Nat)
    (bytes trashing : Nat) (hH : 0 < H) (hbase : 0 < base) (hbytes : H < bytes)
    (hu : bytes < U32) :
    Inv H (cMemoryManager.cMemoryManager H base heap0 raw0 bytes trashing)
      [{ bytes := bytes - H, used := false }] := by
  have e : sub32 bytes H = bytes - H := sub32_eq (by omega) hu
  have hproj : (cMemoryManager.cMemoryManager H base heap0 raw0 bytes trashing).m_memory = base
      ∧ (cMemoryManager.cMemoryManager H base heap0 raw0 bytes trashing).m_totalBytesCount = bytes
      ∧ (cMemoryManager.cMemoryManager H base heap0 raw0 bytes trashing).m_freeBytesCount
          = bytes - H
      ∧ (cMemoryManager.cMemoryManager H base heap0 raw0 bytes trashing).chunkAt base
          = { m_isInUse := false, m_bytes := bytes - H, m_previous := 0, m_next := 0 } := by
    unfold cMemoryManager.cMemoryManager
    simp only [(ite_proj _ _ _).1, (ite_proj _ _ _).2.1, (ite_proj _ _ _).2.2.1,
      (ite_proj _ _ _).2.2.2.2, store_chunkAt, store_free, store_total, store_memory,
      memset_chunkAt, memset_free, memset_total, memset_memory, ite_self, if_true, e,
      cMemoryChunk.cMemoryChunk]
    exact ⟨trivial, trivial, trivial, trivial⟩
  obtain ⟨h1, h2, h3, h4⟩ := hproj
  refine ⟨hH, by rw [h1]; exact hbase, by rw [h2]; exact hu, ?_, ?_, ?_, ?_, ?_⟩
  · rw [h1]; exact ⟨h4, trivial⟩
  · rw [h2]; simp only [span]; omega
  · rw [h3]; simp [freeSum]
  · exact ⟨[], _, rfl, rfl⟩
  · exact List.chain'_singleton _

theorem Inv_userWrite {H : Nat} {s : cMemoryManager} {l : List Region} (hinv : Inv H s l)
    (a v : Nat) : Inv H (userWrite s a v) l :=
  ⟨hinv.hH, hinv.hbase, hinv.htot, hinv.seg, hinv.span_eq, hinv.free_eq, hinv.lastFree,
    hinv.noAdj⟩

/-- Every reachable state satisfies the representation invariant. -/
theorem Reachable.inv {H : Nat} {s : cMemoryManager} (h : Reachable H s) :
    ∃ l, Inv H s l := by
  induction h with
  | construct base heap0 raw0 bytes trashing hH hbase hbytes hu =>
    exact ⟨_, Inv_construct H base heap0 raw0 bytes trashing hH hbase hbytes hu⟩
  | allocate s n p s2 hs hn h ih =>
    obtain ⟨l, hinv⟩ := ih
    rcases first_fit_cases (add32 n H) l with hno | ⟨pre, r, post, hl, hpre, hr⟩
    · rw [allocate_fail hinv n hno] at h
      simp only [Option.some.injEq, Prod.mk.injEq] at h
      rw [← h.2]
      exact ⟨l, hinv⟩
    · subst hl
      obtain ⟨s3, h3, hinv3, _⟩ := allocate_success hinv hn hpre hr
      rw [h3] at h
      simp only [Option.some.injEq, Prod.mk.injEq] at h
      rw [← h.2]
      exact ⟨_, hinv3⟩
  | deallocate s p s2 hs h ih =>
    obtain ⟨l, hinv⟩ := ih
    by_cases hex : ∃ pre r post, l = pre ++ r :: post ∧ r.used = true
        ∧ p = s.m_memory + span H pre + H
    · obtain ⟨pre, r, post, hl, hr, hp⟩ := hex
      subst hl hp
      rw [(deallocate_live hinv hr).2.2] at h
      simp only [Option.some.injEq] at h
      rw [← h]
      exact ⟨_, (deallocateChunk_spec hinv hr).1⟩
    · rw [deallocate_noop hinv p (fun pre r post hl hr hp => hex ⟨pre, r, post, hl, hr, hp⟩)] at h
      simp only [Option.some.injEq] at h
      rw [← h]
      exact ⟨l, hinv⟩
  | write s a v hs ha ih =>
    obtain ⟨l, hinv⟩ := ih
    exact ⟨l, Inv_userWrite hinv a v⟩

/-! ## The header chain of a state that satisfies the invariant -/

theorem chainFrom_seg (H : Nat) (s : cMemoryManager) (l : List Region) :
    ∀ (prev pos fuel : Nat), Seg H s.chunkAt prev pos l 0 → 0 < pos → l.length < fuel →
      (chainFrom s fuel (linkTo l pos 0)).map (fun a => (a, s.chunkAt a)) = recs H prev pos l 0 := by
  induction l with
  | nil =>
    intro prev pos fuel _ _ hf
    cases fuel with
    | zero => simp at hf
    | succ f => simp [linkTo, chainFrom, recs]
  | cons r l ih =>
    intro prev pos fuel hseg hpos hf
    cases fuel with
    | zero => simp at hf
    | succ f =>
      obtain ⟨h1, h2⟩ := hseg
      have hpos2 : pos ≠ 0 := by omega
      simp only [linkTo, chainFrom, if_neg hpos2, List.map_cons, recs]
      rw [h1]
      congr 1
      exact ih pos (pos + H + r.bytes) f h2 (by omega) (by simpa using hf)

theorem headers_eq {H : Nat} {s : cMemoryManager} {l : List Region} (hinv : Inv H s l) :
    headers s = recs H 0 s.m_memory l 0 := by
  have hl : linkTo l s.m_memory 0 = s.m_memory := by
    have := hinv.lastFree.ne_nil
    cases l with
    | nil => exact absurd rfl this
    | cons _ _ => rfl
  have hlen : l.length < s.m_totalBytesCount + 1 := by
    have := length_le_span hinv.hH l
    have := hinv.span_eq
    omega
  have := chainFrom_seg H s l 0 s.m_memory _ hinv.seg hinv.hbase hlen
  rw [hl] at this
  exact this

theorem headers_snd (s : cMemoryManager) (x : Nat × cMemoryChunk) (hx : x ∈ headers s) :
    x.1 ∈ chain s ∧ x.2 = s.chunkAt x.1 := by
  simp only [headers, List.mem_map] at hx
  obtain ⟨a, ha, rfl⟩ := hx
  exact ⟨ha, rfl⟩

theorem mem_headers_of_mem_chain (s : cMemoryManager) (a : Nat) (ha : a ∈ chain s) :
    (a, s.chunkAt a) ∈ headers s := by
  simp only [headers, List.mem_map]
  exact ⟨a, ha, rfl⟩

theorem recs_append (H : Nat) (l1 l2 : List Region) (prev pos nxt : Nat) :
    recs H prev pos (l1 ++ l2) nxt =
      recs H prev pos l1 (linkTo l2 (pos + span H l1) nxt) ++
      recs H (lastPos H prev pos l1) (pos + span H l1) l2 nxt := by
  induction l1 generalizing prev pos with
  | nil => simp [recs, span, lastPos]
  | cons r l ih =>
    rw [List.cons_append]
    simp only [recs, span, lastPos, List.cons_append]
    rw [ih]
    have e : pos + H + r.bytes + span H l = pos + (H + r.bytes + span H l) := by omega
    rw [e]
    congr 2
    cases l with
    | nil => cases l2 <;> simp [linkTo, span, Nat.add_assoc]
    | cons q l => simp [linkTo]

theorem recs_bounds (H : Nat) (l : List Region) :
    ∀ (prev pos nxt : Nat) (x : Nat × cMemoryChunk), x ∈ recs H prev pos l nxt →
      pos ≤ x.1 ∧ x.1 + H + x.2.m_bytes ≤ pos + span H l := by
  induction l with
  | nil => intro prev pos nxt x hx; simp [recs] at hx
  | cons r l ih =>
    intro prev pos nxt x hx
    simp only [recs, List.mem_cons] at hx
    simp only [span]
    rcases hx with rfl | hx
    · simp; omega
    · have := ih _ _ _ x hx
      omega

theorem recs_sum (H : Nat) (l : List Region) (prev pos nxt : Nat) :
    ((recs H prev pos l nxt).map (fun x => H + x.2.m_bytes)).sum = span H l := by
  induction l generalizing prev pos with
  | nil => simp [recs, span]
  | cons r l ih => simp [recs, span, ih]

theorem recs_freeSum (H : Nat) (l : List Region) (prev pos nxt : Nat) :
    (((recs H prev pos l nxt).filter (fun x => !x.2.m_isInUse)).map
      (fun x => x.2.m_bytes)).sum = freeSum l := by
  induction l generalizing prev pos with
  | nil => simp [recs, freeSum]
  | cons r l ih =>
    simp only [recs, freeSum, List.filter_cons]
    cases hr : r.used <;> simp [hr, ih]

theorem recs_head (H : Nat) (l : List Region) (prev pos nxt : Nat)
    (x : Nat × cMemoryChunk) (hx : (recs H prev pos l nxt).head? = some x) :
    x.1 = pos ∧ x.2.m_previous = prev := by
  cases l with
  | nil => simp [recs] at hx
  | cons r l =>
    simp only [recs, List.head?_cons, Option.some.injEq] at hx
    subst hx
    exact ⟨rfl, rfl⟩

theorem recs_head_some (H : Nat) (l : List Region) (prev pos nxt : Nat) (hl : l ≠ []) :
    ((recs H prev pos l nxt).head?).map Prod.fst = some pos := by
  cases l with
  | nil => exact absurd rfl hl
  | cons r l => simp [recs]

theorem recs_last (H : Nat) (l : List Region) :
    ∀ (prev pos nxt : Nat) (x : Nat × cMemoryChunk),
      (recs H prev pos l nxt).getLast? = some x → x.2.m_next = nxt := by
  induction l with
  | nil => intro prev pos nxt x hx; simp [recs] at hx
  | cons r l ih =>
    intro prev pos nxt x hx
    cases l with
    | nil =>
      simp only [recs, List.getLast?_singleton, Option.some.injEq] at hx
      subst hx
      rfl
    | cons q l =>
      have : (recs H prev pos (r :: q :: l) nxt).getLast?
          = (recs H pos (pos + H + r.bytes) (q :: l) nxt).getLast? := by
        simp only [recs]
        rw [List.getLast?_cons_cons]
      rw [this] at hx
      exact ih _ _ _ x hx

theorem recs_linked (H : Nat) (l : List Region) :
    ∀ (prev pos nxt : Nat), List.Chain' (Linked H) (recs H prev pos l nxt) := by
  induction l with
  | nil => intro prev pos nxt; simp [recs]
  | cons r l ih =>
    intro prev pos nxt
    cases l with
    | nil => simp [recs]
    | cons q l =>
      have h := ih pos (pos + H + r.bytes) nxt
      simp only [recs] at h ⊢
      rw [List.chain'_cons]
      exact ⟨⟨rfl, rfl, rfl⟩, h⟩

theorem recs_noAdj (H : Nat) (l : List Region) (hl : NoAdjFree l) :
    ∀ (prev pos nxt : Nat),
      List.Chain' (fun x y : Nat × cMemoryChunk =>
        ¬ (x.2.m_isInUse = false ∧ y.2.m_isInUse = false)) (recs H prev pos l nxt) := by
  induction l with
  | nil => intro prev pos nxt; simp [recs]
  | cons r l ih =>
    intro prev pos nxt
    cases l with
    | nil => simp [recs]
    | cons q l =>
      unfold NoAdjFree at hl
      rw [List.chain'_cons] at hl
      have h := ih hl.2 pos (pos + H + r.bytes) nxt
      simp only [recs] at h ⊢
      rw [List.chain'_cons]
      exact ⟨hl.1, h⟩

theorem recs_pairwise (H : Nat) (l : List Region) :
    ∀ (prev pos nxt : Nat),
      List.Pairwise (fun x y : Nat × cMemoryChunk => x.1 + H + x.2.m_bytes ≤ y.1)
        (recs H prev pos l nxt) := by
  induction l with
  | nil => intro prev pos nxt; simp [recs]
  | cons r l ih =>
    intro prev pos nxt
    simp only [recs, List.pairwise_cons]
    refine ⟨?_, ih _ _ _⟩
    intro y hy
    exact (recs_bounds H l _ _ _ y hy).1

/-! ## The claims -/

theorem demo0_reachable : Reachable 24 demo0 :=
  Reachable.construct 4096 demoHeap demoRaw 64 eTrashing.ON_ALL (by decide) (by decide)
    (by decide) (by decide)

theorem demo1_allocate : allocate 24 demo0 8 = some (4120, demo1) := by rfl

theorem demo1_reachable : Reachable 24 demo1 :=
  Reachable.allocate demo0 8 4120 demo1 demo0_reachable (by decide) demo1_allocate

theorem freeSum_add_headers_le (H : Nat) (l : List Region) :
    freeSum l + H * l.length ≤ span H l := by
  induction l with
  | nil => simp [freeSum, span]
  | cons r l ih =>
    simp only [freeSum, span, List.length_cons, Nat.mul_add, Nat.mul_one]
    split <;> omega

theorem Inv.coverage {H : Nat} {s : cMemoryManager} {l : List Region} (hinv : Inv H s l) :
    Coverage H s := by
  unfold Coverage
  rw [headers_eq hinv]
  refine ⟨recs_head_some H l _ _ _ hinv.lastFree.ne_nil, recs_linked H l _ _ _, ?_, ?_, ?_⟩
  · intro x hx; exact (recs_head H l _ _ _ x hx).2
  · intro x hx; exact recs_last H l _ _ _ x hx
  · rw [recs_sum]; exact hinv.span_eq

theorem Inv.noAdjacentFree {H : Nat} {s : cMemoryManager} {l : List Region}
    (hinv : Inv H s l) : NoAdjacentFree s := by
  intro x hx hc
  obtain ⟨hxf, hxn, hnf⟩ := hc
  have hx2 := hx
  rw [headers_eq hinv] at hx2
  have hch := chain'_and (recs_linked H l 0 s.m_memory 0) (recs_noAdj H l hinv.noAdj 0 s.m_memory 0)
  rcases chain'_succ hch x hx2 with hlast | ⟨y, hy, hlink, hno⟩
  · exact hxn (recs_last H l _ _ _ x hlast)
  · rw [← headers_eq hinv] at hy
    have hy2 := (headers_snd s y hy).2
    apply hno
    refine ⟨hxf, ?_⟩
    rw [hy2, ← hlink.2.1]
    exact hnf

theorem allocate_returns {H : Nat} {s : cMemoryManager} (hr : Reachable H s) (n : Nat)
    (hn : n + H < U32) : ∃ p s2, allocate H s n = some (p, s2) := by
  obtain ⟨l, hinv⟩ := hr.inv
  rcases first_fit_cases (add32 n H) l with hno | ⟨pre, r, post, hl, hpre, hfit⟩
  · exact ⟨0, s, allocate_fail hinv n hno⟩
  · subst hl
    obtain ⟨s3, h3, _⟩ := allocate_success hinv hn hpre hfit
    exact ⟨_, s3, h3⟩

theorem deallocate_returns {H : Nat} {s : cMemoryManager} (hr : Reachable H s) (p : Nat) :
    ∃ s2, deallocate H s p = some s2 := by
  obtain ⟨l, hinv⟩ := hr.inv
  by_cases hex : ∃ pre r post, l = pre ++ r :: post ∧ r.used = true
      ∧ p = s.m_memory + span H pre + H
  · obtain ⟨pre, r, post, hl, hru, hp⟩ := hex
    subst hl hp
    exact ⟨_, (deallocate_live hinv hru).2.2⟩
  · exact ⟨s, deallocate_noop hinv p (fun pre r post hl hru hp => hex ⟨pre, r, post, hl, hru, hp⟩)⟩

/-- C2 (coverage invariant).  In every state reached from a manager constructed
with `total_bytes > H` by `allocate` (requests with `n + H < 2 ^ 32`) and
`deallocate` calls, the header chain starts at the base of the buffer, each
header's `m_next` is the address `header + H + m_bytes` of the next header,
whose `m_previous` points back, the first `m_previous` and the last `m_next`
are null, and the sum of `H + m_bytes` over the chain is `m_totalBytesCount`. -/
theorem coverage_invariant (H : Nat) (s : cMemoryManager) (hr : Reachable H s) :
    Coverage H s := by
  obtain ⟨l, hinv⟩ := hr.inv
  exact hinv.coverage

theorem coverage_invariant_witness : Reachable 24 demo1 ∧ Coverage 24 demo1 :=
  ⟨demo1_reachable, coverage_invariant 24 demo1 demo1_reachable⟩

theorem Inv.free_le {H : Nat} {s : cMemoryManager} {l : List Region} (hinv : Inv H s l) :
    s.m_freeBytesCount + H ≤ s.m_totalBytesCount := by
  have h1 := freeSum_add_headers_le H l
  have h2 : 1 ≤ l.length := by
    have := hinv.lastFree.ne_nil
    cases l with
    | nil => exact absurd rfl this
    | cons _ _ => simp
  have h3 : H * 1 ≤ H * l.length := Nat.mul_le_mul_left H h2
  rw [hinv.free_eq, ← hinv.span_eq]
  omega

theorem Inv.free_chain {H : Nat} {s : cMemoryManager} {l : List Region} (hinv : Inv H s l) :
    s.m_freeBytesCount = freeBytesOfChain s := by
  unfold freeBytesOfChain
  rw [headers_eq hinv, recs_freeSum, hinv.free_eq]

theorem absorbedCountBefore_le (pre : List Region) : absorbedCountBefore pre ≤ 1 := by
  unfold absorbedCountBefore
  split
  · split <;> omega
  · omega

theorem absorbedCountAfter_le (post : List Region) : absorbedCountAfter post ≤ 1 := by
  unfold absorbedCountAfter
  split
  · split <;> omega
  · omega

theorem absorbedHeaders_le (pre post : List Region) : absorbedHeaders pre post ≤ 2 := by
  have h1 := absorbedCountBefore_le pre
  have h2 := absorbedCountAfter_le post
  unfold absorbedHeaders
  omega

theorem Inv.chunkAt_mid {H : Nat} {s : cMemoryManager} {pre : List Region} {r : Region}
    {post : List Region} (hinv : Inv H s (pre ++ r :: post)) :
    s.chunkAt (s.m_memory + span H pre) =
      { m_isInUse := r.used, m_bytes := r.bytes, m_previous := lastPos H 0 s.m_memory pre,
        m_next := linkTo post (s.m_memory + span H pre + H + r.bytes) 0 } := by
  have hseg := hinv.seg
  rw [Seg_append] at hseg
  exact hseg.2.1

/-- C3 (accounting invariant).  In every reachable state `m_freeBytesCount` is
the sum of `m_bytes` over the free headers of the chain; the value fits in 32
bits together with the arena size, the subtraction made by a successful
`allocate` does not borrow and the additions made by `deallocate` do not
carry. -/
theorem accounting_invariant (H : Nat) (s : cMemoryManager) (hr : Reachable H s) :
    Accounting H s := by
  obtain ⟨l, hinv⟩ := hr.inv
  refine ⟨hinv.free_chain, hinv.free_le, hinv.htot, ?_, ?_⟩
  · intro n p s2 hn h hp
    rcases first_fit_cases (add32 n H) l with hno | ⟨pre, r, post, hl, hpre, hfit⟩
    · rw [allocate_fail hinv n hno] at h
      simp only [Option.some.injEq, Prod.mk.injEq] at h
      exact absurd h.1.symm hp
    · subst hl
      obtain ⟨s3, h3, _, hfree, _⟩ := allocate_success hinv hn hpre hfit
      rw [h3] at h
      simp only [Option.some.injEq, Prod.mk.injEq] at h
      rw [← h.2]
      omega
  · intro p s2 h
    by_cases hex : ∃ pre r post, l = pre ++ r :: post ∧ r.used = true
        ∧ p = s.m_memory + span H pre + H
    · obtain ⟨pre, r, post, hl, hru, hp⟩ := hex
      subst hl hp
      rw [(deallocate_live hinv hru).2.2] at h
      simp only [Option.some.injEq] at h
      obtain ⟨hinv2, hfree, _⟩ := deallocateChunk_spec hinv hru
      right
      have hb : (s.chunkAt (s.m_memory + span H pre + H - H)).m_bytes = r.bytes := by
        rw [Nat.add_sub_cancel, hinv.chunkAt_mid]
      refine ⟨absorbedHeaders pre post, absorbedHeaders_le pre post, ?_, ?_⟩
      · rw [← h, hfree, hb]
      · rw [hb, ← hfree]
        have := hinv2.free_le
        have := hinv2.htot
        omega
    · left
      rw [deallocate_noop hinv p (fun pre r post hl hru hp => hex ⟨pre, r, post, hl, hru, hp⟩)] at h
      simp only [Option.some.injEq] at h
      exact h.symm

theorem accounting_invariant_witness : Reachable 24 demo1 ∧ Accounting 24 demo1 :=
  ⟨demo1_reachable, accounting_invariant 24 demo1 demo1_reachable⟩

/-- C4 (no adjacent free regions).  For every reachable state and every pointer,
`deallocate` returns, and in the state it leaves no header of the chain is free
together with the header its `m_next` points to. -/
theorem no_adjacent_free_after_deallocate (H : Nat) (s : cMemoryManager) (p : Nat)
    (hr : Reachable H s) :
    ∃ s2, deallocate H s p = some s2 ∧ NoAdjacentFree s2 := by
  obtain ⟨s2, h2⟩ := deallocate_returns hr p
  obtain ⟨l2, hinv2⟩ := (Reachable.deallocate s p s2 hr h2).inv
  exact ⟨s2, h2, hinv2.noAdjacentFree⟩

theorem no_adjacent_free_after_deallocate_witness :
    Reachable 24 demo1 ∧ ∃ s2, deallocate 24 demo1 4120 = some s2 ∧ NoAdjacentFree s2 :=
  ⟨demo1_reachable, no_adjacent_free_after_deallocate 24 demo1 4120 demo1_reachable⟩


theorem recs_mem_split (H : Nat) (l : List Region) :
    ∀ (prev pos nxt : Nat) (x : Nat × cMemoryChunk), x ∈ recs H prev pos l nxt →
      ∃ pre r post, l = pre ++ r :: post ∧ x.1 = pos + span H pre ∧
        x.2.m_isInUse = r.used ∧ x.2.m_bytes = r.bytes := by
  induction l with
  | nil => intro prev pos nxt x hx; simp [recs] at hx
  | cons q l ih =>
    intro prev pos nxt x hx
    simp only [recs, List.mem_cons] at hx
    rcases hx with rfl | hx
    · exact ⟨[], q, l, rfl, by simp [span], rfl, rfl⟩
    · obtain ⟨pre, r, post, hl, h1, h2, h3⟩ := ih _ _ _ x hx
      refine ⟨q :: pre, r, post, by simp [hl], ?_, h2, h3⟩
      simp only [span]; omega

theorem Inv.mem_headers_mid {H : Nat} {s : cMemoryManager} {pre : List Region} {r : Region}
    {post : List Region} (hinv : Inv H s (pre ++ r :: post)) :
    (s.m_memory + span H pre, s.chunkAt (s.m_memory + span H pre)) ∈ headers s := by
  rw [headers_eq hinv, recs_append, hinv.chunkAt_mid]
  simp [recs]

theorem Inv.mem_chain_mid {H : Nat} {s : cMemoryManager} {pre : List Region} {r : Region}
    {post : List Region} (hinv : Inv H s (pre ++ r :: post)) :
    s.m_memory + span H pre ∈ chain s :=
  (headers_snd s _ hinv.mem_headers_mid).1

theorem Inv.chain_split {H : Nat} {s : cMemoryManager} {l : List Region} (hinv : Inv H s l)
    (a : Nat) (ha : a ∈ chain s) :
    ∃ pre r post, l = pre ++ r :: post ∧ a = s.m_memory + span H pre ∧
      (s.chunkAt a).m_isInUse = r.used ∧ (s.chunkAt a).m_bytes = r.bytes := by
  have h := mem_headers_of_mem_chain s a ha
  rw [headers_eq hinv] at h
  exact recs_mem_split H l _ _ _ _ h

theorem Inv.headers_disjoint {H : Nat} {s : cMemoryManager} {l : List Region}
    (hinv : Inv H s l) (x y : Nat) (hx : x ∈ chain s) (hy : y ∈ chain s) :
    x = y ∨ x + H + (s.chunkAt x).m_bytes ≤ y ∨ y + H + (s.chunkAt y).m_bytes ≤ x := by
  have h1 := mem_headers_of_mem_chain s x hx
  have h2 := mem_headers_of_mem_chain s y hy
  have hp := recs_pairwise H l 0 s.m_memory 0
  rw [← headers_eq hinv] at hp
  rcases pairwise_mem _ hp _ h1 _ h2 with h | h | h
  · left; exact congrArg Prod.fst h
  · right; left; exact h
  · right; right; exact h

theorem Inv.headers_bounds {H : Nat} {s : cMemoryManager} {l : List Region}
    (hinv : Inv H s l) (x : Nat) (hx : x ∈ chain s) :
    s.m_memory ≤ x ∧ x + H + (s.chunkAt x).m_bytes ≤ s.m_memory + s.m_totalBytesCount := by
  have h1 := mem_headers_of_mem_chain s x hx
  rw [headers_eq hinv] at h1
  have := recs_bounds H l _ _ _ _ h1
  rw [hinv.span_eq] at this
  exact this

/-- In a reachable state the payload of a header of the chain shares no byte
with a header of the chain. -/
theorem payload_meets_no_header (H : Nat) (s : cMemoryManager) (hr : Reachable H s)
    (a x b : Nat) (ha : a ∈ chain s) (hx : x ∈ chain s) (hb1 : a + H ≤ b)
    (hb2 : b < a + H + (s.chunkAt a).m_bytes) : ¬ (x ≤ b ∧ b < x + H) := by
  obtain ⟨l, hinv⟩ := hr.inv
  have hd := hinv.headers_disjoint a x ha hx
  omega

/-- What a successful `allocate` gives, in terms of the list of regions. -/
theorem allocate_inv {H : Nat} {s : cMemoryManager} {l : List Region} (hinv : Inv H s l)
    {n p : Nat} {s2 : cMemoryManager} (hn : n + H < U32) (h : allocate H s n = some (p, s2))
    (hp : p ≠ 0) :
    ∃ pre r post, l = pre ++ r :: post ∧ (∀ q ∈ pre, ¬ Fits (n + H) q) ∧ Fits (n + H) r ∧
      p = s.m_memory + span H pre + H ∧ Inv H s2 (splitRegions H n pre r post) ∧
      s2.m_freeBytesCount + (n + H) = s.m_freeBytesCount ∧
      s2.m_totalBytesCount = s.m_totalBytesCount ∧
      s2.m_memory = s.m_memory ∧ s2.m_trashing = s.m_trashing := by
  rcases first_fit_cases (add32 n H) l with hno | ⟨pre, r, post, hl, hpre, hfit⟩
  · rw [allocate_fail hinv n hno] at h
    simp only [Option.some.injEq, Prod.mk.injEq] at h
    exact absurd h.1.symm hp
  · subst hl
    obtain ⟨s3, h3, hinv3, hfree, htotal, hmem, htr⟩ := allocate_success hinv hn hpre hfit
    rw [h3] at h
    simp only [Option.some.injEq, Prod.mk.injEq] at h
    obtain ⟨h1, h2⟩ := h
    subst h1 h2
    rw [add32_eq hn] at hpre hfit
    exact ⟨pre, r, post, rfl, hpre, hfit, rfl, hinv3, hfree, htotal, hmem, htr⟩

/-- C5 (the returned region is usable).  When `allocate(n)` returns a non-null
`p` in a reachable state (`n + H < 2 ^ 32`), `p - H` is the header the search
selected, that header is now in the chain, in use and of size `n`, and
`[p, p + n)` lies in `[m_memory + H, m_memory + m_totalBytesCount)`, meets no
header of the resulting chain and no payload of another header in use. -/
theorem allocate_region_usable (H : Nat) (s : cMemoryManager) (n p : Nat) (s2 : cMemoryManager)
    (hr : Reachable H s) (hn : n + H < U32) (h : allocate H s n = some (p, s2)) (hp : p ≠ 0) :
    allocate.findChunk H s n (s.m_totalBytesCount + 1) s.m_memory = some (p - H) ∧
    UsableRegion H s2 n p := by
  obtain ⟨l, hinv⟩ := hr.inv
  obtain ⟨pre, r, post, hl, hpre, hfit, hpeq, hinv2, hfree, htotal, hmem, htr⟩ :=
    allocate_inv hinv hn h hp
  subst hl
  have hH := hinv.hH
  have hlen : pre.length < s.m_totalBytesCount + 1 := by
    have := length_le_span hH pre
    have := hinv.span_eq
    have hsp : span H (pre ++ r :: post) = span H pre + (H + r.bytes + span H post) := by
      simp [span_append, span]
    omega
  have hfind := findChunk_first H s n pre r post 0 s.m_memory _ 0 hinv.seg hinv.hbase hlen
    (by rw [add32_eq hn]; exact hpre) (by rw [add32_eq hn]; exact hfit)
  have hsub : p - H = s.m_memory + span H pre := by omega
  unfold splitRegions at hinv2
  have hmid := hinv2.chunkAt_mid
  have hmem2 := hinv2.mem_chain_mid
  rw [hmem] at hmid hmem2
  have hb := hinv2.headers_bounds _ hmem2
  rw [hmid] at hb
  simp only at hb
  refine ⟨by rw [hfind, hsub], by omega, by rw [hsub]; exact hmem2, by rw [hsub, hmid],
    by rw [hsub, hmid], by omega, by omega, ?_, ?_⟩
  · intro x hx b hb1 hb2 hc
    have hd := hinv2.headers_disjoint _ x hmem2 hx
    rw [hmid] at hd
    simp only at hd
    omega
  · intro y hy hne hyu b hb1 hb2 hc
    have hd := hinv2.headers_disjoint _ y hmem2 hy
    rw [hmid] at hd
    simp only at hd
    omega

theorem allocate_region_usable_witness :
    Reachable 24 demo0 ∧ 8 + 24 < U32 ∧ allocate 24 demo0 8 = some (4120, demo1) ∧ 4120 ≠ 0 ∧
    allocate.findChunk 24 demo0 8 (demo0.m_totalBytesCount + 1) demo0.m_memory
      = some (4120 - 24) ∧
    UsableRegion 24 demo1 8 4120 :=
  ⟨demo0_reachable, by decide, demo1_allocate, by decide,
    allocate_region_usable 24 demo0 8 4120 demo1 demo0_reachable (by decide) demo1_allocate
      (by decide)⟩

theorem demo2_deallocate : deallocate 24 demo1 4120 = some demo2 := by rfl

theorem span_prefix_lt {H : Nat} (hH : 0 < H) (pre : List Region) (r : Region)
    (t : List Region) : span H pre < span H (pre ++ r :: t) := by
  simp only [span_append, span]; omega

/-- C10 (first fit).  In a reachable state, when some free header of the chain
has `m_bytes >= n + H` (`n + H < 2 ^ 32`), `allocate(n)` returns `h + H` for the
lowest-addressed header `h` that is free with `m_bytes >= n + H`: every header
at a lower address is in use or smaller than `n + H`. -/
theorem allocate_first_fit (H : Nat) (s : cMemoryManager) (n : Nat) (hr : Reachable H s)
    (hn : n + H < U32)
    (hex : ∃ x ∈ chain s, (s.chunkAt x).m_isInUse = false ∧ (s.chunkAt x).m_bytes ≥ n + H) :
    ∃ h s2, allocate H s n = some (h + H, s2) ∧ FirstFit s (n + H) h := by
  obtain ⟨l, hinv⟩ := hr.inv
  have hH := hinv.hH
  rcases first_fit_cases (add32 n H) l with hno | ⟨pre, r, post, hl, hpre, hfit⟩
  · exfalso
    obtain ⟨x, hx, hxf, hxb⟩ := hex
    obtain ⟨pre, r, post, hl, _, h1, h2⟩ := hinv.chain_split x hx
    apply hno r (by rw [hl]; simp)
    rw [add32_eq hn]
    exact ⟨by rw [← h1]; exact hxf, by rw [← h2]; exact hxb⟩
  · subst hl
    obtain ⟨s3, h3, _⟩ := allocate_success hinv hn hpre hfit
    rw [add32_eq hn] at hpre hfit
    refine ⟨s.m_memory + span H pre, s3, h3, hinv.mem_chain_mid, ?_, ?_, ?_⟩
    · rw [hinv.chunkAt_mid]; exact hfit.1
    · rw [hinv.chunkAt_mid]; exact hfit.2
    · intro y hy hlt
      obtain ⟨pre2, r2, post2, hl2, hy2, h1, h2⟩ := hinv.chain_split y hy
      rcases append_cons_cases _ _ _ _ _ _ hl2 with ⟨t, ht, _⟩ | ⟨ht, _, _⟩ | ⟨t, ht, _⟩
      · have hq := hpre r2 (by rw [ht]; simp)
        unfold Fits at hq
        rw [h1, h2]
        cases hu : r2.used
        · right
          have : ¬ r2.bytes ≥ n + H := fun hb => hq ⟨hu, hb⟩
          omega
        · left; rfl
      · rw [ht] at hlt; omega
      · have := span_prefix_lt hH pre r t
        rw [← ht] at this
        omega

theorem allocate_first_fit_witness :
    Reachable 24 demo0 ∧ 8 + 24 < U32 ∧
    (∃ x ∈ chain demo0, (demo0.chunkAt x).m_isInUse = false ∧ (demo0.chunkAt x).m_bytes ≥ 8 + 24)
    ∧ ∃ h s2, allocate 24 demo0 8 = some (h + 24, s2) ∧ FirstFit demo0 (8 + 24) h :=
  ⟨demo0_reachable, by decide, ⟨4096, by decide, by decide, by decide⟩,
    allocate_first_fit 24 demo0 8 demo0_reachable (by decide)
      ⟨4096, by decide, by decide, by decide⟩⟩

/-- C8 (an invalid free is a no-op).  In a reachable state, when `p` is null, or
lies outside `[m_memory + H, m_memory + m_totalBytesCount)`, or is not the
payload start `h + H` of a header `h` of the chain that is in use, `deallocate(p)`
returns the state it was called in: headers, free counter and bytes are
untouched, whatever the trashing option. -/
theorem deallocate_invalid_noop (H : Nat) (s : cMemoryManager) (p : Nat) (hr : Reachable H s)
    (hp : p = 0 ∨ p < s.m_memory + H ∨ s.m_memory + s.m_totalBytesCount ≤ p ∨
      ¬ ∃ h ∈ chain s, (s.chunkAt h).m_isInUse = true ∧ p = h + H) :
    deallocate H s p = some s := by
  obtain ⟨l, hinv⟩ := hr.inv
  apply deallocate_noop hinv
  intro pre r post hl hru hpe
  subst hl
  have hH := hinv.hH
  have hbase := hinv.hbase
  have hspan := hinv.span_eq
  have hsp : span H (pre ++ r :: post) = span H pre + (H + r.bytes + span H post) := by
    simp [span_append, span]
  have hpost := span_pos_of_ne_nil hH (hinv.lastFree.post_ne_nil hru)
  rcases hp with h | h | h | h
  · omega
  · omega
  · omega
  · apply h
    refine ⟨s.m_memory + span H pre, hinv.mem_chain_mid, ?_, hpe⟩
    rw [hinv.chunkAt_mid]; exact hru

theorem deallocate_invalid_noop_witness :
    Reachable 24 demo1 ∧
    (4152 = 0 ∨ 4152 < demo1.m_memory + 24 ∨ demo1.m_memory + demo1.m_totalBytesCount ≤ 4152 ∨
      ¬ ∃ h ∈ chain demo1, (demo1.chunkAt h).m_isInUse = true ∧ 4152 = h + 24) ∧
    deallocate 24 demo1 4152 = some demo1 :=
  ⟨demo1_reachable, Or.inr (Or.inr (Or.inr (by decide))),
    deallocate_invalid_noop 24 demo1 4152 demo1_reachable
      (Or.inr (Or.inr (Or.inr (by decide))))⟩

/-- After a chunk was freed, its payload start is no longer the payload start of
a region in use. -/
theorem merged_not_live {H : Nat} (hH : 0 < H) (pre : List Region) (r : Region)
    (post : List Region) (pre2 : List Region) (r2 : Region) (post2 : List Region)
    (h : mergeRegions H pre r post = pre2 ++ r2 :: post2) (hr2 : r2.used = true) :
    span H pre2 ≠ span H pre := by
  have hkb := span_keepBefore H pre
  unfold mergeRegions at h
  rcases append_cons_cases _ _ _ _ _ _ h with ⟨t, ht, _⟩ | ⟨_, hm, _⟩ | ⟨t, ht, _⟩
  · have := span_prefix_lt hH pre2 r2 t
    rw [← ht] at this
    omega
  · rw [← hm] at hr2
    exact Bool.noConfusion hr2
  · have e : span H (keepBefore pre ++
        { bytes := absorbedBefore H pre + r.bytes + absorbedAfter H post, used := false } :: t)
        = span H (keepBefore pre)
          + (H + (absorbedBefore H pre + r.bytes + absorbedAfter H post) + span H t) := by
      simp only [span_append, span]
    rw [ht, e]
    omega

/-- C7 (a double free is idempotent).  In a reachable state and for every
pointer `p`, `deallocate(p)` returns some state, and a second `deallocate(p)`
in that state returns it unchanged (headers, free counter and bytes): the
chunk is not freed twice, whether or not it was merged into its predecessor. -/
theorem deallocate_twice (H : Nat) (s : cMemoryManager) (p : Nat) (hr : Reachable H s) :
    ∃ s1, deallocate H s p = some s1 ∧ deallocate H s1 p = some s1 := by
  obtain ⟨l, hinv⟩ := hr.inv
  by_cases hex : ∃ pre r post, l = pre ++ r :: post ∧ r.used = true
      ∧ p = s.m_memory + span H pre + H
  · obtain ⟨pre, r, post, hl, hru, hp⟩ := hex
    subst hl hp
    refine ⟨_, (deallocate_live hinv hru).2.2, ?_⟩
    obtain ⟨hinv2, _, _, hmem, _⟩ := deallocateChunk_spec hinv hru
    apply deallocate_noop hinv2
    intro pre2 r2 post2 hl2 hr2 hp2
    rw [hmem] at hp2
    have := merged_not_live hinv.hH pre r post pre2 r2 post2 hl2 hr2
    omega
  · have h := deallocate_noop hinv p
      (fun pre r post hl hru hp => hex ⟨pre, r, post, hl, hru, hp⟩)
    exact ⟨s, h, h⟩

theorem deallocate_twice_witness :
    Reachable 24 demo1 ∧
    ∃ s1, deallocate 24 demo1 4120 = some s1 ∧ deallocate 24 s1 4120 = some s1 :=
  ⟨demo1_reachable, deallocate_twice 24 demo1 4120 demo1_reachable⟩

theorem NoAdjFree.before_free {pre : List Region} {r : Region} {post : List Region}
    (h : NoAdjFree (pre ++ r :: post)) (hr : r.used = false) (H : Nat) :
    keepBefore pre = pre ∧ absorbedBefore H pre = 0 ∧ absorbedCountBefore pre = 0 := by
  rcases List.eq_nil_or_concat pre with hp | ⟨pre0, q, hp⟩
  · subst hp; simp [absorbedCountBefore]
  · rw [List.concat_eq_append] at hp; subst hp
    unfold NoAdjFree at h
    simp only [List.append_assoc, List.singleton_append] at h
    rw [List.chain'_split, List.chain'_cons] at h
    have hq : q.used = true := by
      cases hu : q.used
      · exact absurd ⟨hu, hr⟩ h.2.1
      · rfl
    simp [hq, absorbedCountBefore]

/-- C6 (round trip).  When `allocate(n)` returns a non-null `p` in a reachable
state `s` (`n + H < 2 ^ 32`), the `deallocate(p)` that follows returns a state
with the free counter of `s` and the header chain of `s`: the same addresses
with the same `m_isInUse`, `m_bytes`, `m_previous` and `m_next`.  An exact fit,
where the split leaves a free header without payload, is included. -/
theorem allocate_deallocate_round_trip (H : Nat) (s : cMemoryManager) (n p : Nat)
    (s2 : cMemoryManager) (hr : Reachable H s) (hn : n + H < U32)
    (h : allocate H s n = some (p, s2)) (hp : p ≠ 0) :
    ∃ s3, deallocate H s2 p = some s3 ∧
      s3.m_freeBytesCount = s.m_freeBytesCount ∧ headers s3 = headers s := by
  obtain ⟨l, hinv⟩ := hr.inv
  obtain ⟨pre, r, post, hl, hpre, hfit, hpeq, hinv2, hfree, htotal, hmem, htr⟩ :=
    allocate_inv hinv hn h hp
  subst hl
  obtain ⟨hru, hrb⟩ := hfit
  unfold splitRegions at hinv2
  have hlive := (deallocate_live hinv2 rfl).2.2
  obtain ⟨hinv3, hfree3, _, hmem3, _⟩ :=
    deallocateChunk_spec (r := { bytes := n, used := true }) hinv2 rfl
  rw [hmem] at hlive hinv3 hfree3 hmem3
  obtain ⟨hk1, hk2, hk3⟩ := hinv.noAdj.before_free hru H
  have hmerge : mergeRegions H pre { bytes := n, used := true }
      ({ bytes := r.bytes - n - H, used := false } :: post) = pre ++ r :: post := by
    unfold mergeRegions
    rw [hk1, hk2]
    simp only [keepAfter, absorbedAfter, Bool.false_eq_true, if_false]
    have e : 0 + n + (r.bytes - n - H + H) = r.bytes := by omega
    rw [e]
    have hre : ({ bytes := r.bytes, used := false } : Region) = r := by
      cases r; simp only [Region.mk.injEq, true_and]; exact hru.symm
    rw [hre]
  rw [hmerge] at hinv3
  refine ⟨_, by rw [hpeq]; exact hlive, ?_, ?_⟩
  · rw [hfree3]
    simp only [absorbedHeaders, hk3, absorbedCountAfter, Bool.false_eq_true, if_false]
    omega
  · rw [headers_eq hinv3, headers_eq hinv, hmem3]

theorem allocate_deallocate_round_trip_witness :
    Reachable 24 demo0 ∧ 8 + 24 < U32 ∧ allocate 24 demo0 8 = some (4120, demo1) ∧ 4120 ≠ 0 ∧
    ∃ s3, deallocate 24 demo1 4120 = some s3 ∧
      s3.m_freeBytesCount = demo0.m_freeBytesCount ∧ headers s3 = headers demo0 :=
  ⟨demo0_reachable, by decide, demo1_allocate, by decide,
    allocate_deallocate_round_trip 24 demo0 8 4120 demo1 demo0_reachable (by decide)
      demo1_allocate (by decide)⟩


theorem split_keeps_used (H n : Nat) (pre : List Region) (r : Region) (post : List Region)
    (hr : r.used = false) (hb : n + H ≤ r.bytes)
    (pre1 : List Region) (r1 : Region) (post1 : List Region)
    (h : pre ++ r :: post = pre1 ++ r1 :: post1) (hr1 : r1.used = true) :
    ∃ pre2 post2, splitRegions H n pre r post = pre2 ++ r1 :: post2 ∧
      span H pre2 = span H pre1 := by
  unfold splitRegions
  rcases append_cons_cases _ _ _ _ _ _ h with ⟨t, ht, _⟩ | ⟨_, hm, _⟩ | ⟨t, ht, _⟩
  · subst ht
    exact ⟨pre1, t ++ { bytes := n, used := true } :: { bytes := r.bytes - n - H, used := false }
      :: post, by simp, rfl⟩
  · rw [hm, hr1] at hr
    exact Bool.noConfusion hr
  · subst ht
    rename_i hpost
    refine ⟨pre ++ { bytes := n, used := true } :: { bytes := r.bytes - n - H, used := false }
      :: t, post1, ?_, ?_⟩
    · rw [hpost]; simp
    · simp only [span_append, span]; omega

theorem keepAfter_before_used (H : Nat) (t : List Region) (r : Region) (post : List Region)
    (hr : r.used = true) :
    ∃ kt, keepAfter (t ++ r :: post) = kt ++ r :: post ∧
      absorbedAfter H (t ++ r :: post) + span H kt = span H t := by
  cases t with
  | nil => exact ⟨[], by simp [keepAfter, hr], by simp [absorbedAfter, hr, span]⟩
  | cons q t =>
    cases hq : q.used
    · exact ⟨t, by simp [keepAfter, hq], by simp [absorbedAfter, hq, span]; omega⟩
    · exact ⟨q :: t, by simp [keepAfter, hq], by simp [absorbedAfter, hq, span]⟩

theorem keepBefore_after_used (pre : List Region) (r : Region) (t : List Region)
    (hr : r.used = true) : ∃ kt, keepBefore (pre ++ r :: t) = pre ++ r :: kt := by
  rcases List.eq_nil_or_concat t with ht | ⟨t0, q, ht⟩
  · subst ht
    refine ⟨[], ?_⟩
    rw [keepBefore_concat, hr]; rfl
  · rw [List.concat_eq_append] at ht; subst ht
    have e : pre ++ r :: (t0 ++ [q]) = (pre ++ r :: t0) ++ [q] := by simp
    rw [e, keepBefore_concat]
    cases hq : q.used
    · exact ⟨t0, by simp⟩
    · exact ⟨t0 ++ [q], by simp⟩

theorem merge_keeps_used {H : Nat} (pre : List Region) (r : Region) (post : List Region)
    (pre1 : List Region) (r1 : Region) (post1 : List Region)
    (h : pre ++ r :: post = pre1 ++ r1 :: post1) (hr1 : r1.used = true)
    (hne : span H pre ≠ span H pre1) :
    ∃ pre2 post2, mergeRegions H pre r post = pre2 ++ r1 :: post2 ∧
      span H pre2 = span H pre1 := by
  unfold mergeRegions
  rcases append_cons_cases _ _ _ _ _ _ h with ⟨t, ht, hpost1⟩ | ⟨hm, _, _⟩ | ⟨t, ht, hpost⟩
  · -- the region `r1` lies before the freed one
    subst ht
    obtain ⟨kt, hk⟩ := keepBefore_after_used pre1 r1 t hr1
    rw [hk]
    exact ⟨pre1, kt ++
      { bytes := absorbedBefore H (pre1 ++ r1 :: t) + r.bytes + absorbedAfter H post,
        used := false } :: keepAfter post, by simp, rfl⟩
  · rw [hm] at hne; exact absurd rfl hne
  · -- the region `r1` lies after the freed one
    subst ht hpost
    obtain ⟨kt, hk1, hk2⟩ := keepAfter_before_used H t r1 post1 hr1
    have hkb := span_keepBefore H pre
    rw [hk1]
    refine ⟨keepBefore pre ++
      { bytes := absorbedBefore H pre + r.bytes + absorbedAfter H (t ++ r1 :: post1),
        used := false } :: kt, post1, by simp, ?_⟩
    simp only [span_append, span]
    omega

theorem Outstanding.live {H : Nat} {s : cMemoryManager} {p : Nat} (h : Outstanding H s p) :
    Reachable H s ∧ ∃ l, Inv H s l ∧ LiveIn H s l p := by
  induction h with
  | allocated s n p s2 hs hn h hp =>
    obtain ⟨l, hinv⟩ := hs.inv
    obtain ⟨pre, r, post, hl, _, _, hpeq, hinv2, _, _, hmem, _⟩ := allocate_inv hinv hn h hp
    exact ⟨Reachable.allocate s n p s2 hs hn h, _, hinv2,
      ⟨pre, _, _, rfl, rfl, by rw [hmem]; exact hpeq⟩⟩
  | allocate s n q s2 p hs hn h ih =>
    obtain ⟨hr, l, hinv, pre1, r1, post1, hl1, hr1, hp1⟩ := ih
    refine ⟨Reachable.allocate s n q s2 hr hn h, ?_⟩
    by_cases hq : q = 0
    · rcases first_fit_cases (add32 n H) l with hno | ⟨pre, r, post, hl, hpre, hfit⟩
      · rw [allocate_fail hinv n hno] at h
        simp only [Option.some.injEq, Prod.mk.injEq] at h
        rw [← h.2]
        exact ⟨l, hinv, pre1, r1, post1, hl1, hr1, hp1⟩
      · subst hl
        obtain ⟨s3, h3, _⟩ := allocate_success hinv hn hpre hfit
        rw [h3] at h
        simp only [Option.some.injEq, Prod.mk.injEq] at h
        have := hinv.hbase
        omega
    · obtain ⟨pre, r, post, hl, _, hfit, _, hinv2, _, _, hmem, _⟩ := allocate_inv hinv hn h hq
      subst hl
      obtain ⟨pre2, post2, h2, hsp⟩ :=
        split_keeps_used H n pre r post hfit.1 hfit.2 pre1 r1 post1 hl1 hr1
      exact ⟨_, hinv2, pre2, r1, post2, h2, hr1, by rw [hmem, hsp]; exact hp1⟩
  | deallocate s q s2 p hs hq h ih =>
    obtain ⟨hr, l, hinv, pre1, r1, post1, hl1, hr1, hp1⟩ := ih
    refine ⟨Reachable.deallocate s q s2 hr h, ?_⟩
    by_cases hex : ∃ pre r post, l = pre ++ r :: post ∧ r.used = true
        ∧ q = s.m_memory + span H pre + H
    · obtain ⟨pre, r, post, hl, hru, hqe⟩ := hex
      subst hl hqe
      rw [(deallocate_live hinv hru).2.2] at h
      simp only [Option.some.injEq] at h
      obtain ⟨hinv2, _, _, hmem, _⟩ := deallocateChunk_spec hinv hru
      rw [h] at hinv2 hmem
      obtain ⟨pre2, post2, h2, hsp⟩ :=
        merge_keeps_used (H := H) pre r post pre1 r1 post1 hl1 hr1 (by omega)
      exact ⟨_, hinv2, pre2, r1, post2, h2, hr1, by rw [hmem, hsp]; exact hp1⟩
    · rw [deallocate_noop hinv q (fun pre r post hl hru hp => hex ⟨pre, r, post, hl, hru, hp⟩)] at h
      simp only [Option.some.injEq] at h
      rw [← h]
      exact ⟨l, hinv, pre1, r1, post1, hl1, hr1, hp1⟩
  | write s a v p hs ha ih =>
    obtain ⟨hr, l, hinv, hlive⟩ := ih
    exact ⟨Reachable.write s a v hr ha, l, Inv_userWrite hinv a v, hlive⟩

theorem recs_concat (H : Nat) (l : List Region) (q : Region) (prev pos nxt : Nat) :
    recs H prev pos (l ++ [q]) nxt = recs H prev pos l (pos + span H l) ++
      [(pos + span H l,
        { m_isInUse := q.used, m_bytes := q.bytes, m_previous := lastPos H prev pos l,
          m_next := nxt })] := by
  rw [recs_append]; rfl

theorem recs_setHeadPrevious (H : Nat) (l : List Region) (prev a pos nxt : Nat) :
    setHeadPrevious a (recs H prev pos l nxt) = recs H a pos l nxt := by
  cases l <;> rfl

theorem addrOfLast_recs {H : Nat} (l : List Region) (pos nxt : Nat) :
    addrOfLast (recs H 0 pos l nxt) = lastPos H 0 pos l := by
  rcases List.eq_nil_or_concat l with hl | ⟨l0, q, hl⟩
  · subst hl; rfl
  · rw [List.concat_eq_append] at hl; subst hl
    rw [recs_concat, lastPos_concat]
    simp [addrOfLast]

theorem addrOfHead_recs {H : Nat} (l : List Region) (prev pos : Nat) :
    addrOfHead (recs H prev pos l 0) = linkTo l pos 0 := by
  cases l <;> rfl

theorem before_facts (H : Nat) (pre : List Region) (base : Nat) :
    dropFreeLast (recs H 0 base pre (base + span H pre))
      = recs H 0 base (keepBefore pre) (base + span H (keepBefore pre)) ∧
    mergeStart (recs H 0 base pre (base + span H pre)) (base + span H pre)
      = base + span H (keepBefore pre) ∧
    bytesBefore H (recs H 0 base pre (base + span H pre)) = absorbedBefore H pre ∧
    countBefore (recs H 0 base pre (base + span H pre)) = absorbedCountBefore pre := by
  rcases List.eq_nil_or_concat pre with hl | ⟨l0, q, hl⟩
  · subst hl
    simp [recs, dropFreeLast, mergeStart, bytesBefore, countBefore, absorbedCountBefore]
  · rw [List.concat_eq_append] at hl; subst hl
    rw [recs_concat]
    cases hq : q.used
    · simp [dropFreeLast, mergeStart, bytesBefore, countBefore, absorbedCountBefore, hq]
    · simp [dropFreeLast, mergeStart, bytesBefore, countBefore, absorbedCountBefore, hq,
        recs_concat]

theorem after_facts (H : Nat) (post : List Region) (a E0 : Nat) :
    dropFreeHead (recs H a E0 post 0)
      = recs H (linkTo post E0 0) (E0 + absorbedAfter H post) (keepAfter post) 0 ∨
    dropFreeHead (recs H a E0 post 0)
      = recs H a (E0 + absorbedAfter H post) (keepAfter post) 0 := by
  cases post with
  | nil => left; rfl
  | cons q post =>
    cases hq : q.used
    · left
      simp only [recs, dropFreeHead, hq, keepAfter, absorbedAfter, Bool.false_eq_true, if_false,
        linkTo]
      have e : E0 + (q.bytes + H) = E0 + H + q.bytes := by omega
      rw [e]
    · right
      simp [recs, dropFreeHead, hq, keepAfter, absorbedAfter]

theorem after_counts (H : Nat) (post : List Region) (a E0 : Nat) :
    bytesAfter H (recs H a E0 post 0) = absorbedAfter H post ∧
    countAfter (recs H a E0 post 0) = absorbedCountAfter post := by
  cases post with
  | nil => exact ⟨rfl, rfl⟩
  | cons q post => exact ⟨rfl, rfl⟩

theorem demo1_outstanding : Outstanding 24 demo1 4120 :=
  Outstanding.allocated demo0 8 4120 demo1 demo0_reachable (by decide) demo1_allocate (by decide)

/-- C9 (freeing a live pointer frees and coalesces).  For a pointer `p` that an
earlier `allocate` returned and that was not passed to `deallocate` since, the
range check accepts `p`, the chain walk finds the header `p - H`, and
`deallocate(p)` replaces that header, a free header right before it and a free
header right after it by one free header: it starts at the absorbed predecessor
or else at `p - H`, its size is the freed payload plus payload and header of
each absorbed neighbour, it is linked in both directions to the headers that
remain, the other headers are unchanged, and the free counter grows by the
freed payload plus one header size per absorbed neighbour. -/
theorem deallocate_live_coalesces (H : Nat) (s : cMemoryManager) (p : Nat)
    (hp : Outstanding H s p) :
    isAddressInMemoryRange H s p = true ∧
    findChunkForUserMemory H s p = some (p - H) ∧ p - H ≠ 0 ∧
    ∃ s2, deallocate H s p = some s2 ∧ FreedAndCoalesced H s p s2 ∧ Coverage H s2 := by
  obtain ⟨hr, l, hinv, pre, r, post, hl, hru, hpe⟩ := hp.live
  subst hl
  have hbase := hinv.hbase
  have hsub : p - H = s.m_memory + span H pre := by omega
  obtain ⟨h1, h2, h3⟩ := deallocate_live hinv hru
  obtain ⟨hinv2, hfree, _, hmem, _⟩ := deallocateChunk_spec hinv hru
  rw [← hpe] at h1 h2 h3
  refine ⟨h1, by rw [h2, hsub], by omega, _, h3, ?_, hinv2.coverage⟩
  obtain ⟨b1, b2, b3, b4⟩ := before_facts H pre s.m_memory
  obtain ⟨a3, a4⟩ := after_counts H post (s.m_memory + span H pre)
    (s.m_memory + span H pre + H + r.bytes)
  have hkb := span_keepBefore H pre
  have hE : s.m_memory + span H (keepBefore pre) + H
        + (absorbedBefore H pre + r.bytes + absorbedAfter H post)
      = s.m_memory + span H pre + H + r.bytes + absorbedAfter H post := by omega
  refine ⟨recs H 0 s.m_memory pre (s.m_memory + span H pre),
    { m_isInUse := r.used, m_bytes := r.bytes, m_previous := lastPos H 0 s.m_memory pre,
      m_next := linkTo post (s.m_memory + span H pre + H + r.bytes) 0 },
    recs H (s.m_memory + span H pre) (s.m_memory + span H pre + H + r.bytes) post 0, ?_, hru,
    ?_, ?_⟩
  · rw [headers_eq hinv, recs_append, hsub]
    rfl
  · rw [headers_eq hinv2, hmem, hsub, b1, b2, b3, a3, addrOfLast_recs]
    unfold mergeRegions
    rw [recs_append]
    simp only [recs, linkTo, hE]
    have hd : setHeadPrevious (s.m_memory + span H (keepBefore pre))
          (dropFreeHead (recs H (s.m_memory + span H pre)
            (s.m_memory + span H pre + H + r.bytes) post 0))
        = recs H (s.m_memory + span H (keepBefore pre))
            (s.m_memory + span H pre + H + r.bytes + absorbedAfter H post) (keepAfter post) 0
        ∧ addrOfHead (dropFreeHead (recs H (s.m_memory + span H pre)
            (s.m_memory + span H pre + H + r.bytes) post 0))
        = linkTo (keepAfter post)
            (s.m_memory + span H pre + H + r.bytes + absorbedAfter H post) 0 := by
      rcases after_facts H post (s.m_memory + span H pre)
        (s.m_memory + span H pre + H + r.bytes) with h | h <;>
      · rw [h, recs_setHeadPrevious, addrOfHead_recs]
        exact ⟨rfl, rfl⟩
    rw [hd.1, hd.2]
    rfl
  · rw [hfree, b4, a4]
    rfl

theorem deallocate_live_coalesces_witness :
    Outstanding 24 demo1 4120 ∧
    isAddressInMemoryRange 24 demo1 4120 = true ∧
    findChunkForUserMemory 24 demo1 4120 = some (4120 - 24) ∧ 4120 - 24 ≠ 0 ∧
    ∃ s2, deallocate 24 demo1 4120 = some s2 ∧ FreedAndCoalesced 24 demo1 4120 s2 ∧
      Coverage 24 s2 :=
  ⟨demo1_outstanding, deallocate_live_coalesces 24 demo1 4120 demo1_outstanding⟩

/-- C1 (exhaustion), evaluated at a request whose `n + H` wraps.  On a fresh
manager of 64 bytes with 24-byte headers the only header is free with 40 bytes,
so no free header has `4294967272 + 24` bytes; yet `allocate(4294967272)`
computes `4294967272 + 24` modulo `2 ^ 32`, which is `0`, selects that header
and returns its payload start `4120` instead of null. -/
theorem allocate_wrapped_request_selects :
    Reachable 24 demo0 ∧ 4294967272 < U32 ∧
    (∀ a ∈ chain demo0, ¬ ((demo0.chunkAt a).m_isInUse = false ∧
      (demo0.chunkAt a).m_bytes ≥ 4294967272 + 24)) ∧
    add32 4294967272 24 = 0 ∧
    (allocate 24 demo0 4294967272).map Prod.fst = some 4120 :=
  ⟨demo0_reachable, by decide, by decide, by decide, by rfl⟩

/-- Exhaustion for requests that do not wrap: in a reachable state, when no free
header of the chain has `m_bytes >= n + H` and `n + H < 2 ^ 32`, `allocate(n)`
returns null and leaves the state as it is. -/
theorem allocate_null_of_no_fit (H : Nat) (s : cMemoryManager) (n : Nat) (hr : Reachable H s)
    (hn : n + H < U32)
    (hno : ∀ a ∈ chain s, ¬ ((s.chunkAt a).m_isInUse = false ∧ (s.chunkAt a).m_bytes ≥ n + H)) :
    allocate H s n = some (0, s) := by
  obtain ⟨l, hinv⟩ := hr.inv
  apply allocate_fail hinv
  rw [add32_eq hn]
  intro q hq hfit
  obtain ⟨pre, post, hl⟩ := List.append_of_mem hq
  subst hl
  apply hno _ hinv.mem_chain_mid
  rw [hinv.chunkAt_mid]
  exact hfit

theorem demoExact_allocate : allocate 24 demo0 16 = some (4120, demoExact) := by rfl

theorem findChunk_of_inv {H : Nat} {s : cMemoryManager} {n : Nat} {pre : List Region}
    {r : Region} {post : List Region} (hinv : Inv H s (pre ++ r :: post))
    (hpre : ∀ q ∈ pre, ¬ Fits (add32 n H) q) (hr : Fits (add32 n H) r) :
    allocate.findChunk H s n (s.m_totalBytesCount + 1) s.m_memory
      = some (s.m_memory + span H pre) := by
  have hlen : pre.length < s.m_totalBytesCount + 1 := by
    have := length_le_span hinv.hH pre
    have := hinv.span_eq
    have hsp : span H (pre ++ r :: post) = span H pre + (H + r.bytes + span H post) := by
      simp [span_append, span]
    omega
  exact findChunk_first H s n pre r post 0 s.m_memory _ 0 hinv.seg hinv.hbase hlen hpre hr

/-- C11 (split on allocation).  When `allocate(n)` returns a non-null `p` in a
reachable state (`n + H < 2 ^ 32`), the search selected the free header
`h = p - H` of some size `s >= n + H`, and the resulting chain is the old one
with `h` replaced by `h` (in use, size `n`) followed by a new free header at
`h + H + n` of size `s - n - H`, whose `m_previous` is `h` and whose `m_next` is
the old `m_next` of `h`; that next header points back to the new header, all
other headers are unchanged, and the free counter decreases by `n + H`.  The
new header is inserted also when `s = n + H`, with size `0`. -/
theorem allocate_splits (H : Nat) (s : cMemoryManager) (n p : Nat) (s2 : cMemoryManager)
    (hr : Reachable H s) (hn : n + H < U32) (h : allocate H s n = some (p, s2)) (hp : p ≠ 0) :
    allocate.findChunk H s n (s.m_totalBytesCount + 1) s.m_memory = some (p - H) ∧
    SplitAt H s n (p - H) s2 := by
  obtain ⟨l, hinv⟩ := hr.inv
  obtain ⟨pre, r, post, hl, hpre, hfit, hpeq, hinv2, hfree, htotal, hmem, htr⟩ :=
    allocate_inv hinv hn h hp
  subst hl
  have hsub : p - H = s.m_memory + span H pre := by omega
  have hfind := findChunk_of_inv (n := n) hinv (by rw [add32_eq hn]; exact hpre)
    (by rw [add32_eq hn]; exact hfit)
  refine ⟨by rw [hfind, hsub], ?_⟩
  have hrb : n + H ≤ r.bytes := hfit.2
  have hE : s.m_memory + span H pre + H + n + H + (r.bytes - n - H)
      = s.m_memory + span H pre + H + r.bytes := by omega
  refine ⟨recs H 0 s.m_memory pre (s.m_memory + span H pre),
    { m_isInUse := r.used, m_bytes := r.bytes, m_previous := lastPos H 0 s.m_memory pre,
      m_next := linkTo post (s.m_memory + span H pre + H + r.bytes) 0 },
    recs H (s.m_memory + span H pre) (s.m_memory + span H pre + H + r.bytes) post 0,
    ?_, hfit.1, hrb, ?_, hfree⟩
  · rw [headers_eq hinv, recs_append, hsub]
    rfl
  · rw [headers_eq hinv2, hmem, hsub, recs_setHeadPrevious]
    unfold splitRegions
    rw [recs_append]
    simp only [recs, linkTo, hE]

theorem allocate_splits_witness :
    Reachable 24 demo0 ∧ 16 + 24 < U32 ∧ allocate 24 demo0 16 = some (4120, demoExact) ∧
    4120 ≠ 0 ∧
    allocate.findChunk 24 demo0 16 (demo0.m_totalBytesCount + 1) demo0.m_memory
      = some (4120 - 24) ∧
    SplitAt 24 demo0 16 (4120 - 24) demoExact :=
  ⟨demo0_reachable, by decide, demoExact_allocate, by decide,
    allocate_splits 24 demo0 16 4120 demoExact demo0_reachable (by decide) demoExact_allocate
      (by decide)⟩

/-- The search loop of `allocate` ends in every state that satisfies the
invariant, whatever the request. -/
theorem findChunk_returns {H : Nat} {s : cMemoryManager} {l : List Region} (hinv : Inv H s l)
    (n : Nat) : ∃ c, allocate.findChunk H s n (s.m_totalBytesCount + 1) s.m_memory = some c := by
  rcases first_fit_cases (add32 n H) l with hno | ⟨pre, r, post, hl, hpre, hfit⟩
  · have hl : linkTo l s.m_memory 0 = s.m_memory := by
      have := hinv.lastFree.ne_nil
      cases l with
      | nil => exact absurd rfl this
      | cons _ _ => rfl
    have hlen : l.length < s.m_totalBytesCount + 1 := by
      have := length_le_span hinv.hH l
      have := hinv.span_eq
      omega
    have := findChunk_none H s n l 0 s.m_memory _ hinv.seg hinv.hbase hlen hno
    rw [hl] at this
    exact ⟨0, this⟩
  · subst hl
    exact ⟨_, findChunk_of_inv hinv hpre hfit⟩

/-- C12 (a failed allocation is atomic).  In a reachable state `allocate(n)`
returns for every request `n`, and when it returns null the state after the call
is the state before it: headers, free counter and every byte, whatever the
trashing option. -/
theorem allocate_null_unchanged (H : Nat) (s : cMemoryManager) (n : Nat)
    (hr : Reachable H s) :
    ∃ p s2, allocate H s n = some (p, s2) ∧ (p = 0 → s2 = s) := by
  obtain ⟨l, hinv⟩ := hr.inv
  obtain ⟨c, hc⟩ := findChunk_returns hinv n
  unfold allocate
  rw [hc]
  by_cases h0 : c = 0
  · simp only [h0, if_true]
    exact ⟨0, s, rfl, fun _ => rfl⟩
  · simp only [h0, if_false]
    refine ⟨_, _, rfl, ?_⟩
    intro hp
    omega

theorem allocate_null_unchanged_witness :
    Reachable 24 demo1 ∧
    ∃ p s2, allocate 24 demo1 1000 = some (p, s2) ∧ (p = 0 → s2 = demo1) :=
  ⟨demo1_reachable, allocate_null_unchanged 24 demo1 1000 demo1_reachable⟩

/-- C19 (usable capacity of a fresh arena).  On a manager that was just
constructed with `total_bytes > H`, `allocate(n)` (`n + H < 2 ^ 32`) returns a
non-null pointer exactly when `n + 2 * H <= total_bytes`.  So
`allocate(total_bytes - H)` returns null, although the free counter is
`total_bytes - H` and the only header is free with exactly that size. -/
theorem fresh_arena_capacity (H base : Nat) (heap0 : Nat → cMemoryChunk)
    (raw0 : Nat → Option Nat) (bytes trashing n : Nat) (hH : 0 < H) (hbase : 0 < base)
    (hbytes : H < bytes) (hu : bytes < U32) (hn : n + H < U32) :
    (∃ p s2, allocate H (cMemoryManager.cMemoryManager H base heap0 raw0 bytes trashing) n
        = some (p, s2) ∧ (p ≠ 0 ↔ n + 2 * H ≤ bytes)) ∧
    (∃ s2, allocate H (cMemoryManager.cMemoryManager H base heap0 raw0 bytes trashing)
        (bytes - H) = some (0, s2)) ∧
    (cMemoryManager.cMemoryManager H base heap0 raw0 bytes trashing).m_freeBytesCount
      = bytes - H ∧
    headers (cMemoryManager.cMemoryManager H base heap0 raw0 bytes trashing)
      = [(base, { m_isInUse := false, m_bytes := bytes - H, m_previous := 0, m_next := 0 })] := by
  have hinv := Inv_construct H base heap0 raw0 bytes trashing hH hbase hbytes hu
  have hmem : (cMemoryManager.cMemoryManager H base heap0 raw0 bytes trashing).m_memory = base := by
    unfold cMemoryManager.cMemoryManager
    simp only [(ite_proj _ _ _).2.2.1, store_memory, memset_memory, ite_self]
  have key : ∀ m, m + H < U32 →
      ∃ p s2, allocate H (cMemoryManager.cMemoryManager H base heap0 raw0 bytes trashing) m
        = some (p, s2) ∧ (p ≠ 0 ↔ m + 2 * H ≤ bytes) := by
    intro m hm
    by_cases hfit : m + 2 * H ≤ bytes
    · obtain ⟨s2, h2, _⟩ := @allocate_success _ _ _ [] _ [] hinv hm (by simp)
        (by rw [add32_eq hm]; exact ⟨rfl, by simp only; omega⟩)
      refine ⟨_, s2, h2, ?_⟩
      simp only [span, hmem]
      constructor
      · intro _; exact hfit
      · intro _; omega
    · refine ⟨0, _, allocate_fail hinv m ?_, ?_⟩
      · intro q hq hf
        simp only [List.mem_singleton] at hq
        subst hq
        rw [add32_eq hm] at hf
        have := hf.2
        simp only at this
        omega
      · constructor
        · intro h; exact absurd rfl h
        · intro h; exact absurd h hfit
  refine ⟨key n hn, ?_, hinv.free_eq.trans (by simp [freeSum]), ?_⟩
  · obtain ⟨p, s2, h2, hiff⟩ := key (bytes - H) (by omega)
    have hp : p = 0 := by
      by_contra hne
      have := hiff.1 hne
      omega
    rw [hp] at h2
    exact ⟨s2, h2⟩
  · rw [headers_eq hinv, hmem]
    rfl

theorem fresh_arena_capacity_witness :
    0 < 24 ∧ 0 < 4096 ∧ 24 < 64 ∧ 64 < U32 ∧ 16 + 24 < U32 ∧
    ((∃ p s2, allocate 24 demo0 16 = some (p, s2) ∧ (p ≠ 0 ↔ 16 + 2 * 24 ≤ 64)) ∧
    (∃ s2, allocate 24 demo0 (64 - 24) = some (0, s2)) ∧
    demo0.m_freeBytesCount = 64 - 24 ∧
    headers demo0
      = [(4096, { m_isInUse := false, m_bytes := 64 - 24, m_previous := 0, m_next := 0 })]) :=
  ⟨by decide, by decide, by decide, by decide, by decide,
    fresh_arena_capacity 24 4096 demoHeap demoRaw 64 eTrashing.ON_ALL 16 (by decide) (by decide)
      (by decide) (by decide) (by decide)⟩

/-! ## The effect of `allocate` and `deallocateChunk` on the bytes -/

@[simp] theorem store_byteAt (H : Nat) (s : cMemoryManager) (a : Nat) (c : cMemoryChunk)
    (b : Nat) : (store H s a c).byteAt b = if a ≤ b ∧ b < a + H then none else s.byteAt b := rfl

@[simp] theorem memset_byteAt (s : cMemoryManager) (d v k b : Nat) :
    (memset s d v k).byteAt b = if d ≤ b ∧ b < d + k then some v else s.byteAt b := rfl

theorem ite_byteAt (c : Prop) [Decidable c] (u w : cMemoryManager) :
    (if c then u else w).byteAt = if c then u.byteAt else w.byteAt := by
  split <;> rfl

/-- The bytes after a successful `allocate`: the fill, when the option asks for
it, then the headers that were written, then what was there before. -/
theorem allocate_bytes (H : Nat) (s : cMemoryManager) (n c p : Nat) (s2 : cMemoryManager)
    (hfind : allocate.findChunk H s n (s.m_totalBytesCount + 1) s.m_memory = some c)
    (hc : c ≠ 0) (hH : 0 < H) (h : allocate H s n = some (p, s2)) (b : Nat) :
    s2.byteAt b =
      if s.m_trashing &&& eTrashing.ON_ALLOCATION ≠ 0 ∧ c + H ≤ b ∧ b < c + H + n then
        some eTrashingValue.ON_ALLOCATION
      else if (c ≤ b ∧ b < c + H) ∨ (c + H + n ≤ b ∧ b < c + H + n + H) ∨
          ((s.chunkAt c).m_next ≠ 0 ∧ (s.chunkAt c).m_next ≤ b ∧ b < (s.chunkAt c).m_next + H)
        then none
      else s.byteAt b := by
  have hne : c ≠ c + H + n := by omega
  unfold allocate at h
  rw [hfind] at h
  simp only [hc, if_false, Option.some.injEq, Prod.mk.injEq] at h
  obtain ⟨_, h2⟩ := h
  subst h2
  simp only [ite_byteAt, (ite_proj _ _ _).2.2.2.1, memset_trashing, store_trashing,
    set_m_previous, set_m_next, set_m_bytes, set_m_isInUse, store_chunkAt, store_byteAt,
    memset_byteAt, cMemoryChunk.cMemoryChunk, if_true, if_neg hne, if_neg hne.symm, ite_self]
  by_cases h0 : (s.chunkAt c).m_next = 0
  · simp only [h0, ne_eq, not_true_eq_false, if_false, false_and, or_false, store_byteAt]
    by_cases ht : s.m_trashing &&& eTrashing.ON_ALLOCATION = 0
    · simp only [ht, not_true_eq_false, false_and, if_false, if_true]
      by_cases hb1 : c ≤ b ∧ b < c + H
      · simp [hb1]
      · by_cases hb2 : c + H + n ≤ b ∧ b < c + H + n + H
        · simp [hb1, hb2]
        · simp [hb1, hb2]
    · simp only [ht, not_false_eq_true, true_and, if_false, if_true]
      by_cases hb0 : c + H ≤ b ∧ b < c + H + n
      · simp [hb0]
      · by_cases hb1 : c ≤ b ∧ b < c + H
        · simp [hb0, hb1]
        · by_cases hb2 : c + H + n ≤ b ∧ b < c + H + n + H
          · simp [hb0, hb1, hb2]
          · simp [hb0, hb1, hb2]
  · simp only [h0, ne_eq, not_false_eq_true, true_and, if_true, store_byteAt, store_chunkAt,
      if_neg hne, if_neg hne.symm]
    by_cases ht : s.m_trashing &&& eTrashing.ON_ALLOCATION = 0
    · simp only [ht, not_true_eq_false, false_and, if_false, if_true]
      by_cases hb1 : c ≤ b ∧ b < c + H
      · simp [hb1]
      · by_cases hb2 : c + H + n ≤ b ∧ b < c + H + n + H
        · simp [hb1, hb2]
        · by_cases hb3 : (s.chunkAt c).m_next ≤ b ∧ b < (s.chunkAt c).m_next + H
          · simp [hb1, hb2, hb3]
          · simp [hb1, hb2, hb3]
    · simp only [ht, not_false_eq_true, true_and, if_false, if_true]
      by_cases hb0 : c + H ≤ b ∧ b < c + H + n
      · simp [hb0]
      · by_cases hb1 : c ≤ b ∧ b < c + H
        · simp [hb0, hb1]
        · by_cases hb2 : c + H + n ≤ b ∧ b < c + H + n + H
          · simp [hb0, hb1, hb2]
          · by_cases hb3 : (s.chunkAt c).m_next ≤ b ∧ b < (s.chunkAt c).m_next + H
            · simp [hb0, hb1, hb2, hb3]
            · simp [hb0, hb1, hb2, hb3]

/-- The bytes after `deallocateChunk`: the fill of the merged payload, when the
option asks for it, then the headers that were written, then what was there
before. -/
theorem deallocateChunk_bytes (H : Nat) (s : cMemoryManager) (c : Nat)
    (P N start nextF : Nat)
    (hP : (s.chunkAt c).m_previous = P) (hN : (s.chunkAt c).m_next = N)
    (hstart : start = if P ≠ 0 ∧ (s.chunkAt P).m_isInUse = false then P else c)
    (hnextF : nextF = if N ≠ 0 ∧ (s.chunkAt N).m_isInUse = false then (s.chunkAt N).m_next
      else N) (b : Nat) :
    (deallocateChunk H s c).byteAt b =
      if s.m_trashing &&& eTrashing.ON_DEALLOCATION ≠ 0 ∧ start + H ≤ b ∧
          b < start + H + ((deallocateChunk H s c).chunkAt start).m_bytes then
        some eTrashingValue.ON_DEALLOCATION
      else if (start ≤ b ∧ b < start + H) ∨ (N ≠ 0 ∧ N ≤ b ∧ b < N + H) ∨
          (nextF ≠ 0 ∧ nextF ≤ b ∧ b < nextF + H) then none
      else s.byteAt b := by
  by_cases hN0 : N = 0
  · have hCN : ¬ (N ≠ 0 ∧ (s.chunkAt N).m_isInUse = false) := fun h => h.1 hN0
    rw [if_neg hCN] at hnextF
    by_cases hCP : P ≠ 0 ∧ (s.chunkAt P).m_isInUse = false
    · rw [if_pos hCP] at hstart
      simp only [deallocateChunk, deallocateChunk.mergePrevious, deallocateChunk.mergeNext,
        hP, hN, if_pos hCP, if_neg hCN, hN0, ne_eq,
        not_true_eq_false, not_false_eq_true, if_false, if_true, Bool.true_eq_false,
        Bool.false_eq_true, (ite_proj _ _ _).2.2.2.2, (ite_proj _ _ _).2.2.2.1, ite_byteAt,
        memset_chunkAt, memset_trashing, store_trashing, ite_self, set_m_previous, set_m_next,
        store_chunkAt, store_byteAt, memset_byteAt, cMemoryChunk.cMemoryChunk]
      rw [hstart, hnextF, hN0]
      by_cases ht : s.m_trashing &&& eTrashing.ON_DEALLOCATION = 0 <;>
      by_cases hb1 : P ≤ b ∧ b < P + H <;>
      simp [ht, hb1]
    · rw [if_neg hCP] at hstart
      simp only [deallocateChunk, deallocateChunk.mergePrevious, deallocateChunk.mergeNext,
        hP, hN, if_neg hCP, if_neg hCN, hN0, ne_eq,
        not_true_eq_false, not_false_eq_true, if_false, if_true, Bool.true_eq_false,
        Bool.false_eq_true, (ite_proj _ _ _).2.2.2.2, (ite_proj _ _ _).2.2.2.1, ite_byteAt,
        memset_chunkAt, memset_trashing, store_trashing, ite_self, set_m_previous, set_m_next,
        store_chunkAt, store_byteAt, memset_byteAt, cMemoryChunk.cMemoryChunk]
      rw [hstart, hnextF, hN0]
      by_cases ht : s.m_trashing &&& eTrashing.ON_DEALLOCATION = 0 <;>
      by_cases hb1 : c ≤ b ∧ b < c + H <;>
      simp [ht, hb1]
  · by_cases hNu : (s.chunkAt N).m_isInUse = true
    · have hCN : ¬ (N ≠ 0 ∧ (s.chunkAt N).m_isInUse = false) := by
        rw [hNu]; simp
      rw [if_neg hCN] at hnextF
      by_cases hCP : P ≠ 0 ∧ (s.chunkAt P).m_isInUse = false
      · rw [if_pos hCP] at hstart
        simp only [deallocateChunk, deallocateChunk.mergePrevious, deallocateChunk.mergeNext,
          hP, hN, if_pos hCP, if_neg hCN, hN0, hNu, ne_eq,
          not_true_eq_false, not_false_eq_true, if_false, if_true, Bool.true_eq_false,
          Bool.false_eq_true, (ite_proj _ _ _).2.2.2.2, (ite_proj _ _ _).2.2.2.1, ite_byteAt,
          memset_chunkAt, memset_trashing, store_trashing, ite_self, set_m_previous, set_m_next,
          store_chunkAt, store_byteAt, memset_byteAt, cMemoryChunk.cMemoryChunk]
        rw [hstart, hnextF]
        by_cases ht : s.m_trashing &&& eTrashing.ON_DEALLOCATION = 0 <;>
        by_cases hb1 : P ≤ b ∧ b < P + H <;>
        by_cases hb2 : N ≤ b ∧ b < N + H <;>
        simp [ht, hb1, hb2, hN0]
      · rw [if_neg hCP] at hstart
        simp only [deallocateChunk, deallocateChunk.mergePrevious, deallocateChunk.mergeNext,
          hP, hN, if_neg hCP, if_neg hCN, hN0, hNu, ne_eq,
          not_true_eq_false, not_false_eq_true, if_false, if_true, Bool.true_eq_false,
          Bool.false_eq_true, (ite_proj _ _ _).2.2.2.2, (ite_proj _ _ _).2.2.2.1, ite_byteAt,
          memset_chunkAt, memset_trashing, store_trashing, ite_self, set_m_previous, set_m_next,
          store_chunkAt, store_byteAt, memset_byteAt, cMemoryChunk.cMemoryChunk]
        rw [hstart, hnextF]
        by_cases ht : s.m_trashing &&& eTrashing.ON_DEALLOCATION = 0 <;>
        by_cases hb1 : c ≤ b ∧ b < c + H <;>
        by_cases hb2 : N ≤ b ∧ b < N + H <;>
        simp [ht, hb1, hb2, hN0]
    · have hNu : (s.chunkAt N).m_isInUse = false := by
        cases h : (s.chunkAt N).m_isInUse
        · rfl
        · exact absurd h hNu
      have hCN : N ≠ 0 ∧ (s.chunkAt N).m_isInUse = false := ⟨hN0, hNu⟩
      rw [if_pos hCN] at hnextF
      by_cases hNN : (s.chunkAt N).m_next = 0
      · by_cases hCP : P ≠ 0 ∧ (s.chunkAt P).m_isInUse = false
        · rw [if_pos hCP] at hstart
          simp only [deallocateChunk, deallocateChunk.mergePrevious, deallocateChunk.mergeNext,
            hP, hN, if_pos hCP, if_pos hCN, hN0, hNu, hNN, ne_eq,
            not_true_eq_false, not_false_eq_true, if_false, if_true, Bool.true_eq_false,
            Bool.false_eq_true, (ite_proj _ _ _).2.2.2.2, (ite_proj _ _ _).2.2.2.1, ite_byteAt,
            memset_chunkAt, memset_trashing, store_trashing, ite_self, set_m_previous, set_m_next,
            store_chunkAt, store_byteAt, memset_byteAt, cMemoryChunk.cMemoryChunk]
          rw [hstart, hnextF, hNN]
          by_cases ht : s.m_trashing &&& eTrashing.ON_DEALLOCATION = 0 <;>
          by_cases hb1 : P ≤ b ∧ b < P + H <;>
          by_cases hb2 : N ≤ b ∧ b < N + H <;>
          simp [ht, hb1, hb2, hN0, hNN, hNu]
        · rw [if_neg hCP] at hstart
          simp only [deallocateChunk, deallocateChunk.mergePrevious, deallocateChunk.mergeNext,
            hP, hN, if_neg hCP, if_pos hCN, hN0, hNu, hNN, ne_eq,
            not_true_eq_false, not_false_eq_true, if_false, if_true, Bool.true_eq_false,
            Bool.false_eq_true, (ite_proj _ _ _).2.2.2.2, (ite_proj _ _ _).2.2.2.1, ite_byteAt,
            memset_chunkAt, memset_trashing, store_trashing, ite_self, set_m_previous, set_m_next,
            store_chunkAt, store_byteAt, memset_byteAt, cMemoryChunk.cMemoryChunk]
          rw [hstart, hnextF, hNN]
          by_cases ht : s.m_trashing &&& eTrashing.ON_DEALLOCATION = 0 <;>
          by_cases hb1 : c ≤ b ∧ b < c + H <;>
          by_cases hb2 : N ≤ b ∧ b < N + H <;>
          simp [ht, hb1, hb2, hN0, hNN, hNu]
      · by_cases hCP : P ≠ 0 ∧ (s.chunkAt P).m_isInUse = false
        · rw [if_pos hCP] at hstart
          simp only [deallocateChunk, deallocateChunk.mergePrevious, deallocateChunk.mergeNext,
            hP, hN, if_pos hCP, if_pos hCN, hN0, hNu, hNN, ne_eq,
            not_true_eq_false, not_false_eq_true, if_false, if_true, Bool.true_eq_false,
            Bool.false_eq_true, (ite_proj _ _ _).2.2.2.2, (ite_proj _ _ _).2.2.2.1, ite_byteAt,
            memset_chunkAt, memset_trashing, store_trashing, ite_self, set_m_previous, set_m_next,
            store_chunkAt, store_byteAt, memset_byteAt, cMemoryChunk.cMemoryChunk]
          rw [hstart, hnextF]
          by_cases ht : s.m_trashing &&& eTrashing.ON_DEALLOCATION = 0 <;>
          by_cases hb1 : P ≤ b ∧ b < P + H <;>
          by_cases hb2 : N ≤ b ∧ b < N + H <;>
          by_cases hb3 : (s.chunkAt N).m_next ≤ b ∧ b < (s.chunkAt N).m_next + H <;>
          simp [ht, hb1, hb2, hb3, hN0, hNN, hNu]
        · rw [if_neg hCP] at hstart
          simp only [deallocateChunk, deallocateChunk.mergePrevious, deallocateChunk.mergeNext,
            hP, hN, if_neg hCP, if_pos hCN, hN0, hNu, hNN, ne_eq,
            not_true_eq_false, not_false_eq_true, if_false, if_true, Bool.true_eq_false,
            Bool.false_eq_true, (ite_proj _ _ _).2.2.2.2, (ite_proj _ _ _).2.2.2.1, ite_byteAt,
            memset_chunkAt, memset_trashing, store_trashing, ite_self, set_m_previous, set_m_next,
            store_chunkAt, store_byteAt, memset_byteAt, cMemoryChunk.cMemoryChunk]
          rw [hstart, hnextF]
          by_cases ht : s.m_trashing &&& eTrashing.ON_DEALLOCATION = 0 <;>
          by_cases hb1 : c ≤ b ∧ b < c + H <;>
          by_cases hb2 : N ≤ b ∧ b < N + H <;>
          by_cases hb3 : (s.chunkAt N).m_next ≤ b ∧ b < (s.chunkAt N).m_next + H <;>
          simp [ht, hb1, hb2, hb3, hN0, hNN, hNu]

/-- C15 (scenario, 64-byte arena).  On a manager constructed with 64 bytes and a
header size `H` that leaves room for the request (`8 + 2 * H <= 64`, as for the
24 bytes of the LP64 layout), `allocate(8)` returns `m_memory + H`;
`allocate(1000)` then returns null and leaves the state as it is; and
`deallocate` of the first pointer leaves a chain of one free header of size
`64 - H`, with a free counter of `64 - H`. -/
theorem scenario_64_bytes (H base : Nat) (heap0 : Nat → cMemoryChunk)
    (raw0 : Nat → Option Nat) (trashing : Nat) (hH : 0 < H) (hbase : 0 < base)
    (hfit : 8 + 2 * H ≤ 64) :
    ∃ s1 s3, allocate H (cMemoryManager.cMemoryManager H base heap0 raw0 64 trashing) 8
        = some (base + H, s1) ∧ base + H ≠ 0 ∧
      allocate H s1 1000 = some (0, s1) ∧
      deallocate H s1 (base + H) = some s3 ∧
      headers s3
        = [(base, { m_isInUse := false, m_bytes := 64 - H, m_previous := 0, m_next := 0 })] ∧
      s3.m_freeBytesCount = 64 - H := by
  have hu : (64 : Nat) < U32 := by decide
  have hU : U32 = 4294967296 := by decide
  have hinv0 := Inv_construct H base heap0 raw0 64 trashing hH hbase (by omega) hu
  have hmem0 : (cMemoryManager.cMemoryManager H base heap0 raw0 64 trashing).m_memory = base := by
    unfold cMemoryManager.cMemoryManager
    simp only [(ite_proj _ _ _).2.2.1, store_memory, memset_memory, ite_self]
  have hn8 : 8 + H < U32 := by omega
  obtain ⟨s1, h1, hinv1, hfree1, htot1, hmem1, _⟩ :=
    @allocate_success _ _ _ [] _ [] hinv0 hn8 (by simp)
      (by rw [add32_eq hn8]; exact ⟨rfl, by simp only; omega⟩)
  simp only [span, Nat.add_zero, hmem0] at h1
  rw [hmem0] at hmem1
  simp only [splitRegions, List.nil_append] at hinv1
  have hn1000 : 1000 + H < U32 := by omega
  have h2 : allocate H s1 1000 = some (0, s1) := by
    apply allocate_fail hinv1
    rw [add32_eq hn1000]
    intro q hq hf
    simp only [List.mem_cons, List.mem_singleton, List.not_mem_nil, or_false] at hq
    rcases hq with rfl | rfl
    · exact Bool.noConfusion hf.1
    · have := hf.2
      simp only at this
      omega
  have hinv1b : Inv H s1 ([] ++ { bytes := 8, used := true }
      :: [{ bytes := 64 - H - 8 - H, used := false }]) := hinv1
  have h3 := (deallocate_live hinv1b rfl).2.2
  obtain ⟨hinv3, hfree3, _, hmem3, _⟩ := deallocateChunk_spec hinv1b rfl
  simp only [span, Nat.add_zero, hmem1] at h3 hinv3 hfree3 hmem3
  have hm : mergeRegions H [] { bytes := 8, used := true }
      [{ bytes := 64 - H - 8 - H, used := false }] = [{ bytes := 64 - H, used := false }] := by
    simp only [mergeRegions, keepBefore_nil, absorbedBefore_nil, keepAfter, absorbedAfter,
      Bool.false_eq_true, if_false, List.nil_append]
    have e : 0 + 8 + (64 - H - 8 - H + H) = 64 - H := by omega
    rw [e]
  rw [hm] at hinv3
  refine ⟨s1, _, h1, by omega, h2, h3, ?_, ?_⟩
  · rw [headers_eq hinv3, hmem3]
    rfl
  · rw [hinv3.free_eq]
    simp [freeSum]

theorem scenario_64_bytes_witness :
    0 < 24 ∧ 0 < 4096 ∧ 8 + 2 * 24 ≤ 64 ∧
    ∃ s1 s3, allocate 24 (cMemoryManager.cMemoryManager 24 4096 demoHeap demoRaw 64
          eTrashing.ON_ALL) 8 = some (4096 + 24, s1) ∧ 4096 + 24 ≠ 0 ∧
      allocate 24 s1 1000 = some (0, s1) ∧
      deallocate 24 s1 (4096 + 24) = some s3 ∧
      headers s3
        = [(4096, { m_isInUse := false, m_bytes := 64 - 24, m_previous := 0, m_next := 0 })] ∧
      s3.m_freeBytesCount = 64 - 24 :=
  ⟨by decide, by decide, by decide,
    scenario_64_bytes 24 4096 demoHeap demoRaw eTrashing.ON_ALL (by decide) (by decide)
      (by decide)⟩

/-- C16 as stated fails: with 24-byte headers and 128 bytes, after three
`allocate(4)` and the three `deallocate` calls in the order second, first,
third, the header at the address of the first header covers `24 + 104 = 128`
bytes, the whole arena, and not `3 * 24 + 12 = 84`: the last call also absorbed
the free region after the third block. -/
theorem trio_last_free_covers_arena :
    allocate 24 trio0 4 = some (4120, trio1) ∧ allocate 24 trio1 4 = some (4148, trio2) ∧
    allocate 24 trio2 4 = some (4176, trio3) ∧ deallocate 24 trio3 4148 = some trio4 ∧
    deallocate 24 trio4 4120 = some trio5 ∧ deallocate 24 trio5 4176 = some trio6 ∧
    headers trio5 = [(4096, { m_isInUse := false, m_bytes := 32, m_previous := 0, m_next := 4152 }),
      (4152, { m_isInUse := true, m_bytes := 4, m_previous := 4096, m_next := 4180 }),
      (4180, { m_isInUse := false, m_bytes := 20, m_previous := 4152, m_next := 0 })] ∧
    headers trio6
      = [(4096, { m_isInUse := false, m_bytes := 104, m_previous := 0, m_next := 0 })] ∧
    ¬ (24 + (trio6.chunkAt 4096).m_bytes = 3 * 24 + 12) :=
  ⟨by rfl, by rfl, by rfl, by rfl, by rfl, by rfl, by decide, by decide, by decide⟩

theorem construct_memory (H base : Nat) (heap0 : Nat → cMemoryChunk) (raw0 : Nat → Option Nat)
    (bytes trashing : Nat) :
    (cMemoryManager.cMemoryManager H base heap0 raw0 bytes trashing).m_memory = base := by
  unfold cMemoryManager.cMemoryManager
  simp only [(ite_proj _ _ _).2.2.1, store_memory, memset_memory, ite_self]

/-- C16, amended (scenario, three allocations).  On a fresh manager with
`total_bytes >= 4 * H + 12`, three `allocate(4)` return `a`, `b`, `c`;
`deallocate(b)` merges nothing (same number of headers, the header of `b` free
with size 4, free counter plus 4); `deallocate(a)` merges the regions of `a` and
`b` (one free header at the header of `a`, size `8 + H`, free counter plus
`4 + H`); `deallocate(c)` merges these, the region of `c` and the free region
behind it into one free header at the header of `a` of size `total_bytes - H`,
which covers the `3 * H + 12` bytes of the three regions and the trailing free
region (free counter plus `4 + 2 * H`). -/
theorem scenario_three_allocations (H base : Nat) (heap0 : Nat → cMemoryChunk)
    (raw0 : Nat → Option Nat) (total trashing : Nat) (hH : 0 < H) (hbase : 0 < base)
    (htotal : 4 * H + 12 ≤ total) (hu : total < U32) :
    TrioScenario H (cMemoryManager.cMemoryManager H base heap0 raw0 total trashing) base
      total := by
  have hinv0 := Inv_construct H base heap0 raw0 total trashing hH hbase (by omega) hu
  have hmem0 := construct_memory H base heap0 raw0 total trashing
  have hn : 4 + H < U32 := by omega
  -- first allocation
  obtain ⟨s1, h1, hinv1, hfree1, _, hmem1, _⟩ :=
    @allocate_success _ _ _ [] _ [] hinv0 hn (by simp)
      (by rw [add32_eq hn]; exact ⟨rfl, by simp only; omega⟩)
  simp only [span, Nat.add_zero, hmem0] at h1
  rw [hmem0] at hmem1
  simp only [splitRegions, List.nil_append] at hinv1
  -- second allocation
  have hinv1b : Inv H s1 ([{ bytes := 4, used := true }]
      ++ { bytes := total - H - 4 - H, used := false } :: []) := hinv1
  obtain ⟨s2, h2, hinv2, hfree2, _, hmem2, _⟩ :=
    allocate_success hinv1b hn
      (by
        intro q hq hf
        simp only [List.mem_singleton] at hq
        subst hq
        exact Bool.noConfusion hf.1)
      (by rw [add32_eq hn]; exact ⟨rfl, by simp only; omega⟩)
  simp only [span, Nat.add_zero, hmem1] at h2
  rw [hmem1] at hmem2
  simp only [splitRegions, List.singleton_append] at hinv2
  -- third allocation
  have hinv2b : Inv H s2 ([{ bytes := 4, used := true }, { bytes := 4, used := true }]
      ++ { bytes := total - H - 4 - H - 4 - H, used := false } :: []) := hinv2
  obtain ⟨s3, h3, hinv3, hfree3, _, hmem3, _⟩ :=
    allocate_success hinv2b hn
      (by
        intro q hq hf
        simp only [List.mem_cons, List.mem_singleton, List.not_mem_nil, or_false] at hq
        rcases hq with rfl | rfl <;> exact Bool.noConfusion hf.1)
      (by rw [add32_eq hn]; exact ⟨rfl, by simp only; omega⟩)
  simp only [span, Nat.add_zero, hmem2] at h3
  rw [hmem2] at hmem3
  have e3 : total - H - 4 - H - 4 - H - 4 - H = total - 4 * H - 12 := by omega
  simp only [splitRegions, List.cons_append, List.nil_append, e3] at hinv3
  -- free the second block
  have hinv3b : Inv H s3 ([{ bytes := 4, used := true }] ++ { bytes := 4, used := true }
      :: [{ bytes := 4, used := true }, { bytes := total - 4 * H - 12, used := false }]) :=
    hinv3
  have hd1 := (deallocate_live hinv3b rfl).2.2
  obtain ⟨hinvd1, hfreed1, _, hmemd1, _⟩ := deallocateChunk_spec hinv3b rfl
  have hm1 : mergeRegions H [{ bytes := 4, used := true }] { bytes := 4, used := true }
      [{ bytes := 4, used := true }, { bytes := total - 4 * H - 12, used := false }]
      = [{ bytes := 4, used := true }, { bytes := 4, used := false },
         { bytes := 4, used := true }, { bytes := total - 4 * H - 12, used := false }] := by
    simp [mergeRegions, keepBefore, absorbedBefore, keepAfter, absorbedAfter]
  have hc1 : absorbedHeaders [{ bytes := 4, used := true }]
      [{ bytes := 4, used := true }, { bytes := total - 4 * H - 12, used := false }] = 0 := by
    simp [absorbedHeaders, absorbedCountBefore, absorbedCountAfter]
  simp only [span, Nat.add_zero, hmem3, hm1, hc1, Nat.mul_zero] at hd1 hinvd1 hfreed1 hmemd1
  generalize deallocateChunk H s3 (base + (H + 4)) = d1 at hd1 hinvd1 hfreed1 hmemd1
  -- free the first block
  have hinvd1b : Inv H d1
      ([] ++ { bytes := 4, used := true } :: [{ bytes := 4, used := false },
        { bytes := 4, used := true }, { bytes := total - 4 * H - 12, used := false }]) := hinvd1
  have hd2 := (deallocate_live hinvd1b rfl).2.2
  obtain ⟨hinvd2, hfreed2, _, hmemd2, _⟩ := deallocateChunk_spec hinvd1b rfl
  have hm2 : mergeRegions H [] { bytes := 4, used := true }
      [{ bytes := 4, used := false }, { bytes := 4, used := true },
        { bytes := total - 4 * H - 12, used := false }]
      = [{ bytes := 8 + H, used := false }, { bytes := 4, used := true },
         { bytes := total - 4 * H - 12, used := false }] := by
    simp [mergeRegions, keepAfter, absorbedAfter]
    omega
  have hc2 : absorbedHeaders []
      [{ bytes := 4, used := false }, { bytes := 4, used := true },
        { bytes := total - 4 * H - 12, used := false }] = 1 := by
    simp [absorbedHeaders, absorbedCountBefore, absorbedCountAfter]
  simp only [span, Nat.add_zero, hmemd1, hm2, hc2, Nat.mul_one] at hd2 hinvd2 hfreed2 hmemd2
  generalize deallocateChunk H d1 base = d2 at hd2 hinvd2 hfreed2 hmemd2
  -- free the third block
  have hinvd2b : Inv H d2
      ([{ bytes := 8 + H, used := false }] ++ { bytes := 4, used := true }
        :: [{ bytes := total - 4 * H - 12, used := false }]) := hinvd2
  have hd3 := (deallocate_live hinvd2b rfl).2.2
  obtain ⟨hinvd3, hfreed3, _, hmemd3, _⟩ := deallocateChunk_spec hinvd2b rfl
  have hm3 : mergeRegions H [{ bytes := 8 + H, used := false }] { bytes := 4, used := true }
      [{ bytes := total - 4 * H - 12, used := false }]
      = [{ bytes := total - H, used := false }] := by
    simp [mergeRegions, keepBefore, absorbedBefore, keepAfter, absorbedAfter]
    omega
  have hc3 : absorbedHeaders [{ bytes := 8 + H, used := false }]
      [{ bytes := total - 4 * H - 12, used := false }] = 2 := by
    simp [absorbedHeaders, absorbedCountBefore, absorbedCountAfter]
  simp only [span, Nat.add_zero, hmemd2, hm3, hc3] at hd3 hinvd3 hfreed3 hmemd3
  generalize deallocateChunk H d2 (base + (H + (8 + H))) = d3 at hd3 hinvd3 hfreed3 hmemd3
  have p1 : base + H + 4 = base + (H + 4) := by omega
  have p2 : base + (H + 4) + H + 4 = base + 2 * (H + 4) := by omega
  have p3 : base + 2 * (H + 4) + H + 4 = base + 3 * (H + 4) := by omega
  have p4 : base + H + (8 + H) = base + 2 * (H + 4) := by omega
  have p5 : base + (H + (8 + H)) = base + 2 * (H + 4) := by omega
  have p6 : base + H + 4 + H = base + (H + 4) + H := by omega
  refine ⟨s1, s2, s3, d1, d2, d3, h1, ?_, ?_, ?_, ?_, ?_, hfreed1, ?_, ?_, ?_, ?_, ?_, ?_,
    by omega⟩
  · rw [h2]
  · rw [h3, ← p2]
    congr 3
    omega
  · rw [headers_eq hinv3, hmem3]
    simp only [recs, linkTo, p1, p2, p3]
  · exact hd1
  · rw [headers_eq hinvd1, hmemd1]
    simp only [recs, linkTo, p1, p2, p3]
  · exact hd2
  · rw [headers_eq hinvd2, hmemd2]
    simp only [recs, linkTo, p4, p3]
  · rw [hfreed2]; omega
  · rw [p5] at hd3; exact hd3
  · rw [headers_eq hinvd3, hmemd3]
    simp only [recs, linkTo]
  · rw [hfreed3]; omega

theorem scenario_three_allocations_witness :
    0 < 24 ∧ 0 < 4096 ∧ 4 * 24 + 12 ≤ 128 ∧ 128 < U32 ∧ TrioScenario 24 trio0 4096 128 :=
  ⟨by decide, by decide, by decide, by decide,
    scenario_three_allocations 24 4096 demoHeap demoRaw 128 eTrashing.NONE (by decide)
      (by decide) (by decide) (by decide)⟩

/-! ## Header positions after a split and after a merge -/

theorem Inv.next_mem_chain {H : Nat} {s : cMemoryManager} {pre : List Region} {r : Region}
    {post : List Region} (hinv : Inv H s (pre ++ r :: post))
    (hN : (s.chunkAt (s.m_memory + span H pre)).m_next ≠ 0) :
    (s.chunkAt (s.m_memory + span H pre)).m_next = s.m_memory + span H pre + H + r.bytes ∧
    (s.chunkAt (s.m_memory + span H pre)).m_next ∈ chain s := by
  rw [hinv.chunkAt_mid] at hN ⊢
  simp only at hN ⊢
  cases post with
  | nil => exact absurd rfl hN
  | cons q post =>
    have hinv2 : Inv H s ((pre ++ [r]) ++ q :: post) := by
      rw [List.append_assoc]; exact hinv
    have := hinv2.mem_chain_mid
    simp only [span_append, span, Nat.add_zero] at this
    simp only [linkTo]
    refine ⟨trivial, ?_⟩
    have e : s.m_memory + span H pre + H + r.bytes = s.m_memory + (span H pre + (H + r.bytes)) := by
      omega
    rw [e]; exact this

theorem Inv.payload_no_header {H : Nat} {s : cMemoryManager} {l : List Region}
    (hinv : Inv H s l) (a x b : Nat) (ha : a ∈ chain s) (hx : x ∈ chain s) (hb1 : a + H ≤ b)
    (hb2 : b < a + H + (s.chunkAt a).m_bytes) : ¬ (x ≤ b ∧ b < x + H) := by
  have hd := hinv.headers_disjoint a x ha hx
  omega

/-- A header position of the list after a split is a header position of the list
before it, or the position of the new header. -/
theorem split_positions (H n : Nat) (pre : List Region) (r : Region) (post : List Region)
    (hb : n + H ≤ r.bytes) (pre2 : List Region) (r2 : Region) (post2 : List Region)
    (h : splitRegions H n pre r post = pre2 ++ r2 :: post2) :
    (∃ pre1 r1 post1, pre ++ r :: post = pre1 ++ r1 :: post1 ∧ span H pre1 = span H pre2) ∨
    span H pre2 = span H pre + H + n := by
  unfold splitRegions at h
  rcases append_cons_cases _ _ _ _ _ _ h with ⟨t, ht, _⟩ | ⟨ht, _, _⟩ | ⟨t, ht, hpost⟩
  · left
    exact ⟨pre2, r2, t ++ r :: post, by rw [ht]; simp, rfl⟩
  · left
    exact ⟨pre, r, post, rfl, by rw [ht]⟩
  · cases t with
    | nil =>
      right
      rw [ht]
      simp only [span_append, span]
      omega
    | cons q t =>
      left
      simp only [List.cons_append, List.cons.injEq] at hpost
      refine ⟨pre ++ r :: t, r2, post2, by rw [hpost.2]; simp, ?_⟩
      rw [ht, ← hpost.1]
      simp only [span_append, span]
      omega

theorem keepBefore_absorbs (H : Nat) (pre : List Region) :
    ∃ extra, pre = keepBefore pre ++ extra ∧ span H extra = absorbedBefore H pre ∧
      (extra = [] ∨ ∃ q, extra = [q]) := by
  rcases List.eq_nil_or_concat pre with hp | ⟨pre0, q, hp⟩
  · subst hp; exact ⟨[], by simp, by simp [span], Or.inl rfl⟩
  · rw [List.concat_eq_append] at hp; subst hp
    cases hq : q.used
    · exact ⟨[q], by simp [hq], by simp [hq, span]; omega, Or.inr ⟨q, rfl⟩⟩
    · exact ⟨[], by simp [hq], by simp [hq, span], Or.inl rfl⟩

theorem keepAfter_absorbs (H : Nat) (post : List Region) :
    ∃ extra, post = extra ++ keepAfter post ∧ span H extra = absorbedAfter H post := by
  cases post with
  | nil => exact ⟨[], rfl, rfl⟩
  | cons q post =>
    cases hq : q.used
    · exact ⟨[q], by simp [keepAfter, hq], by simp [absorbedAfter, hq, span]; omega⟩
    · exact ⟨[], by simp [keepAfter, hq], by simp [absorbedAfter, hq, span]⟩

/-- A header position of the list after a merge is a header position of the list
before it. -/
theorem merge_positions (H : Nat) (pre : List Region) (r : Region) (post : List Region)
    (pre2 : List Region) (r2 : Region) (post2 : List Region)
    (h : mergeRegions H pre r post = pre2 ++ r2 :: post2) :
    ∃ pre1 r1 post1, pre ++ r :: post = pre1 ++ r1 :: post1 ∧ span H pre1 = span H pre2 := by
  obtain ⟨eb, heb, hsb, hcases⟩ := keepBefore_absorbs H pre
  obtain ⟨ea, hea, hsa⟩ := keepAfter_absorbs H post
  unfold mergeRegions at h
  rcases append_cons_cases _ _ _ _ _ _ h with ⟨t, ht, _⟩ | ⟨ht, _, _⟩ | ⟨t, ht, hpost⟩
  · refine ⟨pre2, r2, t ++ eb ++ r :: post, ?_, rfl⟩
    rw [heb, ht]; simp
  · rcases hcases with he | ⟨q, he⟩
    · refine ⟨pre, r, post, rfl, ?_⟩
      rw [he, List.append_nil] at heb
      rw [← ht, ← heb]
    · refine ⟨keepBefore pre, q, r :: post, ?_, by rw [ht]⟩
      rw [he] at heb
      have e : pre ++ r :: post = (keepBefore pre ++ [q]) ++ r :: post := by rw [← heb]
      rw [e]; simp
  · refine ⟨pre ++ r :: ea ++ t, r2, post2, ?_, ?_⟩
    · rw [hea, hpost]; simp
    · have hkb := span_keepBefore H pre
      rw [ht]
      simp only [span_append, span]
      omega

/-! ## The bytes of reachable states -/

theorem chainFrom_userWrite (s : cMemoryManager) (a v : Nat) (fuel x : Nat) :
    chainFrom (userWrite s a v) fuel x = chainFrom s fuel x := by
  induction fuel generalizing x with
  | zero => rfl
  | succ f ih =>
    simp only [chainFrom]
    split
    · rfl
    · rw [ih]; rfl

theorem chain_userWrite (s : cMemoryManager) (a v : Nat) : chain (userWrite s a v) = chain s :=
  chainFrom_userWrite s a v _ _

theorem chain_allocate_subset {H n : Nat} {s s2 : cMemoryManager} {pre : List Region}
    {r : Region} {post : List Region} (hinv : Inv H s (pre ++ r :: post))
    (hinv2 : Inv H s2 (splitRegions H n pre r post)) (hmem : s2.m_memory = s.m_memory)
    (hb : n + H ≤ r.bytes) (x : Nat) (hx : x ∈ chain s2) :
    x ∈ chain s ∨ x = s.m_memory + span H pre + H + n := by
  obtain ⟨pre2, r2, post2, hl2, hx2, _, _⟩ := hinv2.chain_split x hx
  rcases split_positions H n pre r post hb pre2 r2 post2 hl2 with ⟨pre1, r1, post1, hl1, hsp⟩ | hsp
  · left
    rw [hl1] at hinv
    have := hinv.mem_chain_mid
    rw [hx2, hmem, ← hsp]
    exact this
  · right
    rw [hx2, hmem, hsp]
    omega

theorem chain_deallocate_subset {H : Nat} {s s2 : cMemoryManager} {pre : List Region}
    {r : Region} {post : List Region} (hinv : Inv H s (pre ++ r :: post))
    (hinv2 : Inv H s2 (mergeRegions H pre r post)) (hmem : s2.m_memory = s.m_memory)
    (x : Nat) (hx : x ∈ chain s2) : x ∈ chain s := by
  obtain ⟨pre2, r2, post2, hl2, hx2, _, _⟩ := hinv2.chain_split x hx
  obtain ⟨pre1, r1, post1, hl1, hsp⟩ := merge_positions H pre r post pre2 r2 post2 hl2
  rw [hl1] at hinv
  have := hinv.mem_chain_mid
  rw [hx2, hmem, ← hsp]
  exact this

theorem construct_byteAt (H base : Nat) (heap0 : Nat → cMemoryChunk) (raw0 : Nat → Option Nat)
    (bytes trashing b : Nat) :
    (cMemoryManager.cMemoryManager H base heap0 raw0 bytes trashing).byteAt b =
      if base ≤ b ∧ b < base + H then none
      else if trashing &&& eTrashing.ON_INITIALIZATION ≠ 0 ∧ base ≤ b ∧ b < base + bytes then
        some eTrashingValue.ON_INITIALIZATION
      else raw0 b := by
  unfold cMemoryManager.cMemoryManager
  by_cases ht : trashing &&& eTrashing.ON_INITIALIZATION = 0
  · simp [ht, store]
  · simp [ht, memset, store]

/-- The bytes after a successful `allocate`, in terms of the list of regions:
the fill covers the new payload, the three headers that were written hold header
bytes, every other byte is the one before the call. -/
theorem allocate_bytes_inv {H : Nat} {s : cMemoryManager} {n : Nat} {pre : List Region}
    {r : Region} {post : List Region} {p : Nat} {s2 : cMemoryManager}
    (hinv : Inv H s (pre ++ r :: post)) (hn : n + H < U32)
    (hpre : ∀ q ∈ pre, ¬ Fits (n + H) q) (hfit : Fits (n + H) r)
    (h : allocate H s n = some (p, s2)) (b : Nat) :
    s2.byteAt b =
      if s.m_trashing &&& eTrashing.ON_ALLOCATION ≠ 0 ∧ s.m_memory + span H pre + H ≤ b ∧
          b < s.m_memory + span H pre + H + n then some eTrashingValue.ON_ALLOCATION
      else if (s.m_memory + span H pre ≤ b ∧ b < s.m_memory + span H pre + H) ∨
          (s.m_memory + span H pre + H + n ≤ b ∧ b < s.m_memory + span H pre + H + n + H) ∨
          (post ≠ [] ∧ s.m_memory + span H pre + H + r.bytes ≤ b ∧
            b < s.m_memory + span H pre + H + r.bytes + H) then none
      else s.byteAt b := by
  have hH := hinv.hH
  have hbase := hinv.hbase
  have hfind := findChunk_of_inv (n := n) hinv (by rw [add32_eq hn]; exact hpre)
    (by rw [add32_eq hn]; exact hfit)
  rw [allocate_bytes H s n _ p s2 hfind (by omega) hH h b, hinv.chunkAt_mid]
  cases post with
  | nil => simp [linkTo]
  | cons q post =>
    have : s.m_memory + span H pre + H + r.bytes ≠ 0 := by omega
    simp [linkTo, this]

/-- The bytes after `deallocateChunk` on a header in use, in terms of the list of
regions. -/
theorem deallocateChunk_bytes_inv {H : Nat} {s : cMemoryManager} {pre : List Region}
    {r : Region} {post : List Region} (hinv : Inv H s (pre ++ r :: post))
    (hr : r.used = true) (b : Nat) :
    (deallocateChunk H s (s.m_memory + span H pre)).byteAt b =
      if s.m_trashing &&& eTrashing.ON_DEALLOCATION ≠ 0 ∧
          s.m_memory + span H (keepBefore pre) + H ≤ b ∧
          b < s.m_memory + span H pre + H + r.bytes + absorbedAfter H post then
        some eTrashingValue.ON_DEALLOCATION
      else if (s.m_memory + span H (keepBefore pre) ≤ b ∧
            b < s.m_memory + span H (keepBefore pre) + H) ∨
          (post ≠ [] ∧ s.m_memory + span H pre + H + r.bytes ≤ b ∧
            b < s.m_memory + span H pre + H + r.bytes + H) ∨
          (keepAfter post ≠ [] ∧ s.m_memory + span H pre + H + r.bytes + absorbedAfter H post ≤ b ∧
            b < s.m_memory + span H pre + H + r.bytes + absorbedAfter H post + H) then none
      else s.byteAt b := by
  have hH := hinv.hH
  have hbase := hinv.hbase
  have hseg := hinv.seg
  rw [Seg_append] at hseg
  obtain ⟨hs1, ha, hs3⟩ := hseg
  simp only [linkTo] at hs1
  obtain ⟨pf1, pf2, pf3, pf4, pf5⟩ := pre_facts s.chunkAt s.m_memory pre hbase hs1
  obtain ⟨qf1, qf2, ⟨pv, qf3⟩, qf4, qf5⟩ :=
    post_facts s.chunkAt (s.m_memory + span H pre) (s.m_memory + span H pre + H + r.bytes) post
      (by omega) hs3
  have hkb := span_keepBefore H pre
  obtain ⟨hinv2, _, _, hmem, _⟩ := deallocateChunk_spec hinv hr
  have hmb := hinv2.chunkAt_mid
  rw [hmem] at hmb
  have hP : (s.chunkAt (s.m_memory + span H pre)).m_previous = lastPos H 0 s.m_memory pre := by
    rw [ha]
  have hN : (s.chunkAt (s.m_memory + span H pre)).m_next
      = linkTo post (s.m_memory + span H pre + H + r.bytes) 0 := by rw [ha]
  rw [deallocateChunk_bytes H s _ _ _ _ _ hP hN pf1.symm qf2.symm b, hmb]
  have e : s.m_memory + span H (keepBefore pre) + H
        + (absorbedBefore H pre + r.bytes + absorbedAfter H post)
      = s.m_memory + span H pre + H + r.bytes + absorbedAfter H post := by omega
  simp only [e]
  have h1 : s.m_memory + span H pre + H + r.bytes ≠ 0 := by omega
  have h2 : s.m_memory + span H pre + H + r.bytes + absorbedAfter H post ≠ 0 := by omega
  cases post with
  | nil => simp [linkTo, keepAfter]
  | cons q post =>
    cases hk : keepAfter (q :: post) with
    | nil => simp [linkTo, h1]
    | cons q2 k2 => simp [linkTo, h1, h2]

/-- In a reachable state the bytes of every header of the chain are header
bytes: the fills and the stores of the caller never reach them. -/
theorem Reachable.headerBytes {H : Nat} {s : cMemoryManager} (h : Reachable H s) :
    HeaderBytes H s := by
  induction h with
  | construct base heap0 raw0 bytes trashing hH hbase hbytes hu =>
    have hinv := Inv_construct H base heap0 raw0 bytes trashing hH hbase hbytes hu
    intro x hx b hb1 hb2
    have hmem := construct_memory H base heap0 raw0 bytes trashing
    obtain ⟨pre, r, post, hl, hx2, _, _⟩ := hinv.chain_split x hx
    have hpre : pre = [] := by
      cases pre with
      | nil => rfl
      | cons q pre =>
        have := congrArg List.length hl
        simp at this
    subst hpre
    simp only [span, Nat.add_zero, hmem] at hx2
    rw [construct_byteAt, if_pos (by omega)]
  | allocate s n p s2 hs hn h ih =>
    obtain ⟨l, hinv⟩ := hs.inv
    by_cases hp : p = 0
    · obtain ⟨p2, s3, h3, h4⟩ :
          ∃ p s3, cMemoryManager.allocate H s n = some (p, s3) ∧ (p = 0 → s3 = s) := by
        obtain ⟨c, hc⟩ := findChunk_returns hinv n
        unfold cMemoryManager.allocate
        rw [hc]
        by_cases h0 : c = 0
        · simp only [h0, if_true]
          exact ⟨0, s, rfl, fun _ => rfl⟩
        · simp only [h0, if_false]
          exact ⟨_, _, rfl, fun hp => by omega⟩
      rw [h3] at h
      simp only [Option.some.injEq, Prod.mk.injEq] at h
      rw [← h.2, h4 (by rw [h.1]; exact hp)]
      exact ih
    · obtain ⟨pre, r, post, hl, hpre, hfit, hpeq, hinv2, hfree, htotal, hmem, htr⟩ :=
        allocate_inv hinv hn h hp
      subst hl
      have hH := hinv.hH
      intro x hx b hb1 hb2
      rw [allocate_bytes_inv hinv hn hpre hfit h b]
      -- the fill covers the payload of the selected header, which meets no header
      have hc2 : s.m_memory + span H pre ∈ chain s2 := by
        have := @Inv.mem_chain_mid _ _ (pre) _ _ hinv2
        rw [hmem] at this
        exact this
      have hcb : (s2.chunkAt (s.m_memory + span H pre)).m_bytes = n := by
        have := @Inv.chunkAt_mid _ _ (pre) _ _ hinv2
        rw [hmem] at this
        rw [this]
      have hnofill : ¬ (s.m_trashing &&& eTrashing.ON_ALLOCATION ≠ 0 ∧
          s.m_memory + span H pre + H ≤ b ∧ b < s.m_memory + span H pre + H + n) := by
        intro hf
        exact hinv2.payload_no_header _ x b hc2 hx hf.2.1 (by rw [hcb]; exact hf.2.2) ⟨hb1, hb2⟩
      rw [if_neg hnofill]
      split
      · rfl
      · rename_i hncl
        rcases chain_allocate_subset hinv hinv2 hmem hfit.2 x hx with hxs | hxn
        · exact ih x hxs b hb1 hb2
        · exfalso
          apply hncl
          right; left
          omega
  | deallocate s q s2 hs h ih =>
    obtain ⟨l, hinv⟩ := hs.inv
    by_cases hex : ∃ pre r post, l = pre ++ r :: post ∧ r.used = true
        ∧ q = s.m_memory + span H pre + H
    · obtain ⟨pre, r, post, hl, hru, hqe⟩ := hex
      subst hl hqe
      rw [(deallocate_live hinv hru).2.2] at h
      simp only [Option.some.injEq] at h
      obtain ⟨hinv2, _, _, hmem, _⟩ := deallocateChunk_spec hinv hru
      rw [h] at hinv2 hmem
      intro x hx b hb1 hb2
      rw [← h, deallocateChunk_bytes_inv hinv hru b]
      have hkb := span_keepBefore H pre
      have hc2 : s.m_memory + span H (keepBefore pre) ∈ chain s2 := by
        have := @Inv.mem_chain_mid _ _ (keepBefore pre) _ _ hinv2
        rw [hmem] at this
        exact this
      have hcb : (s2.chunkAt (s.m_memory + span H (keepBefore pre))).m_bytes
          = absorbedBefore H pre + r.bytes + absorbedAfter H post := by
        have := @Inv.chunkAt_mid _ _ (keepBefore pre) _ _ hinv2
        rw [hmem] at this
        rw [this]
      have hnofill : ¬ (s.m_trashing &&& eTrashing.ON_DEALLOCATION ≠ 0 ∧
          s.m_memory + span H (keepBefore pre) + H ≤ b ∧
          b < s.m_memory + span H pre + H + r.bytes + absorbedAfter H post) := by
        intro hf
        exact hinv2.payload_no_header _ x b hc2 hx hf.2.1 (by rw [hcb]; omega) ⟨hb1, hb2⟩
      rw [if_neg hnofill]
      split
      · rfl
      · exact ih x (chain_deallocate_subset hinv hinv2 hmem x hx) b hb1 hb2
    · rw [deallocate_noop hinv q (fun pre r post hl hru hp => hex ⟨pre, r, post, hl, hru, hp⟩)] at h
      simp only [Option.some.injEq] at h
      rw [← h]
      exact ih
  | write s a v hs ha ih =>
    obtain ⟨l, hinv⟩ := hs.inv
    intro x hx b hb1 hb2
    rw [chain_userWrite] at hx
    obtain ⟨c, hc, _, hc1, hc2⟩ := ha
    have hne : b ≠ a := by
      intro hba
      subst hba
      exact hinv.payload_no_header c x b hc hx hc1 hc2 ⟨hb1, hb2⟩
    have : (userWrite s a v).byteAt b = s.byteAt b := by
      simp [userWrite, hne]
    rw [this]
    exact ih x hx b hb1 hb2

theorem Inv.follow_mem_chain {H : Nat} {s : cMemoryManager} {pre : List Region} {r : Region}
    {post : List Region} (hinv : Inv H s (pre ++ r :: post)) (hpost : post ≠ []) :
    s.m_memory + span H pre + H + r.bytes ∈ chain s := by
  cases post with
  | nil => exact absurd rfl hpost
  | cons q post =>
    have hinv2 : Inv H s ((pre ++ [r]) ++ q :: post) := by
      rw [List.append_assoc]; exact hinv
    have := hinv2.mem_chain_mid
    simp only [span_append, span, Nat.add_zero] at this
    have e : s.m_memory + span H pre + H + r.bytes = s.m_memory + (span H pre + (H + r.bytes)) := by
      omega
    rw [e]; exact this

/-- Outside the payload of the merged free region every byte keeps its value
when `deallocateChunk` runs on a header in use. -/
theorem deallocateChunk_frame {H : Nat} {s : cMemoryManager} {pre : List Region}
    {r : Region} {post : List Region} (hhb : HeaderBytes H s)
    (hinv : Inv H s (pre ++ r :: post)) (hr : r.used = true) (b : Nat)
    (hb : ¬ (s.m_memory + span H (keepBefore pre) + H ≤ b ∧
      b < s.m_memory + span H pre + H + r.bytes + absorbedAfter H post)) :
    (deallocateChunk H s (s.m_memory + span H pre)).byteAt b = s.byteAt b := by
  obtain ⟨hinv2, _, _, hmem, _⟩ := deallocateChunk_spec hinv hr
  have hkb := span_keepBefore H pre
  rw [deallocateChunk_bytes_inv hinv hr b, if_neg (by omega)]
  split
  · rename_i hc
    rcases hc with ⟨hc1, hc2⟩ | ⟨hpost, hc1, hc2⟩ | ⟨hk, hc1, hc2⟩
    · have h2 := @Inv.mem_chain_mid _ _ (keepBefore pre) _ _ hinv2
      rw [hmem] at h2
      exact (hhb _ (chain_deallocate_subset hinv hinv2 hmem _ h2) b hc1 hc2).symm
    · exact (hhb _ (hinv.follow_mem_chain hpost) b hc1 hc2).symm
    · have h2 := @Inv.follow_mem_chain _ _ (keepBefore pre) _ (keepAfter post) hinv2 hk
      rw [hmem] at h2
      have e : s.m_memory + span H (keepBefore pre) + H
            + (absorbedBefore H pre + r.bytes + absorbedAfter H post)
          = s.m_memory + span H pre + H + r.bytes + absorbedAfter H post := by omega
      simp only [e] at h2
      exact (hhb _ (chain_deallocate_subset hinv hinv2 hmem _ h2) b hc1 hc2).symm
  · rfl

/-- The header the merged region starts at and its size, read from the fields of
the header that is freed and of its two neighbours. -/
theorem merged_header_facts {H : Nat} {s : cMemoryManager} {pre : List Region}
    {r : Region} {post : List Region} (hinv : Inv H s (pre ++ r :: post)) :
    (if (s.chunkAt (s.m_memory + span H pre)).m_previous ≠ 0 ∧
        (s.chunkAt (s.chunkAt (s.m_memory + span H pre)).m_previous).m_isInUse = false
      then (s.chunkAt (s.m_memory + span H pre)).m_previous else s.m_memory + span H pre)
      = s.m_memory + span H (keepBefore pre) ∧
    (if (s.chunkAt (s.m_memory + span H pre)).m_previous ≠ 0 ∧
        (s.chunkAt (s.chunkAt (s.m_memory + span H pre)).m_previous).m_isInUse = false
      then (s.chunkAt (s.chunkAt (s.m_memory + span H pre)).m_previous).m_bytes + H else 0)
      = absorbedBefore H pre ∧
    (if (s.chunkAt (s.m_memory + span H pre)).m_next ≠ 0 ∧
        (s.chunkAt (s.chunkAt (s.m_memory + span H pre)).m_next).m_isInUse = false
      then (s.chunkAt (s.chunkAt (s.m_memory + span H pre)).m_next).m_bytes + H else 0)
      = absorbedAfter H post ∧
    (s.chunkAt (s.m_memory + span H pre)).m_bytes = r.bytes := by
  have hH := hinv.hH
  have hbase := hinv.hbase
  have hseg := hinv.seg
  rw [Seg_append] at hseg
  obtain ⟨hs1, ha, hs3⟩ := hseg
  simp only [linkTo] at hs1
  obtain ⟨pf1, pf2, pf3, pf4, pf5⟩ := pre_facts s.chunkAt s.m_memory pre hbase hs1
  obtain ⟨qf1, qf2, ⟨pv, qf3⟩, qf4, qf5⟩ :=
    post_facts s.chunkAt (s.m_memory + span H pre) (s.m_memory + span H pre + H + r.bytes) post
      (by omega) hs3
  have hP : (s.chunkAt (s.m_memory + span H pre)).m_previous = lastPos H 0 s.m_memory pre := by
    rw [ha]
  have hN : (s.chunkAt (s.m_memory + span H pre)).m_next
      = linkTo post (s.m_memory + span H pre + H + r.bytes) 0 := by rw [ha]
  rw [hP, hN]
  exact ⟨pf1, pf4, qf4, by rw [ha]⟩

/-! ## Trashing and the frame of `allocate` and `deallocate` -/

/-- C13 (trash on allocation).  When `allocate(n)` returns a non-null `p` in a
reachable state (`n + H < 2 ^ 32`, any trashing policy): if the bit
`ON_ALLOCATION` of the policy is set, each of the bytes `[p, p + n)` is `0xAA`
afterwards; if it is not set, each of these bytes is the one before the call;
in both cases the header written at `p + n` is in the chain, free, linked back
to `p - H`, forward to the old successor of `p - H`, and its `H` bytes are header
bytes, which the fill did not reach.  Only the bit `ON_ALLOCATION` is
consulted. -/
theorem allocate_trashes (H : Nat) (s : cMemoryManager) (n p : Nat) (s2 : cMemoryManager)
    (hr : Reachable H s) (hn : n + H < U32) (h : allocate H s n = some (p, s2)) (hp : p ≠ 0) :
    (s.m_trashing &&& eTrashing.ON_ALLOCATION ≠ 0 →
      ∀ b, p ≤ b → b < p + n → s2.byteAt b = some eTrashingValue.ON_ALLOCATION) ∧
    (s.m_trashing &&& eTrashing.ON_ALLOCATION = 0 →
      ∀ b, p ≤ b → b < p + n → s2.byteAt b = s.byteAt b) ∧
    p + n ∈ chain s2 ∧
    s2.chunkAt (p + n) =
      { m_isInUse := false, m_bytes := (s.chunkAt (p - H)).m_bytes - n - H,
        m_previous := p - H, m_next := (s.chunkAt (p - H)).m_next } ∧
    (∀ b, p + n ≤ b → b < p + n + H → s2.byteAt b = none) ∧
    s2.m_trashing = s.m_trashing := by
  obtain ⟨l, hinv⟩ := hr.inv
  obtain ⟨pre, r, post, hl, hpre, hfit, hpeq, hinv2, hfree, htotal, hmem, htr⟩ :=
    allocate_inv hinv hn h hp
  subst hl
  have hH := hinv.hH
  have hle := hfit.2
  have hsub : p - H = s.m_memory + span H pre := by omega
  have hnew : p + n = s2.m_memory
      + span H (pre ++ [({ bytes := n, used := true } : Region)]) := by
    simp only [span_append, span, Nat.add_zero, hmem]; omega
  have hinv3 : Inv H s2 ((pre ++ [({ bytes := n, used := true } : Region)]) ++
      ({ bytes := r.bytes - n - H, used := false } : Region) :: post) := by
    rw [List.append_assoc]; exact hinv2
  refine ⟨?_, ?_, ?_, ?_, ?_, htr⟩
  · intro hbit b hb1 hb2
    rw [allocate_bytes_inv hinv hn hpre hfit h b, if_pos ⟨hbit, by omega, by omega⟩]
  · intro hbit b hb1 hb2
    rw [allocate_bytes_inv hinv hn hpre hfit h b, if_neg (fun hc => hc.1 hbit), if_neg]
    intro hc
    rcases hc with hc | hc | ⟨_, hc1, hc2⟩ <;> omega
  · rw [hnew]; exact hinv3.mem_chain_mid
  · rw [hnew, hinv3.chunkAt_mid, ← hnew, hsub, hinv.chunkAt_mid, lastPos_append_cons]
    simp only [lastPos, cMemoryChunk.mk.injEq, true_and, hmem]
    have e : p + n + H + (r.bytes - n - H) = s.m_memory + span H pre + H + r.bytes := by omega
    rw [e]
  · exact (hr.allocate s n p s2 hn h).headerBytes _ (by rw [hnew]; exact hinv3.mem_chain_mid)

theorem allocate_trashes_witness :
    Reachable 24 demo0 ∧ 8 + 24 < U32 ∧ allocate 24 demo0 8 = some (4120, demo1) ∧ 4120 ≠ 0 ∧
    demo0.m_trashing &&& eTrashing.ON_ALLOCATION ≠ 0 ∧
    (∀ b, 4120 ≤ b → b < 4120 + 8 → demo1.byteAt b = some eTrashingValue.ON_ALLOCATION) ∧
    4120 + 8 ∈ chain demo1 ∧
    (∀ b, 4120 + 8 ≤ b → b < 4120 + 8 + 24 → demo1.byteAt b = none) :=
  have h := allocate_trashes 24 demo0 8 4120 demo1 demo0_reachable (by decide) demo1_allocate
    (by decide)
  ⟨demo0_reachable, by decide, demo1_allocate, by decide, by decide, h.1 (by decide), h.2.2.1,
    h.2.2.2.2.1⟩

theorem mergedStart_eq {H : Nat} {s : cMemoryManager} {pre : List Region}
    {r : Region} {post : List Region} (hinv : Inv H s (pre ++ r :: post)) :
    mergedStart s (s.m_memory + span H pre) = s.m_memory + span H (keepBefore pre) ∧
    mergedSize H s (s.m_memory + span H pre)
      = absorbedBefore H pre + r.bytes + absorbedAfter H post := by
  obtain ⟨m1, m2, m3, m4⟩ := merged_header_facts hinv
  unfold mergedStart mergedSize
  rw [m1, m2, m3, m4]
  exact ⟨rfl, by omega⟩

/-- C14 (trash on deallocation).  For a live pointer `p` in a state whose policy
has the bit `ON_DEALLOCATION` set, `deallocate(p)` returns; the merged free
header is in the chain at the merge start (the free header before `p - H`, or
else `p - H`) with the merged size (the freed payload plus payload and header
of each absorbed neighbour); every byte from merge start `+ H` up to merge start
`+ H +` merged size is `0xDD` afterwards, the bytes where the absorbed headers
were included; every byte outside that range has the value it had before the
call; the header that follows the merged region, when there is one, starts
right where that range ends and its bytes, like those of every header of the
resulting chain, are header bytes that the fill did not reach. -/
theorem deallocate_trashes (H : Nat) (s : cMemoryManager) (p : Nat)
    (hlive : Outstanding H s p) (hbit : s.m_trashing &&& eTrashing.ON_DEALLOCATION ≠ 0) :
    ∃ s2, deallocate H s p = some s2 ∧
      mergedStart s (p - H) ∈ chain s2 ∧
      (s2.chunkAt (mergedStart s (p - H))).m_isInUse = false ∧
      (s2.chunkAt (mergedStart s (p - H))).m_bytes = mergedSize H s (p - H) ∧
      mergedStart s (p - H) ≤ p - H ∧
      p + (s.chunkAt (p - H)).m_bytes ≤ mergedStart s (p - H) + H + mergedSize H s (p - H) ∧
      (∀ b, mergedStart s (p - H) + H ≤ b →
        b < mergedStart s (p - H) + H + mergedSize H s (p - H) →
        s2.byteAt b = some eTrashingValue.ON_DEALLOCATION) ∧
      (∀ b, ¬ (mergedStart s (p - H) + H ≤ b ∧
          b < mergedStart s (p - H) + H + mergedSize H s (p - H)) →
        s2.byteAt b = s.byteAt b) ∧
      ((s2.chunkAt (mergedStart s (p - H))).m_next ≠ 0 →
        (s2.chunkAt (mergedStart s (p - H))).m_next
          = mergedStart s (p - H) + H + mergedSize H s (p - H)) ∧
      (∀ x ∈ chain s2, ∀ b, x ≤ b → b < x + H → s2.byteAt b = none) := by
  obtain ⟨hr, l, hinv, pre, r, post, hl, hru, hpe⟩ := hlive.live
  subst hl
  have hH := hinv.hH
  have hsub : p - H = s.m_memory + span H pre := by omega
  obtain ⟨_, _, h3⟩ := deallocate_live hinv hru
  rw [← hpe] at h3
  obtain ⟨hinv2, _, _, hmem, _⟩ := deallocateChunk_spec hinv hru
  obtain ⟨hS, hZ⟩ := mergedStart_eq hinv
  have hkb := span_keepBefore H pre
  have hcb : (s.chunkAt (s.m_memory + span H pre)).m_bytes = r.bytes := by
    rw [hinv.chunkAt_mid]
  have hSrec := @Inv.chunkAt_mid _ _ (keepBefore pre) _ _ hinv2
  rw [hmem] at hSrec
  have hS2 := @Inv.mem_chain_mid _ _ (keepBefore pre) _ _ hinv2
  rw [hmem] at hS2
  have hnext := @Inv.next_mem_chain _ _ (keepBefore pre) _ _ hinv2
  rw [hmem] at hnext
  have hr2 : Reachable H (deallocateChunk H s (s.m_memory + span H pre)) :=
    hr.deallocate s p _ h3
  rw [hsub, hS, hZ]
  refine ⟨_, h3, hS2, by rw [hSrec], by rw [hSrec], by omega, by rw [hcb]; omega, ?_, ?_, ?_,
    hr2.headerBytes⟩
  · intro b hb1 hb2
    rw [deallocateChunk_bytes_inv hinv hru b, if_pos ⟨hbit, hb1, by omega⟩]
  · intro b hb
    exact deallocateChunk_frame hr.headerBytes hinv hru b (by omega)
  · intro hne
    rw [(hnext hne).1]

theorem deallocate_trashes_witness :
    Outstanding 24 demo1 4120 ∧ demo1.m_trashing &&& eTrashing.ON_DEALLOCATION ≠ 0 ∧
    mergedStart demo1 (4120 - 24) = 4096 ∧ mergedSize 24 demo1 (4120 - 24) = 40 ∧
    ∃ s2, deallocate 24 demo1 4120 = some s2 ∧
      (∀ b, 4096 + 24 ≤ b → b < 4096 + 24 + 40 →
        s2.byteAt b = some eTrashingValue.ON_DEALLOCATION) ∧
      (∀ b, ¬ (4096 + 24 ≤ b ∧ b < 4096 + 24 + 40) → s2.byteAt b = demo1.byteAt b) :=
  have h := deallocate_trashes 24 demo1 4120 demo1_outstanding (by decide)
  have e1 : mergedStart demo1 (4120 - 24) = 4096 := by decide
  have e2 : mergedSize 24 demo1 (4120 - 24) = 40 := by decide
  ⟨demo1_outstanding, by decide, e1, e2,
    h.elim fun s2 hs2 => ⟨s2, hs2.1, e1 ▸ e2 ▸ hs2.2.2.2.2.2.2.1, e1 ▸ e2 ▸ hs2.2.2.2.2.2.2.2.1⟩⟩

theorem dump_rows_zero (s : cMemoryManager) (fuel memoryIterator characterIterator : Nat)
    (h : (memoryIterator - s.m_memory) % U32 < s.m_totalBytesCount) :
    dump.rows s 0 fuel memoryIterator characterIterator = none := by
  induction fuel generalizing characterIterator with
  | zero => rfl
  | succ f ih =>
    unfold dump.rows
    rw [if_pos h, Nat.add_zero, ih]

theorem sub32_one {b : Nat} (h1 : 1 ≤ b) (hu : b < U32) : sub32 b 1 = b - 1 := by
  unfold sub32 U32 at *
  omega

theorem representation_mem (s : cMemoryManager) (bytesPerRow memoryIterator : Nat)
    (t : DumpToken) (ht : t ∈ dump.representation s bytesPerRow memoryIterator) :
    ∃ j, j < bytesPerRow ∧ t = DumpToken.asciiByte (readByte s (memoryIterator + j)) := by
  unfold dump.representation at ht
  rw [List.mem_map] at ht
  obtain ⟨j, hj, e⟩ := ht
  exact ⟨j, List.mem_range.mp hj, e.symm⟩

theorem row_mem_aux (s : cMemoryManager) (bytesPerRow memoryIterator characterIterator : Nat)
    (t : DumpToken) (l : List Nat) (hl : ∀ i ∈ l, i < bytesPerRow)
    (h : t ∈ l.foldr (fun charIndex rest =>
        if charIndex < sub32 bytesPerRow 1 then
          DumpToken.hexByte (readByte s (characterIterator + charIndex)) false :: rest
        else
          DumpToken.hexByte (readByte s (characterIterator + charIndex)) true ::
            (dump.representation s bytesPerRow memoryIterator ++ rest)) []) :
    (∃ i last, i < bytesPerRow ∧
      t = DumpToken.hexByte (readByte s (characterIterator + i)) last) ∨
    (∃ j, j < bytesPerRow ∧ t = DumpToken.asciiByte (readByte s (memoryIterator + j))) := by
  induction l with
  | nil => simp at h
  | cons a l ih =>
    have ha := hl a (List.mem_cons_self _ _)
    have hl2 : ∀ i ∈ l, i < bytesPerRow := fun i hi => hl i (List.mem_cons_of_mem _ hi)
    rw [List.foldr_cons] at h
    by_cases hlt : a < sub32 bytesPerRow 1
    · rw [if_pos hlt, List.mem_cons] at h
      rcases h with h | h
      · exact Or.inl ⟨a, false, ha, h⟩
      · exact ih hl2 h
    · rw [if_neg hlt, List.mem_cons, List.mem_append] at h
      rcases h with h | h | h
      · exact Or.inl ⟨a, true, ha, h⟩
      · exact Or.inr (representation_mem s _ _ t h)
      · exact ih hl2 h

/-- The items of one row: bytes read at `characterIterator + charIndex` and at
`memoryIterator + representationIndex`, both indices below `bytesPerRow`. -/
theorem row_mem (s : cMemoryManager) (bytesPerRow memoryIterator characterIterator : Nat)
    (t : DumpToken) (ht : t ∈ dump.row s bytesPerRow memoryIterator characterIterator) :
    (∃ i last, i < bytesPerRow ∧ t = DumpToken.hexByte (readByte s (characterIterator + i)) last) ∨
    (∃ j, j < bytesPerRow ∧ t = DumpToken.asciiByte (readByte s (memoryIterator + j))) :=
  row_mem_aux s bytesPerRow memoryIterator characterIterator t (List.range bytesPerRow)
    (fun i hi => List.mem_range.mp hi) ht

theorem row_last_mem_aux (s : cMemoryManager)
    (bytesPerRow memoryIterator characterIterator : Nat)
    (h1 : 1 ≤ bytesPerRow) (hu : bytesPerRow < U32) (l : List Nat) (hl : bytesPerRow - 1 ∈ l) :
    DumpToken.hexByte (readByte s (characterIterator + (bytesPerRow - 1))) true
      ∈ l.foldr (fun charIndex rest =>
        if charIndex < sub32 bytesPerRow 1 then
          DumpToken.hexByte (readByte s (characterIterator + charIndex)) false :: rest
        else
          DumpToken.hexByte (readByte s (characterIterator + charIndex)) true ::
            (dump.representation s bytesPerRow memoryIterator ++ rest)) [] := by
  induction l with
  | nil => simp at hl
  | cons a l ih =>
    rw [List.foldr_cons]
    rw [List.mem_cons] at hl
    by_cases hlt : a < sub32 bytesPerRow 1
    · rw [if_pos hlt, List.mem_cons]
      right
      rcases hl with hl | hl
      · rw [sub32_one h1 hu] at hlt; omega
      · exact ih hl
    · rw [if_neg hlt, List.mem_cons]
      rcases hl with hl | hl
      · left; rw [hl]
      · right; rw [List.mem_append]; right; exact ih hl

/-- The last byte of the central column of a row is read at
`characterIterator + bytesPerRow - 1`. -/
theorem row_last_mem (s : cMemoryManager) (bytesPerRow memoryIterator characterIterator : Nat)
    (h1 : 1 ≤ bytesPerRow) (hu : bytesPerRow < U32) :
    DumpToken.hexByte (readByte s (characterIterator + (bytesPerRow - 1))) true
      ∈ dump.row s bytesPerRow memoryIterator characterIterator :=
  row_last_mem_aux s bytesPerRow memoryIterator characterIterator h1 hu (List.range bytesPerRow)
    (List.mem_range.mpr (by omega))

theorem row_count_newline (s : cMemoryManager)
    (bytesPerRow memoryIterator characterIterator : Nat) :
    (dump.row s bytesPerRow memoryIterator characterIterator).count DumpToken.newline = 0 := by
  rw [List.count_eq_zero]
  intro h
  rcases row_mem s _ _ _ _ h with ⟨i, last, _, e⟩ | ⟨j, _, e⟩ <;> exact DumpToken.noConfusion e

theorem readByte_inside (s : cMemoryManager) (a : Nat) (h1 : s.m_memory ≤ a)
    (h2 : a < s.m_memory + s.m_totalBytesCount) : readByte s a = ByteRead.inRange (s.byteAt a) := by
  unfold readByte
  rw [if_pos ⟨h1, h2⟩]

theorem readByte_outside (s : cMemoryManager) (a : Nat)
    (h : s.m_memory + s.m_totalBytesCount ≤ a) : readByte s a = ByteRead.outOfRange a := by
  unfold readByte
  rw [if_neg (by omega)]

/-- The outer loop of `dump` for `bytesPerRow >= 1`, started at a row boundary
`off` with both iterators at `m_memory + off`: it ends, it emits one row per
multiple of `bytesPerRow` below `m_totalBytesCount`, every read is in range when
`bytesPerRow` divides `m_totalBytesCount`, and the last row reads past the
buffer when it does not. -/
theorem dump_rows_spec (s : cMemoryManager) (bytesPerRow : Nat) (h1 : 1 ≤ bytesPerRow)
    (hu : s.m_totalBytesCount + bytesPerRow ≤ U32) :
    ∀ fuel off, bytesPerRow ∣ off → off < s.m_totalBytesCount + bytesPerRow →
      s.m_totalBytesCount ≤ off + fuel * bytesPerRow →
      ∃ out, dump.rows s bytesPerRow (fuel + 1) (s.m_memory + off) (s.m_memory + off) = some out ∧
        rowCount out = (s.m_totalBytesCount + bytesPerRow - 1 - off) / bytesPerRow ∧
        (bytesPerRow ∣ s.m_totalBytesCount → ∀ t ∈ out, t.readsOutside = false) ∧
        (¬ bytesPerRow ∣ s.m_totalBytesCount → off < s.m_totalBytesCount →
          ∃ a, s.m_memory + s.m_totalBytesCount ≤ a ∧
            DumpToken.hexByte (ByteRead.outOfRange a) true ∈ out) := by
  intro fuel
  induction fuel with
  | zero =>
    intro off hdvd hoff hfuel
    have hge : s.m_totalBytesCount ≤ off := by omega
    have hc : ¬ ((s.m_memory + off - s.m_memory) % U32 < s.m_totalBytesCount) := by
      rw [Nat.add_sub_cancel_left, Nat.mod_eq_of_lt (by omega)]
      omega
    refine ⟨[], ?_, ?_, ?_, ?_⟩
    · simp only [dump.rows, if_neg hc]
    · have : (s.m_totalBytesCount + bytesPerRow - 1 - off) / bytesPerRow = 0 :=
        Nat.div_eq_of_lt (by omega)
      rw [this]; rfl
    · intro _ t ht; simp at ht
    · intro _ h; omega
  | succ f ih =>
    intro off hdvd hoff hfuel
    by_cases hlt : off < s.m_totalBytesCount
    · have hc : (s.m_memory + off - s.m_memory) % U32 < s.m_totalBytesCount := by
        rw [Nat.add_sub_cancel_left, Nat.mod_eq_of_lt (by omega)]
        exact hlt
      have hfuel2 : s.m_totalBytesCount ≤ off + bytesPerRow + f * bytesPerRow := by
        rw [Nat.succ_mul] at hfuel; omega
      obtain ⟨rest, hrest, hcount, hin, hout⟩ :=
        ih (off + bytesPerRow) (Dvd.dvd.add hdvd (dvd_refl _)) (by omega) hfuel2
      rw [← Nat.add_assoc] at hrest
      refine ⟨_, by rw [dump.rows, if_pos hc, hrest], ?_, ?_, ?_⟩
      · unfold rowCount at hcount ⊢
        rw [List.count_cons, List.count_append, row_count_newline, List.count_cons, hcount]
        simp only [beq_self_eq_true, if_true, Nat.zero_add]
        have e : s.m_totalBytesCount + bytesPerRow - 1 - off
            = (s.m_totalBytesCount + bytesPerRow - 1 - (off + bytesPerRow)) + bytesPerRow := by
          omega
        rw [e, Nat.add_div_right _ (by omega)]
        simp
      · intro htot t ht
        have hfull : off + bytesPerRow ≤ s.m_totalBytesCount := by
          obtain ⟨a, ha⟩ := hdvd
          obtain ⟨c, hc2⟩ := htot
          rw [ha, hc2] at hlt
          have hac : a < c := Nat.lt_of_mul_lt_mul_left hlt
          rw [ha, hc2]
          calc bytesPerRow * a + bytesPerRow = bytesPerRow * (a + 1) := by ring
            _ ≤ bytesPerRow * c := Nat.mul_le_mul_left _ hac
        rw [List.mem_cons, List.mem_append, List.mem_cons] at ht
        rcases ht with ht | ht | ht | ht
        · rw [ht]; rfl
        · rcases row_mem s _ _ _ t ht with ⟨i, last, hi, e⟩ | ⟨j, hj, e⟩
          · rw [e, readByte_inside s _ (by omega) (by omega)]; rfl
          · rw [e, readByte_inside s _ (by omega) (by omega)]; rfl
        · rw [ht]; rfl
        · exact hin htot t ht
      · intro hnd _
        by_cases hlast : off + bytesPerRow < s.m_totalBytesCount
        · obtain ⟨a, ha, hmem⟩ := hout hnd hlast
          refine ⟨a, ha, ?_⟩
          rw [List.mem_cons, List.mem_append, List.mem_cons]
          exact Or.inr (Or.inr (Or.inr hmem))
        · have hne : off + bytesPerRow ≠ s.m_totalBytesCount := by
            intro e
            apply hnd
            rw [← e]
            exact Dvd.dvd.add hdvd (dvd_refl _)
          refine ⟨s.m_memory + off + (bytesPerRow - 1), by omega, ?_⟩
          have := row_last_mem s bytesPerRow (s.m_memory + off) (s.m_memory + off) h1
            (by unfold U32 at *; omega)
          rw [readByte_outside s _ (by omega)] at this
          rw [List.mem_cons, List.mem_append]
          exact Or.inr (Or.inl this)
    · have hc : ¬ ((s.m_memory + off - s.m_memory) % U32 < s.m_totalBytesCount) := by
        rw [Nat.add_sub_cancel_left, Nat.mod_eq_of_lt (by omega)]
        exact hlt
      refine ⟨[], ?_, ?_, ?_, ?_⟩
      · simp only [dump.rows, if_neg hc]
      · have : (s.m_totalBytesCount + bytesPerRow - 1 - off) / bytesPerRow = 0 :=
          Nat.div_eq_of_lt (by omega)
        rw [this]; rfl
      · intro _ t ht; simp at ht
      · intro _ h; omega

theorem Inv.total_pos {H : Nat} {s : cMemoryManager} {l : List Region} (hinv : Inv H s l) :
    0 < s.m_totalBytesCount := by
  have h := span_pos_of_ne_nil hinv.hH hinv.lastFree.ne_nil
  rw [hinv.span_eq] at h
  exact h

/-- C17 (dump runs to completion), evaluated at `bytesPerRow = 0`.  In every
reachable state the outer loop of `dump(0)` never ends: `memoryIterator` is
advanced by `0`, the inner loop does not run, and the loop condition
`0 < m_totalBytesCount` holds at every evaluation; with any bound on the number
of evaluations the call has not returned.  For `bytesPerRow >= 1` with
`m_totalBytesCount + bytesPerRow <= 2 ^ 32` the call returns its text after at
most `m_totalBytesCount + 1` evaluations of the condition. -/
theorem dump_zero_never_returns (H : Nat) (s : cMemoryManager) (hr : Reachable H s) :
    (∀ fuel, dump fuel s 0 = none) ∧
    (∀ bytesPerRow, 1 ≤ bytesPerRow → s.m_totalBytesCount + bytesPerRow ≤ U32 →
      ∃ out, dump (s.m_totalBytesCount + 1) s bytesPerRow = some out) := by
  obtain ⟨l, hinv⟩ := hr.inv
  have hpos := hinv.total_pos
  constructor
  · intro fuel
    unfold dump
    rw [dump_rows_zero s fuel s.m_memory s.m_memory (by rw [Nat.sub_self]; exact hpos)]
  · intro bytesPerRow h1 hu
    obtain ⟨out, hout, _⟩ := dump_rows_spec s bytesPerRow h1 hu s.m_totalBytesCount 0
      (dvd_zero _) (by omega) (by
        have := Nat.le_mul_of_pos_right s.m_totalBytesCount h1
        omega)
    simp only [Nat.add_zero] at hout
    exact ⟨_, by unfold dump; rw [hout]⟩

theorem dump_zero_never_returns_witness :
    Reachable 24 demo0 ∧ dump 1000000 demo0 0 = none ∧
    ∃ out, dump (demo0.m_totalBytesCount + 1) demo0 16 = some out :=
  have h := dump_zero_never_returns 24 demo0 demo0_reachable
  ⟨demo0_reachable, h.1 1000000, h.2 16 (by decide) (by decide)⟩

/-- C20 (dump reads only the arena), evaluated for `bytesPerRow >= 1` with
`m_totalBytesCount + bytesPerRow <= 2 ^ 32` in a reachable state.  `dump`
returns and emits `ceil(m_totalBytesCount / bytesPerRow)` rows.  When
`bytesPerRow` divides `m_totalBytesCount` every byte it reads lies in the
buffer.  When it does not, the last row is read in full: the last byte of its
central column is read at an address at or past `m_memory + m_totalBytesCount`,
through the out-of-range branch of the checked read. -/
theorem dump_reads_past_arena (H : Nat) (s : cMemoryManager) (bytesPerRow : Nat)
    (hr : Reachable H s) (h1 : 1 ≤ bytesPerRow) (hu : s.m_totalBytesCount + bytesPerRow ≤ U32) :
    ∃ out, dump (s.m_totalBytesCount + 1) s bytesPerRow = some out ∧
      rowCount out = (s.m_totalBytesCount + bytesPerRow - 1) / bytesPerRow ∧
      (bytesPerRow ∣ s.m_totalBytesCount → ∀ t ∈ out, t.readsOutside = false) ∧
      (¬ bytesPerRow ∣ s.m_totalBytesCount →
        ∃ a, s.m_memory + s.m_totalBytesCount ≤ a ∧
          DumpToken.hexByte (ByteRead.outOfRange a) true ∈ out) := by
  obtain ⟨l, hinv⟩ := hr.inv
  have hpos := hinv.total_pos
  obtain ⟨rows, hrows, hcount, hin, hout⟩ := dump_rows_spec s bytesPerRow h1 hu
    s.m_totalBytesCount 0 (dvd_zero _) (by omega) (by
      have := Nat.le_mul_of_pos_right s.m_totalBytesCount h1
      omega)
  simp only [Nat.add_zero] at hrows
  rw [Nat.sub_zero] at hcount
  refine ⟨_, by unfold dump; rw [hrows], ?_, ?_, ?_⟩
  · unfold rowCount at hcount ⊢
    rw [List.count_append, hcount]
    rfl
  · intro hd t ht
    rcases List.mem_append.mp ht with ht | ht
    · exact hin hd t ht
    · simp only [List.mem_cons, List.mem_singleton, List.not_mem_nil, or_false] at ht
      rcases ht with ht | ht <;> rw [ht] <;> rfl
  · intro hnd
    obtain ⟨a, ha, hmem⟩ := hout hnd hpos
    exact ⟨a, ha, List.mem_append_left _ hmem⟩

theorem dump_reads_past_arena_witness :
    Reachable 24 demo0 ∧ 1 ≤ 10 ∧ demo0.m_totalBytesCount + 10 ≤ U32 ∧
    demo0.m_totalBytesCount = 64 ∧ ¬ 10 ∣ demo0.m_totalBytesCount ∧
    ∃ out, dump (demo0.m_totalBytesCount + 1) demo0 10 = some out ∧
      rowCount out = (demo0.m_totalBytesCount + 10 - 1) / 10 ∧
      ∃ a, demo0.m_memory + demo0.m_totalBytesCount ≤ a ∧
        DumpToken.hexByte (ByteRead.outOfRange a) true ∈ out :=
  have h := dump_reads_past_arena 24 demo0 10 demo0_reachable (by decide) (by decide)
  ⟨demo0_reachable, by decide, by decide, by decide, by decide,
    h.elim fun out ho => ⟨out, ho.1, ho.2.1, ho.2.2.2 (by decide)⟩⟩

/-- The rows of `dump(10)` on the fresh 64-byte manager: seven rows, the last of
which reads the six bytes at offsets 64 to 69, past the end of the buffer. -/
theorem dump_demo0_rows :
    ∃ out, dump 8 demo0 10 = some out ∧ rowCount out = 7 ∧
      DumpToken.hexByte (ByteRead.outOfRange (4096 + 64)) false ∈ out ∧
      DumpToken.hexByte (ByteRead.outOfRange (4096 + 69)) true ∈ out ∧
      DumpToken.asciiByte (ByteRead.outOfRange (4096 + 64)) ∈ out ∧
      DumpToken.asciiByte (ByteRead.outOfRange (4096 + 69)) ∈ out :=
  ⟨_, rfl, by decide, by decide, by decide, by decide, by decide⟩

end MemoryManager
